import Mathlib

/-!
# llama2.cpp: numeric kernels, weight layout and the forward step

A shallow embedding of `include/llama2cpp/ops.hpp` and
`include/llama2cpp/transformer.hpp`.

* `float` is an arbitrary scalar type `α` (the theorems take an ordered field,
  the reals where a claim speaks of `exp`, `sqrt`, ...); the `libm` calls are
  the fields of `Libm α`.  `Ieee` adds the infinities and NaN to exact finite
  values, for the one kernel (`matmul`) whose claim depends on them.
* C `int` values are `Int`.  Index arithmetic inside the kernels and `forward`
  is exact; the layout arithmetic of `memory_map_weights` and the element counts
  of `malloc_run_state` are wrapped explicitly (`wrapInt`, `wrapULL`) so that
  they can be read both over the unbounded integers and over machine words.
* Memory is a family of buffers `ι → List α`; a `float *` is a buffer name and
  an element offset.  A load or store outside the buffer, and an integer
  division by zero, have no defined behaviour in C: they make the embedded
  function return `none`.
-/

set_option linter.unusedSectionVars false

namespace Llama2

/-! ## Memory -/

/-- A `float *`: a buffer and an element offset into it. -/
structure Ptr (ι : Type) where
  buf : ι
  off : Int

/-- Pointer arithmetic `p + k`. -/
def Ptr.add {ι : Type} (p : Ptr ι) (k : Int) : Ptr ι := ⟨p.buf, p.off + k⟩

/-- The buffers of a program state. -/
abbrev Mem (ι : Type) (α : Type) := ι → List α

/-- Read `*p`; `none` outside the buffer. -/
def load {ι α : Type} (m : Mem ι α) (p : Ptr ι) : Option α :=
  if 0 ≤ p.off then (m p.buf)[p.off.toNat]? else none

/-- Write `*p = v`; `none` outside the buffer. -/
def store {ι α : Type} [DecidableEq ι] (m : Mem ι α) (p : Ptr ι) (v : α) : Option (Mem ι α) :=
  if 0 ≤ p.off ∧ p.off.toNat < (m p.buf).length then
    some (Function.update m p.buf ((m p.buf).set p.off.toNat v))
  else none

/-- The loop `for (i = 0; i < n; i++) body(i)` over a state `σ`, any iteration
may fail. -/
def forLoop {σ : Type} (n : Nat) (body : Nat → σ → Option σ) (s : σ) : Option σ :=
  match n with
  | 0 => some s
  | k + 1 => (forLoop k body s).bind (body k)

/-- The functions of `math.h` the program calls. -/
structure Libm (α : Type) where
  sqrtf : α → α
  expf : α → α
  powf : α → α → α
  cosf : α → α
  sinf : α → α

/-- C integer division `a / b` (truncating); undefined for `b = 0`. -/
def cdiv (a b : Int) : Option Int := if b = 0 then none else some (Int.tdiv a b)

/-- C remainder `a % b`; undefined for `b = 0`. -/
def cmod (a b : Int) : Option Int := if b = 0 then none else some (Int.tmod a b)

/-! ## ops.hpp -/

section Kernels

variable {ι α : Type} [DecidableEq ι] [LinearOrderedField α]

/-- `rmsnorm(out, x, weight, size)`, ops.hpp lines 10-26. -/
@[nospecialize]
def rmsnorm (F : Libm α) (m : Mem ι α) (out x weight : Ptr ι) (size : Int) :
    Option (Mem ι α) := do
  let ss ← forLoop size.toNat (fun j ss => do
    let xj ← load m (x.add j)
    pure (ss + xj * xj)) (0 : α)
  let ss := ss / (size : α)
  let ss := ss + 1 / 100000
  let ss := 1 / F.sqrtf ss
  forLoop size.toNat (fun j m => do
    let wj ← load m (weight.add j)
    let xj ← load m (x.add j)
    store m (out.add j) (wj * (ss * xj))) m

/-- `softmax(x, size)`, ops.hpp lines 34-59. -/
@[nospecialize]
def softmax (F : Libm α) (m : Mem ι α) (x : Ptr ι) (size : Int) : Option (Mem ι α) := do
  let x0 ← load m (x.add 0)
  let max_val ← forLoop (size - 1).toNat (fun k max_val => do
    let xi ← load m (x.add ((k : Int) + 1))
    pure (if xi > max_val then xi else max_val)) x0
  let (m, sum) ← forLoop size.toNat (fun i (s : Mem ι α × α) => do
    let xi ← load s.1 (x.add i)
    let m ← store s.1 (x.add i) (F.expf (xi - max_val))
    let xi ← load m (x.add i)
    pure (m, s.2 + xi)) (m, (0 : α))
  forLoop size.toNat (fun i m => do
    let xi ← load m (x.add i)
    store m (x.add i) (xi / sum)) m

end Kernels

/-- `matmul(xout, x, w, n, d)`, ops.hpp lines 75-89.  The kernel uses only
`0.0f`, `+` and `*` of the scalar type. -/
@[nospecialize]
def matmul {ι α : Type} [DecidableEq ι] [Zero α] [Add α] [Mul α] (m : Mem ι α)
    (xout x w : Ptr ι) (n d : Int) : Option (Mem ι α) :=
  forLoop d.toNat (fun i m => do
    let val ← forLoop n.toNat (fun j val => do
      let wij ← load m (w.add ((i : Int) * n + j))
      let xj ← load m (x.add j)
      pure (val + wij * xj)) (0 : α)
    store m (xout.add i) val) m

/-! ## transformer.hpp: configuration and weight layout -/

/-- `struct TransformerConfig`, transformer.hpp lines 18-27. -/
structure TransformerConfig where
  dim : Int
  hidden_dim : Int
  n_layers : Int
  n_heads : Int
  n_kv_heads : Int
  vocab_size : Int
  seq_len : Int
deriving DecidableEq, Repr

/-- `struct TransformerWeights`, transformer.hpp lines 29-49: every `float *`
points into the mapped checkpoint and is kept as its element offset there. -/
structure TransformerWeights where
  token_embedding_table : Int
  rms_att_weight : Int
  rms_ffn_weight : Int
  wq : Int
  wk : Int
  wv : Int
  wo : Int
  w1 : Int
  w2 : Int
  w3 : Int
  rms_final_weight : Int
  wcls : Int
deriving DecidableEq, Repr

/-- How the result of an integer operation is stored: in an `int` and in an
`unsigned long long`. -/
structure Arith where
  int : Int → Int
  ull : Int → Int

/-- Two's complement 32-bit wrap-around. -/
def wrapInt (x : Int) : Int := (x + 2 ^ 31) % 2 ^ 32 - 2 ^ 31

/-- Unsigned 64-bit wrap-around. -/
def wrapULL (x : Int) : Int := x % 2 ^ 64

/-- Arithmetic over the unbounded integers. -/
def Arith.exact : Arith := ⟨id, id⟩

/-- Arithmetic of a machine with 32-bit `int` and 64-bit `unsigned long long`. -/
def Arith.machine : Arith := ⟨wrapInt, wrapULL⟩

/-- `memory_map_weights(w, p, ptr, shared_weights)`, transformer.hpp lines
69-99.  `ptr` is an element offset into the mapped checkpoint; the function
only does pointer arithmetic and never dereferences `ptr`. -/
def memory_map_weights (A : Arith) (p : TransformerConfig) (ptr : Int)
    (shared_weights : Int) : Option TransformerWeights := do
  let head_size ← cdiv p.dim p.n_heads
  let n_layers := A.ull p.n_layers
  let token_embedding_table := ptr
  let ptr := ptr + A.int (p.vocab_size * p.dim)
  let rms_att_weight := ptr
  let ptr := ptr + A.ull (n_layers * A.ull p.dim)
  let wq := ptr
  let ptr := ptr + A.ull (A.ull (n_layers * A.ull p.dim) * A.ull (A.int (p.n_heads * head_size)))
  let wk := ptr
  let ptr := ptr + A.ull (A.ull (n_layers * A.ull p.dim) * A.ull (A.int (p.n_kv_heads * head_size)))
  let wv := ptr
  let ptr := ptr + A.ull (A.ull (n_layers * A.ull p.dim) * A.ull (A.int (p.n_kv_heads * head_size)))
  let wo := ptr
  let ptr := ptr + A.ull (A.ull (n_layers * A.ull (A.int (p.n_heads * head_size))) * A.ull p.dim)
  let rms_ffn_weight := ptr
  let ptr := ptr + A.ull (n_layers * A.ull p.dim)
  let w1 := ptr
  let ptr := ptr + A.ull (A.ull (n_layers * A.ull p.dim) * A.ull p.hidden_dim)
  let w2 := ptr
  let ptr := ptr + A.ull (A.ull (n_layers * A.ull p.hidden_dim) * A.ull p.dim)
  let w3 := ptr
  let ptr := ptr + A.ull (A.ull (n_layers * A.ull p.dim) * A.ull p.hidden_dim)
  let rms_final_weight := ptr
  let ptr := ptr + p.dim
  let ptr := ptr + Int.tdiv (A.int (p.seq_len * head_size)) 2
  let ptr := ptr + Int.tdiv (A.int (p.seq_len * head_size)) 2
  let wcls := if shared_weights ≠ 0 then token_embedding_table else ptr
  pure { token_embedding_table, rms_att_weight, rms_ffn_weight, wq, wk, wv, wo, w1, w2, w3,
         rms_final_weight, wcls }

/-- `abs(v)` on `int`; undefined for `INT_MIN`. -/
def cabs (v : Int) : Option Int := if v = -2 ^ 31 then none else some |v|

/-- `sizeof(TransformerConfig) / sizeof(float)`: seven 4-byte fields. -/
def headerFloats : Int := 7

/-- The header decoding of `read_checkpoint`, transformer.hpp lines 115-117 and
135-136, on the `TransformerConfig` that `fread` filled in: the stored
configuration, the `shared_weights` flag and the weight views.  Opening and
mapping the file is outside the embedding. -/
def read_checkpoint (A : Arith) (config : TransformerConfig) :
    Option (TransformerConfig × Int × TransformerWeights) := do
  let shared_weights : Int := if config.vocab_size > 0 then 1 else 0
  let vocab_size ← cabs config.vocab_size
  let config := { config with vocab_size := vocab_size }
  let weights_ptr := headerFloats
  let weights ← memory_map_weights A config weights_ptr shared_weights
  pure (config, shared_weights, weights)

/-! ## transformer.hpp: run state and forward -/

/-- The mapped checkpoint (`data`) and the buffers of `struct RunState`,
transformer.hpp lines 51-67.  The fields `k` and `v` of the struct are pointers
into the two caches and are locals of `layer`. -/
inductive Buf where
  | data | x | xb | xb2 | hb | hb2 | q | att | logits | key_cache | value_cache
deriving DecidableEq, Repr

/-- `calloc(n, sizeof(float))` for an `int` count, when the allocation succeeds. -/
def calloc {α : Type} [Zero α] (n : Int) : Option (List α) :=
  if 0 ≤ n then some (List.replicate n.toNat 0) else none

/-- `malloc_run_state(s, p)`, transformer.hpp lines 139-159, when every
allocation succeeds; `data` is the mapped checkpoint, which the function leaves
alone.  The element counts are products of `int`s, computed in `int` before
the conversion to `size_t`. -/
def malloc_run_state {α : Type} [Zero α] (A : Arith) (p : TransformerConfig) (data : List α) :
    Option (Mem Buf α) := do
  let kv_dim ← cdiv (A.int (p.dim * p.n_kv_heads)) p.n_heads
  let x ← calloc p.dim
  let xb ← calloc p.dim
  let xb2 ← calloc p.dim
  let hb ← calloc p.hidden_dim
  let hb2 ← calloc p.hidden_dim
  let q ← calloc p.dim
  let key_cache ← calloc (A.int (A.int (p.n_layers * p.seq_len) * kv_dim))
  let value_cache ← calloc (A.int (A.int (p.n_layers * p.seq_len) * kv_dim))
  let att ← calloc (A.int (p.n_heads * p.seq_len))
  let logits ← calloc p.vocab_size
  pure fun b =>
    match b with
    | .data => data
    | .x => x
    | .xb => xb
    | .xb2 => xb2
    | .hb => hb
    | .hb2 => hb2
    | .q => q
    | .att => att
    | .logits => logits
    | .key_cache => key_cache
    | .value_cache => value_cache

section Forward

variable {α : Type} [LinearOrderedField α]

/-- `memcpy(dst, src, n * sizeof(float))`. -/
@[nospecialize]
def memcpy {ι : Type} [DecidableEq ι] (m : Mem ι α) (dst src : Ptr ι) (n : Int) :
    Option (Mem ι α) :=
  forLoop n.toNat (fun i m => do
    let v ← load m (src.add i)
    store m (dst.add i) v) m

/-- `memset(dst, 0, n * sizeof(float))`. -/
@[nospecialize]
def memset0 {ι : Type} [DecidableEq ι] (m : Mem ι α) (dst : Ptr ι) (n : Int) :
    Option (Mem ι α) :=
  forLoop n.toNat (fun i m => store m (dst.add i) (0 : α)) m

/-- The rotary encoding loop of `forward`, transformer.hpp lines 237-253; the
loop variable `i = 0, 2, 4, ...` is `2 * c`. -/
@[nospecialize]
def rope (F : Libm α) (m : Mem Buf α) (q k : Ptr Buf) (pos dim kv_dim head_size : Int) :
    Option (Mem Buf α) :=
  forLoop ((dim + 1) / 2).toNat (fun c m => do
    let i : Int := 2 * (c : Int)
    let head_dim ← cmod i head_size
    let freq := 1 / F.powf 10000 ((head_dim : α) / (head_size : α))
    let val := (pos : α) * freq
    let fcr := F.cosf val
    let fci := F.sinf val
    let rotn : Nat := if i < kv_dim then 2 else 1
    forLoop rotn (fun v m => do
      let vec := if v = 0 then q else k
      let v0 ← load m (vec.add i)
      let v1 ← load m (vec.add (i + 1))
      let m ← store m (vec.add i) (v0 * fcr - v1 * fci)
      store m (vec.add (i + 1)) (v0 * fci + v1 * fcr)) m) m

/-- The body of the head loop of `forward` for head `h`, transformer.hpp lines
260-297. -/
@[nospecialize]
def attention_head (F : Libm α) (p : TransformerConfig) (m : Mem Buf α)
    (h loff pos kv_dim kv_mul head_size : Int) : Option (Mem Buf α) := do
  let q : Ptr Buf := ⟨Buf.q, h * head_size⟩
  let att : Ptr Buf := ⟨Buf.att, h * p.seq_len⟩
  let m ← forLoop (pos + 1).toNat (fun t m => do
    let g ← cdiv h kv_mul
    let k : Ptr Buf := ⟨Buf.key_cache, loff + (t : Int) * kv_dim + g * head_size⟩
    let score ← forLoop head_size.toNat (fun i score => do
      let qi ← load m (q.add i)
      let ki ← load m (k.add i)
      pure (score + qi * ki)) (0 : α)
    let score := score / F.sqrtf (head_size : α)
    store m (att.add t) score) m
  let m ← softmax F m att (pos + 1)
  let xb : Ptr Buf := ⟨Buf.xb, h * head_size⟩
  let m ← memset0 m xb head_size
  forLoop (pos + 1).toNat (fun t m => do
    let g ← cdiv h kv_mul
    let v : Ptr Buf := ⟨Buf.value_cache, loff + (t : Int) * kv_dim + g * head_size⟩
    let a ← load m (att.add t)
    forLoop head_size.toNat (fun i m => do
      let xbi ← load m (xb.add i)
      let vi ← load m (v.add i)
      store m (xb.add i) (xbi + a * vi)) m) m

/-- The residual loops of `forward`, `x[i] += y[i]`, transformer.hpp lines
304-307 and 332-335. -/
@[nospecialize]
def residual (m : Mem Buf α) (x y : Ptr Buf) (dim : Int) : Option (Mem Buf α) :=
  forLoop dim.toNat (fun i m => do
    let xi ← load m (x.add i)
    let yi ← load m (y.add i)
    store m (x.add i) (xi + yi)) m

/-- The SwiGLU loop of `forward`, transformer.hpp lines 318-326. -/
@[nospecialize]
def swiglu (F : Libm α) (m : Mem Buf α) (hb hb2 : Ptr Buf) (hidden_dim : Int) :
    Option (Mem Buf α) :=
  forLoop hidden_dim.toNat (fun i m => do
    let val ← load m (hb.add i)
    let val := val * (1 / (1 + F.expf (-val)))
    let h2 ← load m (hb2.add i)
    let val := val * h2
    store m (hb.add i) val) m

/-- The body of the layer loop of `forward` for layer `l`, transformer.hpp
lines 222-335. -/
@[nospecialize]
def layer (F : Libm α) (p : TransformerConfig) (w : TransformerWeights) (m : Mem Buf α)
    (l pos dim kv_dim kv_mul hidden_dim head_size : Int) : Option (Mem Buf α) := do
  let x : Ptr Buf := ⟨Buf.x, 0⟩
  let m ← rmsnorm F m ⟨Buf.xb, 0⟩ x ⟨Buf.data, w.rms_att_weight + l * dim⟩ dim
  let loff := l * p.seq_len * kv_dim
  let k : Ptr Buf := ⟨Buf.key_cache, loff + pos * kv_dim⟩
  let v : Ptr Buf := ⟨Buf.value_cache, loff + pos * kv_dim⟩
  let m ← matmul m ⟨Buf.q, 0⟩ ⟨Buf.xb, 0⟩ ⟨Buf.data, w.wq + l * dim * dim⟩ dim dim
  let m ← matmul m k ⟨Buf.xb, 0⟩ ⟨Buf.data, w.wk + l * dim * kv_dim⟩ dim kv_dim
  let m ← matmul m v ⟨Buf.xb, 0⟩ ⟨Buf.data, w.wv + l * dim * kv_dim⟩ dim kv_dim
  let m ← rope F m ⟨Buf.q, 0⟩ k pos dim kv_dim head_size
  let m ← forLoop p.n_heads.toNat (fun h m =>
    attention_head F p m h loff pos kv_dim kv_mul head_size) m
  let m ← matmul m ⟨Buf.xb2, 0⟩ ⟨Buf.xb, 0⟩ ⟨Buf.data, w.wo + l * dim * dim⟩ dim dim
  let m ← residual m x ⟨Buf.xb2, 0⟩ dim
  let m ← rmsnorm F m ⟨Buf.xb, 0⟩ x ⟨Buf.data, w.rms_ffn_weight + l * dim⟩ dim
  let m ← matmul m ⟨Buf.hb, 0⟩ ⟨Buf.xb, 0⟩ ⟨Buf.data, w.w1 + l * dim * hidden_dim⟩ dim hidden_dim
  let m ← matmul m ⟨Buf.hb2, 0⟩ ⟨Buf.xb, 0⟩ ⟨Buf.data, w.w3 + l * dim * hidden_dim⟩ dim hidden_dim
  let m ← swiglu F m ⟨Buf.hb, 0⟩ ⟨Buf.hb2, 0⟩ hidden_dim
  let m ← matmul m ⟨Buf.xb, 0⟩ ⟨Buf.hb, 0⟩ ⟨Buf.data, w.w2 + l * dim * hidden_dim⟩ hidden_dim dim
  residual m x ⟨Buf.xb, 0⟩ dim

/-- `Transformer::forward(token, pos)`, transformer.hpp lines 202-344.  The
result is the state after the call; the returned pointer is `s->logits`, the
buffer `Buf.logits`.  The layer counter is an `unsigned long long`, so the
comparison `l < p->n_layers` converts `n_layers` to that type. -/
@[nospecialize]
def forward (F : Libm α) (p : TransformerConfig) (w : TransformerWeights) (m : Mem Buf α)
    (token pos : Int) : Option (Mem Buf α) := do
  let x : Ptr Buf := ⟨Buf.x, 0⟩
  let dim := p.dim
  let kv_dim ← cdiv (p.dim * p.n_kv_heads) p.n_heads
  let kv_mul ← cdiv p.n_heads p.n_kv_heads
  let hidden_dim := p.hidden_dim
  let head_size ← cdiv dim p.n_heads
  let content_row : Ptr Buf := ⟨Buf.data, w.token_embedding_table + token * dim⟩
  let m ← memcpy m x content_row dim
  let m ← forLoop (wrapULL p.n_layers).toNat (fun l m =>
    layer F p w m l pos dim kv_dim kv_mul hidden_dim head_size) m
  let m ← rmsnorm F m x x ⟨Buf.data, w.rms_final_weight⟩ dim
  matmul m ⟨Buf.logits, 0⟩ x ⟨Buf.data, w.wcls⟩ p.dim p.vocab_size

end Forward

/-! ## Vocabulary of the statements -/

section Vocabulary

variable {ι α : Type}

/-- The pointer `p` is inside its buffer. -/
def InB (m : Mem ι α) (p : Ptr ι) : Prop := 0 ≤ p.off ∧ p.off < ((m p.buf).length : Int)

instance (m : Mem ι α) (p : Ptr ι) : Decidable (InB m p) := by
  unfold InB; infer_instance

/-- The `n` elements starting at `p`. -/
def region (p : Ptr ι) (n : Int) : Set (Ptr ι) :=
  {q | q.buf = p.buf ∧ p.off ≤ q.off ∧ q.off < p.off + n}

/-- Every element of the buffer `b`. -/
def wholeBuf (b : ι) : Set (Ptr ι) := {q | q.buf = b}

/-- The two states have buffers of the same lengths. -/
def SameLen (m m' : Mem ι α) : Prop := ∀ b, (m' b).length = (m b).length

/-- From `m` to `m'` no buffer changed its length and only elements in `W`
changed. -/
def Frame (W : Set (Ptr ι)) (m m' : Mem ι α) : Prop :=
  SameLen m m' ∧ ∀ p, p ∉ W → load m' p = load m p

/-- The two states hold the same values at the pointers in `A`. -/
def Agree (A : Set (Ptr ι)) (m1 m2 : Mem ι α) : Prop :=
  ∀ p, p ∈ A → load m1 p = load m2 p

/-- The scale factor of `rmsnorm` for an input holding `xv`:
`1 / sqrt((Σ_{k<size} xv k * xv k) / size + 1e-5)`. -/
def rmsScale [LinearOrderedField α] (F : Libm α) (xv : Nat → α) (size : Nat) : α :=
  1 / F.sqrtf ((∑ k in Finset.range size, xv k * xv k) / (size : α) + 1 / 100000)

/-- The running maximum `max_val` of `softmax` after it has looked at
`xv 0, ..., xv k`. -/
def maxPrefix [LinearOrderedField α] (xv : Nat → α) : Nat → α
  | 0 => xv 0
  | k + 1 => if xv (k + 1) > maxPrefix xv k then xv (k + 1) else maxPrefix xv k

/-- The value `softmax` leaves at index `i` for an input holding `xv`:
`exp(xv i - max) / Σ_{j<size} exp(xv j - max)`. -/
def softmaxVal [LinearOrderedField α] (F : Libm α) (xv : Nat → α) (size : Nat) (i : Nat) : α :=
  F.expf (xv i - maxPrefix xv (size - 1)) /
    ∑ j in Finset.range size, F.expf (xv j - maxPrefix xv (size - 1))

/-- The run-state buffers that are neither the checkpoint nor a cache. -/
def scratch : Set (Ptr Buf) :=
  {q | q.buf ≠ Buf.data ∧ q.buf ≠ Buf.key_cache ∧ q.buf ≠ Buf.value_cache}

/-- The entry of the cache `b` for layer `l` and position `t`: the `kv_dim`
elements from `l * seq_len * kv_dim + t * kv_dim`. -/
def cacheEntry (b : Buf) (seq_len kv_dim l t : Int) : Set (Ptr Buf) :=
  region ⟨b, l * seq_len * kv_dim + t * kv_dim⟩ kv_dim

/-- What one `forward(token, pos)` call may change: the scratch buffers and,
in both caches, the entries `(l, pos)` of the layers `0 ≤ l < n_layers`. -/
def forwardWrites (p : TransformerConfig) (kv_dim pos : Int) : Set (Ptr Buf) :=
  scratch ∪ {q | ∃ l : Int, 0 ≤ l ∧ l < p.n_layers ∧
    (q ∈ cacheEntry Buf.key_cache p.seq_len kv_dim l pos ∨
      q ∈ cacheEntry Buf.value_cache p.seq_len kv_dim l pos)}

/-- Every buffer of `m` has the length `L` gives it. -/
def HasLen (L : ι → Nat) (m : Mem ι α) : Prop := ∀ b, (m b).length = L b

/-- Every pointer of `A` is inside its buffer, for buffers of lengths `L`. -/
def InBounds (L : ι → Nat) (A : Set (Ptr ι)) : Prop :=
  ∀ p, p ∈ A → 0 ≤ p.off ∧ p.off < (L p.buf : Int)

/-- Relational contract of a state transformer `f` on states with buffers of
lengths `L`: started from two states that agree on `R`, both runs return, each
changes only elements of `W`, and the results agree on `W`. -/
def Block (L : ι → Nat) (f : Mem ι α → Option (Mem ι α)) (R W : Set (Ptr ι)) : Prop :=
  ∀ m1 m2, HasLen L m1 → HasLen L m2 → Agree R m1 m2 →
    ∃ m1' m2', f m1 = some m1' ∧ f m2 = some m2' ∧ Frame W m1 m1' ∧ Frame W m2 m2' ∧
      Agree W m1' m2'

end Vocabulary

/-! ## Concrete inputs -/

/-- Three buffers over the rationals: an output of two elements (buffer 0), the
vector `(3, 5)` (buffer 1) and a 2×2 row-major matrix (buffer 2). -/
def kernelMem : Mem Nat ℚ := fun b =>
  match b with
  | 0 => [0, 0]
  | 1 => [3, 5]
  | 2 => [1, 2, 0, 1]
  | _ => []

/-- The configuration of the regression fixture: `dim = 4`, `hidden_dim = 8`,
one layer, two heads, two key/value heads, `vocab_size = 5`, `seq_len = 4`. -/
def tinyConfig : TransformerConfig :=
  { dim := 4, hidden_dim := 8, n_layers := 1, n_heads := 2, n_kv_heads := 2, vocab_size := 5,
    seq_len := 4 }

/-- The header of `tinyConfig` with the vocabulary field `v`. -/
def tinyHeader (v : Int) : TransformerConfig := { tinyConfig with vocab_size := v }

/-- A configuration with an odd `kv_dim`: `dim = 2`, two query heads sharing
one key/value head (`head_size = 1`, `kv_dim = 1`), one layer, `seq_len = 3`.
It has positive fields, `n_heads` divides `dim` and `dim * n_kv_heads`. -/
def oddKvConfig : TransformerConfig :=
  { dim := 2, hidden_dim := 1, n_layers := 1, n_heads := 2, n_kv_heads := 1, vocab_size := 1,
    seq_len := 3 }

/-- The views of `memory_map_weights` for `oddKvConfig`, a header of 7 words and
a shared classifier. -/
def oddKvWeights : TransformerWeights :=
  { token_embedding_table := 7, rms_att_weight := 9, wq := 11, wk := 15, wv := 17, wo := 19,
    rms_ffn_weight := 23, w1 := 25, w2 := 27, w3 := 29, rms_final_weight := 31, wcls := 7 }

/-- A checkpoint for `oddKvConfig`: the header words, then
embedding `(1, 0)`, attention norm `(1, 0)`, `wq = [1 0; 0 0]`, `wk = [0 0]`,
`wv = [1 0]`, `wo = [0 0; 1 0]`, feed-forward norm and weights all zero, final
norm `(1, 0)` and the two legacy words. -/
def oddKvData : List ℝ :=
  [0, 0, 0, 0, 0, 0, 0,
   1, 0,
   1, 0,
   1, 0, 0, 0,
   0, 0,
   1, 0,
   0, 0, 1, 0,
   0, 0,
   0, 0,
   0, 0,
   0, 0,
   1, 0,
   0, 0]

/-- The state whose buffers are the given lists. -/
def runState {α : Type} (data x xb xb2 hb hb2 q att logits key_cache value_cache : List α) :
    Mem Buf α := fun b =>
  match b with
  | .data => data
  | .x => x
  | .xb => xb
  | .xb2 => xb2
  | .hb => hb
  | .hb2 => hb2
  | .q => q
  | .att => att
  | .logits => logits
  | .key_cache => key_cache
  | .value_cache => value_cache

/-- A run state for `oddKvConfig` with all buffers zero except the key-cache
entry of layer 0, position 2, which holds `c`. -/
def oddKvMem (c : ℝ) : Mem Buf ℝ :=
  runState oddKvData [0, 0] [0, 0] [0, 0] [0] [0] [0, 0] [0, 0, 0, 0, 0, 0] [0] [0, 0, c]
    [0, 0, 0]

/-- The rotation angle of the only pair of `oddKvConfig` at position 1. -/
def oddAngle {α : Type} [LinearOrderedField α] (F : Libm α) : α := 1 / F.powf 10000 0

/-- The first element of `xb` after the attention `rmsnorm` of the run on
`oddKvData` with token 0. -/
def oddXb {α : Type} [LinearOrderedField α] (F : Libm α) : α :=
  1 / F.sqrtf (1 / 2 + 1 / 100000)

/-- The attention score of head 0 at timestep 1 of that run from `oddKvMem c`
at position 1: the key it uses was rotated together with the element `c` of the
entry of position 2. -/
def oddScore {α : Type} [LinearOrderedField α] (F : Libm α) (c : α) : α :=
  oddXb F * F.cosf (oddAngle F) * -(c * F.sinf (oddAngle F)) / F.sqrtf 1

/-- The attention weight of head 0 for timestep 1 of that run. -/
def oddAtt {α : Type} [LinearOrderedField α] (F : Libm α) (c : α) : α :=
  F.expf (oddScore F c - if 0 < oddScore F c then oddScore F c else 0) /
    (F.expf (0 - if 0 < oddScore F c then oddScore F c else 0) +
      F.expf (oddScore F c - if 0 < oddScore F c then oddScore F c else 0))

/-- The logit that run returns. -/
def oddLogit {α : Type} [LinearOrderedField α] (F : Libm α) (c : α) : α :=
  1 / F.sqrtf ((1 + oddAtt F c * oddXb F * (oddAtt F c * oddXb F)) / 2 + 1 / 100000)

/-- A configuration whose embedding table has `2^31` elements:
`vocab_size = 65536`, `dim = 32768`, everything else 1. -/
def bigVocabConfig : TransformerConfig :=
  { dim := 32768, hidden_dim := 1, n_layers := 1, n_heads := 1, n_kv_heads := 1,
    vocab_size := 65536, seq_len := 1 }

/-- A configuration with three query heads and two key/value heads: `dim = 6`,
`head_size = 2`, `kv_dim = 4`.  It has positive fields, `n_heads` divides `dim`
and `dim * n_kv_heads`. -/
def threeHeadConfig : TransformerConfig :=
  { dim := 6, hidden_dim := 1, n_layers := 1, n_heads := 3, n_kv_heads := 2, vocab_size := 1,
    seq_len := 2 }

/-- As `kernelMem`, the matrix being the 2×2 identity. -/
def identityMem : Mem Nat ℚ := fun b =>
  match b with
  | 0 => [0, 0]
  | 1 => [3, 5]
  | 2 => [1, 0, 0, 1]
  | _ => []

/-- The values of a `float`: a finite number, an infinity or a NaN.  The
arithmetic of finite values is exact (no rounding, no overflow); the special
values follow IEEE 754. -/
inductive Ieee where
  | fin (q : ℚ)
  | pinf
  | ninf
  | nan
deriving DecidableEq

/-- IEEE 754 addition: `inf + (-inf)` and every sum with a NaN is a NaN. -/
def Ieee.add : Ieee → Ieee → Ieee
  | .fin a, .fin b => .fin (a + b)
  | .fin _, .pinf => .pinf
  | .fin _, .ninf => .ninf
  | .pinf, .fin _ => .pinf
  | .ninf, .fin _ => .ninf
  | .pinf, .pinf => .pinf
  | .ninf, .ninf => .ninf
  | .pinf, .ninf => .nan
  | .ninf, .pinf => .nan
  | .nan, _ => .nan
  | _, .nan => .nan

/-- The product of an infinity of sign `s` (`true` for `+inf`) with the finite
value `a`: a NaN for `a = 0`. -/
def Ieee.scaleInf (s : Bool) (a : ℚ) : Ieee :=
  if a = 0 then .nan
  else if 0 < a then (if s then .pinf else .ninf)
  else (if s then .ninf else .pinf)

/-- IEEE 754 multiplication: `0 * inf` and every product with a NaN is a NaN. -/
def Ieee.mul : Ieee → Ieee → Ieee
  | .fin a, .fin b => .fin (a * b)
  | .fin a, .pinf => Ieee.scaleInf true a
  | .fin a, .ninf => Ieee.scaleInf false a
  | .pinf, .fin b => Ieee.scaleInf true b
  | .ninf, .fin b => Ieee.scaleInf false b
  | .pinf, .pinf => .pinf
  | .ninf, .ninf => .pinf
  | .pinf, .ninf => .ninf
  | .ninf, .pinf => .ninf
  | .nan, _ => .nan
  | _, .nan => .nan

instance : Zero Ieee := ⟨.fin 0⟩

instance : Add Ieee := ⟨Ieee.add⟩

instance : Mul Ieee := ⟨Ieee.mul⟩

/-- As `identityMem` over `Ieee`, with the input vector `(+inf, 1)`. -/
def ieeeMem : Mem Nat Ieee := fun b =>
  match b with
  | 0 => [.fin 0, .fin 0]
  | 1 => [.pinf, .fin 1]
  | 2 => [.fin 1, .fin 0, .fin 0, .fin 1]
  | _ => []

/-- As `ieeeMem`, with the finite input vector `(3, 5)`. -/
def finiteMem : Mem Nat Ieee := fun b =>
  match b with
  | 0 => [.fin 0, .fin 0]
  | 1 => [.fin 3, .fin 5]
  | 2 => [.fin 1, .fin 0, .fin 0, .fin 1]
  | _ => []

/-- A configuration whose caches have `2^32` elements: `n_layers = 65536`,
`seq_len = 65536`, `dim = 1` (`kv_dim = 1`), everything else 1. -/
def longCacheConfig : TransformerConfig :=
  { dim := 1, hidden_dim := 1, n_layers := 65536, n_heads := 1, n_kv_heads := 1, vocab_size := 1,
    seq_len := 65536 }

/-! ## Vocabulary of the rotary, attention and forward statements -/

/-- The rotation angle of the pair at the even index `i` for position `pos`:
`val = pos * freq` with `freq = 1 / powf(10000, (i % head_size) / head_size)`. -/
def ropeAngle {α : Type} [LinearOrderedField α] (F : Libm α) (pos head_size i : Int) : α :=
  (pos : α) * (1 / F.powf 10000 (((Int.tmod i head_size : Int) : α) / (head_size : α)))

/-- The elements the rotary loop writes in `c` iterations: per iteration the
query pair and, while `i < kv_dim`, the key pair. -/
def ropeWrites (q k : Ptr Buf) (kv_dim : Int) (n : Nat) : Set (Ptr Buf) :=
  {p | ∃ c : Nat, c < n ∧ (p = q.add (2 * (c : Int)) ∨ p = q.add (2 * (c : Int) + 1) ∨
    (2 * (c : Int) < kv_dim ∧ (p = k.add (2 * (c : Int)) ∨ p = k.add (2 * (c : Int) + 1))))}

/-- A state with the query `(3, 4)` and one key-cache entry `(1, 2)`. -/
def ropeMem : Mem Buf ℝ :=
  runState [] [] [] [] [] [] [3, 4] [] [] [1, 2] []

/-- The scaled score of the query `qv` against the key `kval t`:
`(Σ_{i<hs} qv i * kval t i) / sqrtf(hs)`. -/
def attScore {α : Type} [LinearOrderedField α] (F : Libm α) (qv : Nat → α)
    (kval : Nat → Nat → α) (hs : Nat) (t : Nat) : α :=
  (∑ i in Finset.range hs, qv i * kval t i) / F.sqrtf (hs : α)

/-- What head `h` needs to run to its end at position `P` with heads of `hs`
elements: a non-zero `kv_mul`, and inside their buffers its slice of `q` and of
`xb`, its `P + 1` attention scores, and its slice of the key and of the value
cache entries of the timesteps `0..P`. -/
def headReady {α : Type} (p : TransformerConfig) (m : Mem Buf α) (h loff kv_dim kv_mul : Int)
    (P hs : Nat) : Prop :=
  kv_mul ≠ 0 ∧
  (∀ i : Nat, i < hs → InB m ((⟨Buf.q, h * hs⟩ : Ptr Buf).add i) ∧
    InB m ((⟨Buf.xb, h * hs⟩ : Ptr Buf).add i)) ∧
  ∀ t : Nat, t < P + 1 → InB m ((⟨Buf.att, h * p.seq_len⟩ : Ptr Buf).add t) ∧
    ∀ i : Nat, i < hs →
      InB m ((⟨Buf.key_cache, loff + (t : Int) * kv_dim + Int.tdiv h kv_mul * hs⟩ :
        Ptr Buf).add i) ∧
      InB m ((⟨Buf.value_cache, loff + (t : Int) * kv_dim + Int.tdiv h kv_mul * hs⟩ :
        Ptr Buf).add i)

/-- The head loop of `forward` with the heads taken in the order of the list
`order` instead of `0, 1, ..., n_heads - 1`. -/
def headsInOrder {α : Type} [LinearOrderedField α] (F : Libm α) (p : TransformerConfig)
    (m : Mem Buf α) (order : List Nat) (loff pos kv_dim kv_mul head_size : Int) :
    Option (Mem Buf α) :=
  match order with
  | [] => some m
  | h :: rest =>
    (attention_head F p m h loff pos kv_dim kv_mul head_size).bind fun m =>
      headsInOrder F p m rest loff pos kv_dim kv_mul head_size

/-- The elements head `h` writes at position `P`: its `P + 1` attention scores
and its slice of `xb`. -/
def headWrites (p : TransformerConfig) (h : Int) (P hs : Nat) : Set (Ptr Buf) :=
  region ⟨Buf.att, h * p.seq_len⟩ ((P + 1 : Nat) : Int) ∪ region ⟨Buf.xb, h * hs⟩ hs

/-- The elements the heads of `order` write. -/
def headsWrites (p : TransformerConfig) (order : List Nat) (P hs : Nat) : Set (Ptr Buf) :=
  {r | ∃ h : Nat, h ∈ order ∧ r ∈ headWrites p h P hs}

/-- The slice of `q` of head `h` in the state `m` (0 outside the buffer). -/
def headQ {α : Type} [Zero α] (m : Mem Buf α) (h : Int) (hs : Nat) (i : Nat) : α :=
  (load m ((⟨Buf.q, h * hs⟩ : Ptr Buf).add i)).getD 0

/-- The slice of the cache `b` that head `h` uses, at timestep `t`, in the
state `m` (0 outside the buffer). -/
def headKV {α : Type} [Zero α] (b : Buf) (m : Mem Buf α) (h loff kv_dim kv_mul : Int)
    (hs : Nat) (t i : Nat) : α :=
  (load m ((⟨b, loff + (t : Int) * kv_dim + Int.tdiv h kv_mul * hs⟩ : Ptr Buf).add i)).getD 0

/-- The attention weight of head `h` for timestep `t`, from the state `m`. -/
def headAtt {α : Type} [LinearOrderedField α] (F : Libm α) (m : Mem Buf α)
    (h loff kv_dim kv_mul : Int) (P hs : Nat) (t : Nat) : α :=
  softmaxVal F (attScore F (headQ m h hs) (headKV Buf.key_cache m h loff kv_dim kv_mul hs) hs)
    (P + 1) t

/-- Element `i` of the output of head `h`, from the state `m`. -/
def headOut {α : Type} [LinearOrderedField α] (F : Libm α) (m : Mem Buf α)
    (h loff kv_dim kv_mul : Int) (P hs : Nat) (i : Nat) : α :=
  ∑ t in Finset.range (P + 1),
    headAtt F m h loff kv_dim kv_mul P hs t * headKV Buf.value_cache m h loff kv_dim kv_mul hs t i

/-- A stand-in for `math.h` over the rationals (every function is the identity
in its first argument), for running the code on concrete rational inputs. -/
def ratLibm : Libm ℚ := ⟨fun a => a, fun a => a, fun a _ => a, fun a => a, fun a => a⟩

/-- The buffers of `m` have the lengths `malloc_run_state` gives them, for
caches of `n_layers * seq_len` entries of `kv_dim` elements. -/
structure RunStateShape {α : Type} (p : TransformerConfig) (kv_dim : Int) (m : Mem Buf α) :
    Prop where
  x : ((m Buf.x).length : Int) = p.dim
  xb : ((m Buf.xb).length : Int) = p.dim
  xb2 : ((m Buf.xb2).length : Int) = p.dim
  hb : ((m Buf.hb).length : Int) = p.hidden_dim
  hb2 : ((m Buf.hb2).length : Int) = p.hidden_dim
  q : ((m Buf.q).length : Int) = p.dim
  att : ((m Buf.att).length : Int) = p.n_heads * p.seq_len
  logits : ((m Buf.logits).length : Int) = p.vocab_size
  key_cache : ((m Buf.key_cache).length : Int) = p.n_layers * p.seq_len * kv_dim
  value_cache : ((m Buf.value_cache).length : Int) = p.n_layers * p.seq_len * kv_dim

/-- Relational contract of a state transformer `f` on states with buffers of
lengths `L`: started from two states that agree on `A`, both runs return, with
buffers of the same lengths, and the results agree on `B`. -/
def Step {ι α : Type} (L : ι → Nat) (f : Mem ι α → Option (Mem ι α)) (A B : Set (Ptr ι)) :
    Prop :=
  ∀ m1 m2, HasLen L m1 → HasLen L m2 → Agree A m1 m2 →
    ∃ m1' m2', f m1 = some m1' ∧ f m2 = some m2' ∧ HasLen L m1' ∧ HasLen L m2' ∧
      Agree B m1' m2'

/-- What a `forward(token, pos)` call may depend on: the checkpoint and the
key and value cache entries `(l, t)` of the layers `0 ≤ l < n_layers` at the
timesteps `0 ≤ t < pos`. -/
def causalView (p : TransformerConfig) (kv_dim pos : Int) : Set (Ptr Buf) :=
  wholeBuf Buf.data ∪ {r | ∃ l t : Int, 0 ≤ l ∧ l < p.n_layers ∧ 0 ≤ t ∧ t < pos ∧
    (r ∈ cacheEntry Buf.key_cache p.seq_len kv_dim l t ∨
      r ∈ cacheEntry Buf.value_cache p.seq_len kv_dim l t)}

/-- Every weight view that `forward` indexes by the layer lies inside a
checkpoint of `N` elements, with room for `n_layers` slices; so do the final
norm and the classifier. -/
structure WeightsFit (p : TransformerConfig) (w : TransformerWeights) (kv_dim N : Int) :
    Prop where
  rms_att_weight : 0 ≤ w.rms_att_weight ∧ w.rms_att_weight + p.n_layers * p.dim ≤ N
  wq : 0 ≤ w.wq ∧ w.wq + p.n_layers * (p.dim * p.dim) ≤ N
  wk : 0 ≤ w.wk ∧ w.wk + p.n_layers * (kv_dim * p.dim) ≤ N
  wv : 0 ≤ w.wv ∧ w.wv + p.n_layers * (kv_dim * p.dim) ≤ N
  wo : 0 ≤ w.wo ∧ w.wo + p.n_layers * (p.dim * p.dim) ≤ N
  rms_ffn_weight : 0 ≤ w.rms_ffn_weight ∧ w.rms_ffn_weight + p.n_layers * p.dim ≤ N
  w1 : 0 ≤ w.w1 ∧ w.w1 + p.n_layers * (p.hidden_dim * p.dim) ≤ N
  w2 : 0 ≤ w.w2 ∧ w.w2 + p.n_layers * (p.dim * p.hidden_dim) ≤ N
  w3 : 0 ≤ w.w3 ∧ w.w3 + p.n_layers * (p.hidden_dim * p.dim) ≤ N
  rms_final_weight : 0 ≤ w.rms_final_weight ∧ w.rms_final_weight + p.dim ≤ N
  wcls : 0 ≤ w.wcls ∧ w.wcls + p.vocab_size * p.dim ≤ N

/-- The views of `memory_map_weights` for `tinyConfig`, a header of 7 words and
a shared classifier. -/
def tinyWeights : TransformerWeights :=
  { token_embedding_table := 7, rms_att_weight := 27, wq := 31, wk := 47, wv := 63, wo := 79,
    rms_ffn_weight := 95, w1 := 99, w2 := 131, w3 := 163, rms_final_weight := 195, wcls := 7 }

/-- A run state for `tinyConfig` over a checkpoint of 207 words, all 1: the
buffers of `malloc_run_state`. -/
def tinyMem {α : Type} [Zero α] [One α] : Mem Buf α :=
  runState (List.replicate 207 1) (List.replicate 4 0) (List.replicate 4 0)
    (List.replicate 4 0) (List.replicate 8 0) (List.replicate 8 0) (List.replicate 4 0)
    (List.replicate 8 0) (List.replicate 5 0) (List.replicate 16 0) (List.replicate 16 0)

/-- A run state for `tinyConfig` (`head_size = 2`, `kv_dim = 4`) without a
checkpoint: the query is `(1, 1, 1, 2)`, the key-cache entries of layer 0 at the
positions 0 and 1 are `(1, 0, 0, 1)` and `(0, 1, 1, 0)`, the value-cache entries
`(1, 2, 3, 4)` and `(5, 6, 7, 8)`; everything else is zero. -/
def attnMem : Mem Buf ℝ :=
  runState [] (List.replicate 4 0) (List.replicate 4 0) (List.replicate 4 0)
    (List.replicate 8 0) (List.replicate 8 0) [1, 1, 1, 2] (List.replicate 8 0)
    (List.replicate 5 0) ([1, 0, 0, 1, 0, 1, 1, 0] ++ List.replicate 8 0)
    ([1, 2, 3, 4, 5, 6, 7, 8] ++ List.replicate 8 0)

section MemoryLemmas

variable {ι α : Type} [DecidableEq ι]

theorem forLoop_succ {σ : Type} (n : Nat) (body : Nat → σ → Option σ) (s : σ) :
    forLoop (n + 1) body s = (forLoop n body s).bind (body n) := rfl

theorem forLoop_zero {σ : Type} (body : Nat → σ → Option σ) (s : σ) :
    forLoop 0 body s = some s := rfl

theorem Ptr.add_buf (p : Ptr ι) (k : Int) : (p.add k).buf = p.buf := rfl

theorem Ptr.add_off (p : Ptr ι) (k : Int) : (p.add k).off = p.off + k := rfl

theorem Ptr.ext_iff2 (p q : Ptr ι) : p = q ↔ p.buf = q.buf ∧ p.off = q.off := by
  cases p; cases q; simp

theorem load_of_inb {m : Mem ι α} {p : Ptr ι} (h : InB m p) : ∃ v, load m p = some v := by
  obtain ⟨h0, h1⟩ := h
  have hlt : p.off.toNat < (m p.buf).length := by omega
  exact ⟨(m p.buf)[p.off.toNat], by simp [load, h0, List.getElem?_eq_getElem hlt]⟩

theorem inb_of_load {m : Mem ι α} {p : Ptr ι} {v : α} (h : load m p = some v) : InB m p := by
  unfold load at h
  split at h
  · rename_i h0
    obtain ⟨hlt, -⟩ := List.getElem?_eq_some_iff.mp h
    exact ⟨h0, by omega⟩
  · cases h

theorem store_of_inb {m : Mem ι α} {p : Ptr ι} (v : α) (h : InB m p) :
    ∃ m', store m p v = some m' := by
  obtain ⟨h0, h1⟩ := h
  have hlt : p.off.toNat < (m p.buf).length := by omega
  refine ⟨Function.update m p.buf ((m p.buf).set p.off.toNat v), ?_⟩
  simp [store, h0, hlt]

theorem store_eq {m m' : Mem ι α} {p : Ptr ι} {v : α} (h : store m p v = some m') :
    InB m p ∧ m' = Function.update m p.buf ((m p.buf).set p.off.toNat v) := by
  unfold store at h
  split at h
  · rename_i hc
    refine ⟨⟨hc.1, by omega⟩, ?_⟩
    cases h; rfl
  · cases h

theorem store_sameLen {m m' : Mem ι α} {p : Ptr ι} {v : α} (h : store m p v = some m') :
    SameLen m m' := by
  obtain ⟨-, rfl⟩ := store_eq h
  intro b
  by_cases hb : b = p.buf
  · subst hb; simp
  · simp [Function.update_noteq hb]

theorem load_store_same {m m' : Mem ι α} {p : Ptr ι} {v : α} (h : store m p v = some m') :
    load m' p = some v := by
  obtain ⟨⟨h0, h1⟩, rfl⟩ := store_eq h
  have hlt : p.off.toNat < (m p.buf).length := by omega
  simp [load, h0, hlt]

theorem load_store_ne {m m' : Mem ι α} {p q : Ptr ι} {v : α} (h : store m p v = some m')
    (hne : q ≠ p) : load m' q = load m q := by
  obtain ⟨⟨h0, h1⟩, rfl⟩ := store_eq h
  by_cases hb : q.buf = p.buf
  · have hoff : q.off ≠ p.off := fun ho => hne ((Ptr.ext_iff2 q p).mpr ⟨hb, ho⟩)
    unfold load
    by_cases hq : 0 ≤ q.off
    · have hn : p.off.toNat ≠ q.off.toNat := by omega
      rw [if_pos hq, if_pos hq, hb, Function.update_same]
      exact List.getElem?_set_ne hn
    · simp [hq]
  · simp [load, Function.update_noteq hb]

theorem SameLen.self (m : Mem ι α) : SameLen m m := fun _ => rfl

theorem SameLen.chain {a b c : Mem ι α} (h1 : SameLen a b) (h2 : SameLen b c) : SameLen a c :=
  fun x => (h2 x).trans (h1 x)

theorem SameLen.symm {a b : Mem ι α} (h : SameLen a b) : SameLen b a := fun x => (h x).symm

theorem SameLen.keepsInB {a b : Mem ι α} (h : SameLen a b) {p : Ptr ι} (hp : InB a p) : InB b p := by
  unfold InB at *
  rw [h p.buf]; exact hp

theorem Frame.same (W : Set (Ptr ι)) (m : Mem ι α) : Frame W m m :=
  ⟨SameLen.self m, fun _ _ => rfl⟩

theorem Frame.andThen {W : Set (Ptr ι)} {a b c : Mem ι α} (h1 : Frame W a b) (h2 : Frame W b c) :
    Frame W a c :=
  ⟨h1.1.chain h2.1, fun x hx => (h2.2 x hx).trans (h1.2 x hx)⟩

theorem Frame.mono {W W' : Set (Ptr ι)} {a b : Mem ι α} (h : Frame W a b) (hs : W ⊆ W') :
    Frame W' a b :=
  ⟨h.1, fun p hp => h.2 p (fun hw => hp (hs hw))⟩

theorem store_frame {m m' : Mem ι α} {p : Ptr ι} {v : α} (h : store m p v = some m')
    {W : Set (Ptr ι)} (hp : p ∈ W) : Frame W m m' :=
  ⟨store_sameLen h, fun _ hq => load_store_ne h (fun e => hq (e ▸ hp))⟩

theorem HasLen.frame {L : ι → Nat} {W : Set (Ptr ι)} {a b : Mem ι α} (h : HasLen L a)
    (hf : Frame W a b) : HasLen L b := fun x => (hf.1 x).trans (h x)

theorem HasLen.sameLen {L : ι → Nat} {a b : Mem ι α} (ha : HasLen L a) (hb : HasLen L b) :
    SameLen a b := fun x => (hb x).trans (ha x).symm

theorem HasLen.inBuf {L : ι → Nat} {a : Mem ι α} (ha : HasLen L a) {p : Ptr ι}
    (h0 : 0 ≤ p.off) (h1 : p.off < (L p.buf : Int)) : InB a p := by
  unfold InB; rw [ha p.buf]; exact ⟨h0, h1⟩

/-- A relation that every iteration respects is respected by the loop. -/
theorem forLoop_rel {σ : Type} (R : σ → σ → Prop) (hrefl : ∀ a, R a a)
    (htrans : ∀ a b c, R a b → R b c → R a c) (n : Nat) (body : Nat → σ → Option σ)
    (hb : ∀ k, k < n → ∀ a b, body k a = some b → R a b) (s s' : σ)
    (h : forLoop n body s = some s') : R s s' := by
  induction n generalizing s' with
  | zero => cases h; exact hrefl _
  | succ k ih =>
    rw [forLoop_succ] at h
    obtain ⟨a, ha, hab⟩ := Option.bind_eq_some.mp h
    exact htrans _ _ _ (ih (fun j hj => hb j (Nat.lt_succ_of_lt hj)) a ha)
      (hb k (Nat.lt_succ_self k) a s' hab)

/-- The loop version of `Frame`. -/
theorem forLoop_frame (W : Set (Ptr ι)) (n : Nat) (body : Nat → Mem ι α → Option (Mem ι α))
    (hb : ∀ k, k < n → ∀ a b, body k a = some b → Frame W a b) (m m' : Mem ι α)
    (h : forLoop n body m = some m') : Frame W m m' :=
  forLoop_rel (Frame W) (Frame.same W) (fun _ _ _ => Frame.andThen) n body hb m m' h

/-- Loop invariant rule: every iteration returns and re-establishes the
invariant, so the loop returns and the invariant holds at the end. -/
theorem forLoop_inv {σ : Type} (I : Nat → σ → Prop) (n : Nat) (body : Nat → σ → Option σ)
    (s : σ) (h0 : I 0 s)
    (hstep : ∀ k, k < n → ∀ a, I k a → ∃ b, body k a = some b ∧ I (k + 1) b) :
    ∃ s', forLoop n body s = some s' ∧ I n s' := by
  induction n with
  | zero => exact ⟨s, rfl, h0⟩
  | succ k ih =>
    obtain ⟨a, ha, hI⟩ := ih (fun j hj => hstep j (Nat.lt_succ_of_lt hj))
    obtain ⟨b, hb, hI'⟩ := hstep k (Nat.lt_succ_self k) a hI
    exact ⟨b, by rw [forLoop_succ, ha]; exact hb, hI'⟩

/-- A loop that adds the term `t j` to its accumulator in iteration `j`. -/
theorem forLoop_sum {β : Type} [AddCommMonoid β] (n : Nat) (body : Nat → β → Option β)
    (t : Nat → β) (a0 : β) (hb : ∀ j, j < n → ∀ acc, body j acc = some (acc + t j)) :
    forLoop n body a0 = some (a0 + ∑ j in Finset.range n, t j) := by
  induction n with
  | zero => simp [forLoop_zero]
  | succ k ih =>
    rw [forLoop_succ, ih (fun j hj => hb j (Nat.lt_succ_of_lt hj)), Option.some_bind,
      hb k (Nat.lt_succ_self k), Finset.sum_range_succ, add_assoc]

theorem mem_region {p q : Ptr ι} {n : Int} :
    q ∈ region p n ↔ q.buf = p.buf ∧ p.off ≤ q.off ∧ q.off < p.off + n := Iff.rfl

theorem add_mem_region (p : Ptr ι) {n k : Int} (h0 : 0 ≤ k) (h1 : k < n) :
    p.add k ∈ region p n := by
  simp only [mem_region, Ptr.add_buf, Ptr.add_off]; exact ⟨trivial, by omega, by omega⟩

theorem exists_of_mem_region {p q : Ptr ι} {n : Int} (h : q ∈ region p n) :
    ∃ k : Nat, (k : Int) < n ∧ q = p.add k := by
  obtain ⟨hb, h0, h1⟩ := h
  refine ⟨(q.off - p.off).toNat, by omega, ?_⟩
  rw [Ptr.ext_iff2]
  exact ⟨hb, by simp only [Ptr.add_off]; omega⟩

theorem not_mem_region_of_buf {p q : Ptr ι} {n : Int} (h : q.buf ≠ p.buf) : q ∉ region p n :=
  fun hq => h hq.1

theorem region_mono (p : Ptr ι) {n n' : Int} (h : n ≤ n') : region p n ⊆ region p n' :=
  fun _ hq => ⟨hq.1, hq.2.1, by have := hq.2.2; omega⟩

/-- A loop that stores `val i` at `out + i` in iteration `i`: it returns when
the `n` targets are inside the buffer, changes only them, and leaves `val i` at
`out + i`.  The body may read anything, also `out + i` and later targets; what
it sees of the earlier targets is what the earlier iterations stored. -/
theorem forLoop_store (n : Nat) (out : Ptr ι) (body : Nat → Mem ι α → Option (Mem ι α))
    (val : Nat → α) (m : Mem ι α) (hout : ∀ i, i < n → InB m (out.add i))
    (hb : ∀ i, i < n → ∀ a, Frame (region out i) m a →
      (∀ j, j < i → load a (out.add j) = some (val j)) →
      body i a = store a (out.add i) (val i)) :
    ∃ m', forLoop n body m = some m' ∧ Frame (region out n) m m' ∧
      ∀ i, i < n → load m' (out.add i) = some (val i) := by
  have key := forLoop_inv
    (fun k a => Frame (region out k) m a ∧ ∀ i, i < k → load a (out.add i) = some (val i))
    n body m ⟨Frame.same _ _, fun i hi => absurd hi (Nat.not_lt_zero i)⟩
    (fun k hk a hI => by
      obtain ⟨hF, hv⟩ := hI
      obtain ⟨b, hs⟩ := store_of_inb (val k) (hF.1.keepsInB (hout k hk))
      refine ⟨b, (hb k hk a hF hv).trans hs, ?_, ?_⟩
      · refine (hF.mono (region_mono out (by push_cast; omega))).andThen (store_frame hs ?_)
        exact add_mem_region out (by omega) (by push_cast; omega)
      · intro i hi
        rcases Nat.lt_succ_iff_lt_or_eq.mp hi with h | h
        · rw [load_store_ne hs]
          · exact hv i h
          · intro e
            have := congrArg Ptr.off e
            simp only [Ptr.add_off] at this
            omega
        · rw [h]; exact load_store_same hs)
  obtain ⟨m', h1, h2, h3⟩ := key
  exact ⟨m', h1, h2, h3⟩

end MemoryLemmas

/-! ## The kernels of ops.hpp -/

section KernelLemmas

variable {ι α : Type} [DecidableEq ι] [LinearOrderedField α]

/-- What `matmul` does: with `x` holding `xv` and `w` holding the row-major
`wv`, both outside the output, it returns, changes only the `d` outputs and
stores row sum `i` at `xout + i`. -/
theorem matmul_spec (m : Mem ι α) (xout x w : Ptr ι) (n d : Nat) (xv wv : Nat → α)
    (hx : ∀ j, j < n → load m (x.add j) = some (xv j))
    (hw : ∀ k, k < d * n → load m (w.add k) = some (wv k))
    (hout : ∀ i, i < d → InB m (xout.add i))
    (hxo : ∀ j, j < n → x.add j ∉ region xout d)
    (hwo : ∀ k, k < d * n → w.add k ∉ region xout d) :
    ∃ m', matmul m xout x w n d = some m' ∧ Frame (region xout d) m m' ∧
      ∀ i, i < d → load m' (xout.add i) = some (∑ j in Finset.range n, wv (i * n + j) * xv j) := by
  unfold matmul
  simp only [Int.toNat_ofNat]
  refine forLoop_store d xout _ _ m hout ?_
  intro i hi a hF _
  have hsum := forLoop_sum n
    (fun j val => (load a (w.add ((i : Int) * n + j))).bind fun wij =>
      (load a (x.add j)).bind fun xj => some (val + wij * xj))
    (fun j => wv (i * n + j) * xv j) 0 (fun j hj acc => by
      have hk : i * n + j < d * n := by
        calc i * n + j < i * n + n := by omega
          _ = (i + 1) * n := by ring
          _ ≤ d * n := Nat.mul_le_mul_right n hi
      have h1 : load a (w.add ((i : Int) * n + j)) = some (wv (i * n + j)) := by
        have := hF.2 (w.add ((i * n + j : Nat) : Int))
          (fun hm => hwo _ hk (region_mono xout (by omega) hm))
        rw [← hw _ hk, ← this]; push_cast; rfl
      have h2 : load a (x.add j) = some (xv j) := by
        rw [← hx j hj]
        exact hF.2 _ (fun hm => hxo j hj (region_mono xout (by omega) hm))
      simp [h1, h2])
  simp only [zero_add] at hsum
  show (forLoop n _ 0).bind _ = _
  exact (congrArg (fun o => Option.bind o fun val => store a (xout.add i) val) hsum).trans rfl

/-- What `rmsnorm` does: with `x` holding `xv` and `weight` holding `wv`, it
returns, changes only the `size` outputs and stores
`wv j * (rmsScale * xv j)` at `out + j`.  `out` may be `x`: iteration `j` only
needs `x[j]` and `weight[j]` not to be an output of an earlier iteration. -/
theorem rmsnorm_spec (F : Libm α) (m : Mem ι α) (out x weight : Ptr ι) (size : Nat)
    (xv wv : Nat → α)
    (hx : ∀ j, j < size → load m (x.add j) = some (xv j))
    (hw : ∀ j, j < size → load m (weight.add j) = some (wv j))
    (hout : ∀ j, j < size → InB m (out.add j))
    (hxo : ∀ j, j < size → x.add j ∉ region out j)
    (hwo : ∀ j, j < size → weight.add j ∉ region out j) :
    ∃ m', rmsnorm F m out x weight size = some m' ∧ Frame (region out size) m m' ∧
      ∀ j, j < size → load m' (out.add j) = some (wv j * (rmsScale F xv size * xv j)) := by
  have hsum := forLoop_sum size
    (fun j ss => (load m (x.add j)).bind fun xj => some (ss + xj * xj))
    (fun j => xv j * xv j) 0 (fun j hj acc => by simp [hx j hj])
  unfold rmsnorm
  simp only [Option.bind_eq_bind, Option.pure_def, Int.toNat_ofNat, Int.cast_natCast]
  rw [hsum]
  simp only [Option.some_bind, zero_add]
  refine forLoop_store size out _ _ m hout ?_
  intro j hj a hF _
  have h1 : load a (weight.add j) = some (wv j) := by
    rw [← hw j hj]; exact hF.2 _ (hwo j hj)
  have h2 : load a (x.add j) = some (xv j) := by
    rw [← hx j hj]; exact hF.2 _ (hxo j hj)
  simp only [h1, h2, Option.some_bind, rmsScale]

theorem maxPrefix_loop (m : Mem ι α) (x : Ptr ι) (n : Nat) (xv : Nat → α)
    (hx : ∀ j, j < n + 1 → load m (x.add j) = some (xv j)) :
    forLoop n (fun k max_val => (load m (x.add ((k : Int) + 1))).bind fun xi =>
      some (if xi > max_val then xi else max_val)) (xv 0) = some (maxPrefix xv n) := by
  induction n with
  | zero => rfl
  | succ k ih =>
    rw [forLoop_succ, ih (fun j hj => hx j (Nat.lt_succ_of_lt hj)), Option.some_bind]
    have := hx (k + 1) (Nat.lt_succ_self _)
    push_cast at this
    rw [this]
    rfl

/-- What `softmax` does on `size ≥ 1` elements holding `xv`: it returns, changes
only these elements and stores `softmaxVal F xv size i` at `x + i`. -/
theorem softmax_spec (F : Libm α) (m : Mem ι α) (x : Ptr ι) (size : Nat) (xv : Nat → α)
    (hsize : 1 ≤ size) (hx : ∀ j, j < size → load m (x.add j) = some (xv j)) :
    ∃ m', softmax F m x size = some m' ∧ Frame (region x size) m m' ∧
      ∀ i, i < size → load m' (x.add i) = some (softmaxVal F xv size i) := by
  obtain ⟨n, rfl⟩ : ∃ n, size = n + 1 := ⟨size - 1, by omega⟩
  have h0 : load m (x.add 0) = some (xv 0) := hx 0 (by omega)
  have hmax := maxPrefix_loop m x n xv hx
  -- exponentiate and sum
  have hexp := forLoop_inv
    (fun k (s : Mem ι α × α) => Frame (region x k) m s.1 ∧
      (∀ i, i < k → load s.1 (x.add i) = some (F.expf (xv i - maxPrefix xv n))) ∧
      s.2 = ∑ i in Finset.range k, F.expf (xv i - maxPrefix xv n))
    (n + 1)
    (fun i (s : Mem ι α × α) => (load s.1 (x.add i)).bind fun xi =>
      (store s.1 (x.add i) (F.expf (xi - maxPrefix xv n))).bind fun m =>
        (load m (x.add i)).bind fun xi => some (m, s.2 + xi))
    (m, 0) ⟨Frame.same _ _, fun i hi => absurd hi (Nat.not_lt_zero i), by simp⟩
    (fun k hk s hI => by
      obtain ⟨hF, hv, hs⟩ := hI
      have hl : load s.1 (x.add k) = some (xv k) := by
        rw [← hx k hk]
        exact hF.2 _ (fun hm => by have := hm.2.2; simp only [Ptr.add_off] at this; omega)
      obtain ⟨b, hb⟩ := store_of_inb (F.expf (xv k - maxPrefix xv n))
        (hF.1.keepsInB (inb_of_load (hx k hk)))
      refine ⟨(b, s.2 + F.expf (xv k - maxPrefix xv n)), ?_, ?_, ?_, ?_⟩
      · simp only [hl, Option.some_bind, hb, load_store_same hb]
      · refine (hF.mono (region_mono x (by push_cast; omega))).andThen (store_frame hb ?_)
        exact add_mem_region x (by omega) (by push_cast; omega)
      · intro i hi
        rcases Nat.lt_succ_iff_lt_or_eq.mp hi with h | h
        · show load b (x.add i) = _
          rw [load_store_ne hb]
          · exact hv i h
          · intro e
            have := congrArg Ptr.off e
            simp only [Ptr.add_off] at this
            omega
        · rw [h]; exact load_store_same hb
      · show s.2 + _ = _
        rw [Finset.sum_range_succ, hs])
  obtain ⟨⟨a, S⟩, hloop, hFa, hva, hS⟩ := hexp
  simp only at hFa hva hS
  -- normalise
  obtain ⟨m', hdiv, hFm, hvm⟩ := forLoop_store (n + 1) x
    (fun i m => (load m (x.add i)).bind fun xi => store m (x.add i) (xi / S))
    (fun i => softmaxVal F xv (n + 1) i) a
    (fun i hi => hFa.1.keepsInB (inb_of_load (hx i hi)))
    (fun i hi c hFc _ => by
      have hl : load c (x.add i) = some (F.expf (xv i - maxPrefix xv n)) := by
        rw [← hva i hi]
        exact hFc.2 _ (fun hm => by have := hm.2.2; simp only [Ptr.add_off] at this; omega)
      simp only [hl, Option.some_bind, softmaxVal, hS, Nat.add_sub_cancel])
  refine ⟨m', ?_, hFa.andThen hFm, hvm⟩
  unfold softmax
  simp only [Option.bind_eq_bind, Option.pure_def, Int.toNat_ofNat, h0, Option.some_bind]
  have hn : ((n + 1 : Nat) : Int) - 1 = (n : Nat) := by push_cast; ring
  rw [hn, Int.toNat_ofNat, hmax]
  simp only [Option.some_bind]
  rw [hloop]
  exact hdiv

/-- C2. `softmax(x, size)` over the reals (`expf` is the real exponential):
for `size ≥ 1` elements inside their buffer the call returns, and afterwards
every element lies in `[0, 1]` and the elements sum to exactly 1. -/
theorem softmax_distribution (F : Libm ℝ) (hF : F.expf = Real.exp) (m : Mem ι ℝ) (x : Ptr ι)
    (size : Nat) (hsize : 1 ≤ size) (hx : ∀ j, j < size → InB m (x.add j)) :
    ∃ (m' : Mem ι ℝ) (out : Nat → ℝ), softmax F m x size = some m' ∧
      (∀ i, i < size → load m' (x.add i) = some (out i) ∧ 0 ≤ out i ∧ out i ≤ 1) ∧
      ∑ i in Finset.range size, out i = 1 := by
  have hx' : ∀ j, j < size → load m (x.add j) = some ((load m (x.add j)).getD 0) := by
    intro j hj
    obtain ⟨v, hv⟩ := load_of_inb (hx j hj)
    rw [hv]; rfl
  obtain ⟨m', h1, -, h3⟩ := softmax_spec F m x size _ hsize hx'
  refine ⟨m', _, h1, fun i hi => ⟨h3 i hi, ?_, ?_⟩, ?_⟩
  all_goals simp only [softmaxVal, hF]
  · exact div_nonneg (Real.exp_pos _).le (Finset.sum_nonneg fun j _ => (Real.exp_pos _).le)
  · have hpos : 0 < ∑ j in Finset.range size,
        Real.exp ((load m (x.add j)).getD 0 - maxPrefix (fun j => (load m (x.add j)).getD 0)
          (size - 1)) :=
      Finset.sum_pos (fun j _ => Real.exp_pos _) ⟨0, Finset.mem_range.mpr (by omega)⟩
    rw [div_le_one hpos]
    exact Finset.single_le_sum
      (f := fun j : Nat => Real.exp ((load m (x.add j)).getD 0 -
        maxPrefix (fun j => (load m (x.add j)).getD 0) (size - 1)))
      (fun j _ => (Real.exp_pos _).le) (Finset.mem_range.mpr hi)
  · have hpos : 0 < ∑ j in Finset.range size,
        Real.exp ((load m (x.add j)).getD 0 - maxPrefix (fun j => (load m (x.add j)).getD 0)
          (size - 1)) :=
      Finset.sum_pos (fun j _ => Real.exp_pos _) ⟨0, Finset.mem_range.mpr (by omega)⟩
    rw [← Finset.sum_div, div_self hpos.ne']

/-- C3. `rmsnorm(out, x, weight, size)` over the reals (`sqrtf` is the real
square root): with `x` holding `xv` and `weight` holding `wv`, the call returns
and afterwards
`out[j] = weight[j] * x[j] * (1 / sqrt((Σ_k x[k]^2) / size + 1e-5))` for every
`j < size`; and the call with `out` the same buffer as `x` returns and leaves
the same values there. -/
theorem rmsnorm_formula (F : Libm ℝ) (hF : F.sqrtf = Real.sqrt) (m : Mem ι ℝ)
    (out x weight : Ptr ι) (size : Nat) (xv wv : Nat → ℝ)
    (hx : ∀ j, j < size → load m (x.add j) = some (xv j))
    (hw : ∀ j, j < size → load m (weight.add j) = some (wv j))
    (hout : ∀ j, j < size → InB m (out.add j))
    (hxo : ∀ j, j < size → x.add j ∉ region out size)
    (hwo : ∀ j, j < size → weight.add j ∉ region out size)
    (hwx : ∀ j, j < size → weight.add j ∉ region x size) :
    (∃ m', rmsnorm F m out x weight size = some m' ∧
      ∀ j, j < size → load m' (out.add j) = some (wv j * xv j *
        (1 / Real.sqrt ((∑ k in Finset.range size, xv k ^ 2) / (size : ℝ) + 1 / 100000)))) ∧
    (∃ m', rmsnorm F m x x weight size = some m' ∧
      ∀ j, j < size → load m' (x.add j) = some (wv j * xv j *
        (1 / Real.sqrt ((∑ k in Finset.range size, xv k ^ 2) / (size : ℝ) + 1 / 100000)))) := by
  have hval : ∀ j, wv j * (rmsScale F xv size * xv j) = wv j * xv j *
      (1 / Real.sqrt ((∑ k in Finset.range size, xv k ^ 2) / (size : ℝ) + 1 / 100000)) := by
    intro j
    simp only [rmsScale, hF, pow_two]
    ring
  constructor
  · obtain ⟨m', h1, -, h3⟩ := rmsnorm_spec F m out x weight size xv wv hx hw hout
      (fun j hj hm => hxo j hj (region_mono out (by omega) hm))
      (fun j hj hm => hwo j hj (region_mono out (by omega) hm))
    exact ⟨m', h1, fun j hj => by rw [h3 j hj, hval]⟩
  · obtain ⟨m', h1, -, h3⟩ := rmsnorm_spec F m x x weight size xv wv hx hw
      (fun j hj => inb_of_load (hx j hj))
      (fun j _ hm => by have := hm.2.2; simp only [Ptr.add_off] at this; omega)
      (fun j hj hm => hwx j hj (region_mono x (by omega) hm))
    exact ⟨m', h1, fun j hj => by rw [h3 j hj, hval]⟩

/-- C13, as the code has it. Over the reals, for an input `x` of `size` elements
holding `xv` with mean square `ms = (Σ_k xv k ^ 2) / size` and the all-ones
weight, `rmsnorm` returns an output whose mean square is `ms / (ms + 1e-5)`;
so it is within `1e-4` of 1 whenever `ms ≥ 0.09999`. -/
theorem rmsnorm_mean_square (F : Libm ℝ) (hF : F.sqrtf = Real.sqrt) (m : Mem ι ℝ)
    (out x weight : Ptr ι) (size : Nat) (xv : Nat → ℝ)
    (hx : ∀ j, j < size → load m (x.add j) = some (xv j))
    (hw : ∀ j, j < size → load m (weight.add j) = some 1)
    (hout : ∀ j, j < size → InB m (out.add j))
    (hxo : ∀ j, j < size → x.add j ∉ region out size)
    (hwo : ∀ j, j < size → weight.add j ∉ region out size) :
    ∃ (m' : Mem ι ℝ) (o : Nat → ℝ), rmsnorm F m out x weight size = some m' ∧
      (∀ j, j < size → load m' (out.add j) = some (o j)) ∧
      (∑ j in Finset.range size, o j ^ 2) / (size : ℝ) =
        ((∑ k in Finset.range size, xv k ^ 2) / (size : ℝ)) /
          ((∑ k in Finset.range size, xv k ^ 2) / (size : ℝ) + 1 / 100000) ∧
      (9999 / 100000 ≤ (∑ k in Finset.range size, xv k ^ 2) / (size : ℝ) →
        |(∑ j in Finset.range size, o j ^ 2) / (size : ℝ) - 1| ≤ 1 / 10000) := by
  obtain ⟨m', h1, -, h3⟩ := rmsnorm_spec F m out x weight size xv (fun _ => 1) hx hw hout
    (fun j hj hm => hxo j hj (region_mono out (by omega) hm))
    (fun j hj hm => hwo j hj (region_mono out (by omega) hm))
  have hms : 0 ≤ (∑ k in Finset.range size, xv k ^ 2) / (size : ℝ) :=
    div_nonneg (Finset.sum_nonneg fun k _ => sq_nonneg _) (Nat.cast_nonneg _)
  have hpos : 0 < (∑ k in Finset.range size, xv k ^ 2) / (size : ℝ) + 1 / 100000 := by
    linarith
  have hscale : rmsScale F xv size ^ 2 =
      1 / ((∑ k in Finset.range size, xv k ^ 2) / (size : ℝ) + 1 / 100000) := by
    have e : (∑ k in Finset.range size, xv k * xv k) = ∑ k in Finset.range size, xv k ^ 2 :=
      Finset.sum_congr rfl fun k _ => (sq (xv k)).symm
    simp only [rmsScale, hF, e]
    rw [div_pow, one_pow, Real.sq_sqrt hpos.le]
  have hsum : (∑ j in Finset.range size, (1 * (rmsScale F xv size * xv j)) ^ 2) =
      (∑ k in Finset.range size, xv k ^ 2) /
        ((∑ k in Finset.range size, xv k ^ 2) / (size : ℝ) + 1 / 100000) := by
    have : ∀ j, (1 * (rmsScale F xv size * xv j)) ^ 2 =
        xv j ^ 2 / ((∑ k in Finset.range size, xv k ^ 2) / (size : ℝ) + 1 / 100000) := by
      intro j
      rw [one_mul, mul_pow, hscale]; ring
    simp only [this, Finset.sum_div]
  have hval : (∑ j in Finset.range size, (1 * (rmsScale F xv size * xv j)) ^ 2) / (size : ℝ) =
      ((∑ k in Finset.range size, xv k ^ 2) / (size : ℝ)) /
        ((∑ k in Finset.range size, xv k ^ 2) / (size : ℝ) + 1 / 100000) := by
    rw [hsum]; ring
  refine ⟨m', fun j => 1 * (rmsScale F xv size * xv j), h1, h3, hval, fun hge => ?_⟩
  rw [hval]
  have e : ((∑ k in Finset.range size, xv k ^ 2) / (size : ℝ)) /
      ((∑ k in Finset.range size, xv k ^ 2) / (size : ℝ) + 1 / 100000) - 1 =
      -((1 / 100000) / ((∑ k in Finset.range size, xv k ^ 2) / (size : ℝ) + 1 / 100000)) := by
    rw [div_sub_one hpos.ne', ← neg_div]
    congr 1
    ring
  rw [e, abs_neg, abs_of_nonneg (div_nonneg (by norm_num) hpos.le), div_le_iff₀ hpos]
  linarith

/-- C20. Over the reals (`expf` is the real exponential), for `size ≥ 1`
elements holding `xv`, `softmax` returns and leaves
`exp(xv i) / Σ_j exp(xv j)` at index `i`: subtracting the maximum does not
change the result; and from a state whose elements are `xv j + c` it returns
the same values. -/
theorem softmax_shift_invariant (F : Libm ℝ) (hF : F.expf = Real.exp) (m m2 : Mem ι ℝ)
    (x : Ptr ι) (size : Nat) (xv : Nat → ℝ) (c : ℝ) (hsize : 1 ≤ size)
    (hx : ∀ j, j < size → load m (x.add j) = some (xv j))
    (hx2 : ∀ j, j < size → load m2 (x.add j) = some (xv j + c)) :
    ∃ m' m2', softmax F m x size = some m' ∧ softmax F m2 x size = some m2' ∧
      (∀ i, i < size → load m' (x.add i) =
        some (Real.exp (xv i) / ∑ j in Finset.range size, Real.exp (xv j))) ∧
      ∀ i, i < size → load m2' (x.add i) = load m' (x.add i) := by
  have key : ∀ (yv : Nat → ℝ) (M d : ℝ) (i : Nat),
      Real.exp (yv i + d - M) / (∑ j in Finset.range size, Real.exp (yv j + d - M)) =
        Real.exp (yv i) / ∑ j in Finset.range size, Real.exp (yv j) := by
    intro yv M d i
    have e : ∀ j, Real.exp (yv j + d - M) = Real.exp (yv j) * Real.exp (d - M) := by
      intro j; rw [← Real.exp_add]; congr 1; ring
    simp only [e, ← Finset.sum_mul]
    rw [mul_div_mul_right _ _ (Real.exp_pos _).ne']
  obtain ⟨m', h1, -, h3⟩ := softmax_spec F m x size xv hsize hx
  obtain ⟨m2', h1', -, h3'⟩ := softmax_spec F m2 x size (fun j => xv j + c) hsize hx2
  have v1 : ∀ i, softmaxVal F xv size i =
      Real.exp (xv i) / ∑ j in Finset.range size, Real.exp (xv j) := by
    intro i
    have := key xv (maxPrefix xv (size - 1)) 0 i
    simp only [add_zero] at this
    simp only [softmaxVal, hF, this]
  have v2 : ∀ i, softmaxVal F (fun j => xv j + c) size i =
      Real.exp (xv i) / ∑ j in Finset.range size, Real.exp (xv j) := by
    intro i
    simp only [softmaxVal, hF]
    exact key xv _ c i
  refine ⟨m', m2', h1, h1', fun i hi => by rw [h3 i hi, v1], fun i hi => ?_⟩
  rw [h3 i hi, h3' i hi, v1, v2]

/-- C1. `matmul(xout, x, w, n, d)`: for all `n`, `d`, every input vector `x`
of `n` elements `xv` and every row-major weight array `w` of `d * n` elements
`wv`, with the `d` outputs inside their buffer and apart from the elements of
`x` and `w`, the call returns and afterwards
`xout[i] = Σ_{j<n} w[i*n + j] * x[j]` for every `i < d`: output `i` is a
function of row `i` of `w` and of `x` only. -/
theorem matmul_rows (m : Mem ι α) (xout x w : Ptr ι) (n d : Nat) (xv wv : Nat → α)
    (hx : ∀ j, j < n → load m (x.add j) = some (xv j))
    (hw : ∀ k, k < d * n → load m (w.add k) = some (wv k))
    (hout : ∀ i, i < d → InB m (xout.add i))
    (hxo : ∀ j, j < n → x.add j ∉ region xout d)
    (hwo : ∀ k, k < d * n → w.add k ∉ region xout d) :
    ∃ m', matmul m xout x w n d = some m' ∧
      ∀ i, i < d → load m' (xout.add i) = some (∑ j in Finset.range n, wv (i * n + j) * xv j) := by
  obtain ⟨m', h1, -, h3⟩ := matmul_spec m xout x w n d xv wv hx hw hout hxo hwo
  exact ⟨m', h1, h3⟩

/-- In exact arithmetic (any ordered field, the reals among them) `matmul` with
the `n`-by-`n` identity matrix (`w[i*n + j] = 1` if `i = j`, else `0`) returns and
leaves `xout[i] = x[i]` for every `i < n`. -/
theorem identity_rows_exact (m : Mem ι α) (xout x w : Ptr ι) (n : Nat) (xv : Nat → α)
    (hx : ∀ j, j < n → load m (x.add j) = some (xv j))
    (hw : ∀ i, i < n → ∀ j, j < n →
      load m (w.add ((i : Int) * n + j)) = some (if i = j then 1 else 0))
    (hout : ∀ i, i < n → InB m (xout.add i))
    (hxo : ∀ j, j < n → x.add j ∉ region xout n)
    (hwo : ∀ k, k < n * n → w.add k ∉ region xout n) :
    ∃ m', matmul m xout x w n n = some m' ∧
      ∀ i, i < n → load m' (xout.add i) = some (xv i) ∧ load m' (xout.add i) = load m (x.add i) := by
  have hdm : ∀ i j, i < n → j < n → (i * n + j) / n = i ∧ (i * n + j) % n = j := by
    intro i j _ hj
    have hn : 0 < n := by omega
    constructor
    · rw [Nat.add_comm, Nat.add_mul_div_right _ _ hn, Nat.div_eq_of_lt hj, Nat.zero_add]
    · rw [Nat.add_comm, Nat.add_mul_mod_self_right, Nat.mod_eq_of_lt hj]
  obtain ⟨m', h1, -, h3⟩ := matmul_spec m xout x w n n xv
    (fun k => if k / n = k % n then 1 else 0) hx
    (fun k hk => by
      have hn : 0 < n := by
        rcases Nat.eq_zero_or_pos n with h | h
        · subst h; simp at hk
        · exact h
      have hdiv : k / n < n := Nat.div_lt_of_lt_mul hk
      have hmod : k % n < n := Nat.mod_lt k hn
      have := hw (k / n) hdiv (k % n) hmod
      have hk2 : ((k / n : Nat) : Int) * n + (k % n : Nat) = (k : Int) := by
        have := Nat.div_add_mod k n
        rw [Nat.mul_comm] at this
        exact_mod_cast this
      rw [hk2] at this
      exact this)
    hout hxo hwo
  refine ⟨m', h1, fun i hi => ?_⟩
  have hval : (∑ j in Finset.range n, (if (i * n + j) / n = (i * n + j) % n then (1 : α) else 0)
      * xv j) = xv i := by
    rw [Finset.sum_eq_single i]
    · simp [(hdm i i hi hi).1, (hdm i i hi hi).2]
    · intro j hj hji
      have hj := Finset.mem_range.mp hj
      simp [(hdm i j hi hj).1, (hdm i j hi hj).2, Ne.symm hji]
    · intro h; exact absurd (Finset.mem_range.mpr hi) h
  rw [h3 i hi, hval, hx i hi]
  exact ⟨rfl, rfl⟩

end KernelLemmas

/-! ## `matmul` on floats with special values -/

section IeeeLemmas

variable {ι : Type} [DecidableEq ι]

theorem Ieee.zero_eq : (0 : Ieee) = Ieee.fin 0 := rfl

theorem Ieee.fin_add_mul (a b c : ℚ) :
    Ieee.fin a + Ieee.fin b * Ieee.fin c = Ieee.fin (a + b * c) := rfl

theorem forLoop_sum_fin (n : Nat) (body : Nat → Ieee → Option Ieee) (t : Nat → ℚ) (a0 : ℚ)
    (hb : ∀ j, j < n → ∀ acc : ℚ, body j (Ieee.fin acc) = some (Ieee.fin (acc + t j))) :
    forLoop n body (Ieee.fin a0) = some (Ieee.fin (a0 + ∑ j in Finset.range n, t j)) := by
  induction n with
  | zero => simp [forLoop_zero]
  | succ k ih =>
    rw [forLoop_succ, ih (fun j hj => hb j (Nat.lt_succ_of_lt hj)), Option.some_bind,
      hb k (Nat.lt_succ_self k), Finset.sum_range_succ, add_assoc]

/-- What `matmul` does on `float`s when everything it reads is finite: it
returns, changes only the `d` outputs and stores the finite row sum `i` at
`xout + i`. -/
theorem matmul_finite (m : Mem ι Ieee) (xout x w : Ptr ι) (n d : Nat) (xv wv : Nat → ℚ)
    (hx : ∀ j, j < n → load m (x.add j) = some (Ieee.fin (xv j)))
    (hw : ∀ k, k < d * n → load m (w.add k) = some (Ieee.fin (wv k)))
    (hout : ∀ i, i < d → InB m (xout.add i))
    (hxo : ∀ j, j < n → x.add j ∉ region xout d)
    (hwo : ∀ k, k < d * n → w.add k ∉ region xout d) :
    ∃ m', matmul m xout x w n d = some m' ∧ Frame (region xout d) m m' ∧
      ∀ i, i < d → load m' (xout.add i) =
        some (Ieee.fin (∑ j in Finset.range n, wv (i * n + j) * xv j)) := by
  unfold matmul
  simp only [Int.toNat_ofNat]
  refine forLoop_store d xout _ _ m hout ?_
  intro i hi a hF _
  have hsum := forLoop_sum_fin n
    (fun j val => (load a (w.add ((i : Int) * n + j))).bind fun wij =>
      (load a (x.add j)).bind fun xj => some (val + wij * xj))
    (fun j => wv (i * n + j) * xv j) 0 (fun j hj acc => by
      have hk : i * n + j < d * n := by
        calc i * n + j < i * n + n := by omega
          _ = (i + 1) * n := by ring
          _ ≤ d * n := Nat.mul_le_mul_right n hi
      have h1 : load a (w.add ((i : Int) * n + j)) = some (Ieee.fin (wv (i * n + j))) := by
        have := hF.2 (w.add ((i * n + j : Nat) : Int))
          (fun hm => hwo _ hk (region_mono xout (by omega) hm))
        rw [← hw _ hk, ← this]; push_cast; rfl
      have h2 : load a (x.add j) = some (Ieee.fin (xv j)) := by
        rw [← hx j hj]
        exact hF.2 _ (fun hm => hxo j hj (region_mono xout (by omega) hm))
      simp only [h1, h2, Option.some_bind, Ieee.fin_add_mul])
  simp only [zero_add] at hsum
  show (forLoop n _ 0).bind _ = _
  rw [Ieee.zero_eq]
  exact (congrArg (fun o => Option.bind o fun val => store a (xout.add i) val) hsum).trans rfl

/-- C10, amended. On `float`s (`Ieee`: finite values with exact arithmetic, the
infinities and NaN) and for every input vector `x` of `n` finite values,
`matmul` with the `n`-by-`n` identity matrix (`w[i*n + j] = 1` if `i = j`, else
`0`) returns and leaves `xout[i] = x[i]` for every `i < n`, exactly. -/
theorem matmul_identity (m : Mem ι Ieee) (xout x w : Ptr ι) (n : Nat) (xv : Nat → ℚ)
    (hx : ∀ j, j < n → load m (x.add j) = some (Ieee.fin (xv j)))
    (hw : ∀ i, i < n → ∀ j, j < n →
      load m (w.add ((i : Int) * n + j)) = some (Ieee.fin (if i = j then 1 else 0)))
    (hout : ∀ i, i < n → InB m (xout.add i))
    (hxo : ∀ j, j < n → x.add j ∉ region xout n)
    (hwo : ∀ k, k < n * n → w.add k ∉ region xout n) :
    ∃ m', matmul m xout x w n n = some m' ∧
      ∀ i, i < n → load m' (xout.add i) = some (Ieee.fin (xv i)) ∧
        load m' (xout.add i) = load m (x.add i) := by
  have hdm : ∀ i j, i < n → j < n → (i * n + j) / n = i ∧ (i * n + j) % n = j := by
    intro i j _ hj
    have hn : 0 < n := by omega
    constructor
    · rw [Nat.add_comm, Nat.add_mul_div_right _ _ hn, Nat.div_eq_of_lt hj, Nat.zero_add]
    · rw [Nat.add_comm, Nat.add_mul_mod_self_right, Nat.mod_eq_of_lt hj]
  obtain ⟨m', h1, -, h3⟩ := matmul_finite m xout x w n n xv
    (fun k => if k / n = k % n then 1 else 0) hx
    (fun k hk => by
      have hn : 0 < n := by
        rcases Nat.eq_zero_or_pos n with h | h
        · subst h; simp at hk
        · exact h
      have hdiv : k / n < n := Nat.div_lt_of_lt_mul hk
      have hmod : k % n < n := Nat.mod_lt k hn
      have := hw (k / n) hdiv (k % n) hmod
      have hk2 : ((k / n : Nat) : Int) * n + (k % n : Nat) = (k : Int) := by
        have := Nat.div_add_mod k n
        rw [Nat.mul_comm] at this
        exact_mod_cast this
      rw [hk2] at this
      exact this)
    hout hxo hwo
  refine ⟨m', h1, fun i hi => ?_⟩
  have hval : (∑ j in Finset.range n, (if (i * n + j) / n = (i * n + j) % n then (1 : ℚ) else 0)
      * xv j) = xv i := by
    rw [Finset.sum_eq_single i]
    · simp [(hdm i i hi hi).1, (hdm i i hi hi).2]
    · intro j hj hji
      have hj := Finset.mem_range.mp hj
      simp [(hdm i j hi hj).1, (hdm i j hi hj).2, Ne.symm hji]
    · intro h; exact absurd (Finset.mem_range.mpr hi) h
  have := h3 i hi
  rw [hval] at this
  exact ⟨this, this.trans (hx i hi).symm⟩

end IeeeLemmas

/-! ## What a call may change -/

section FrameLemmas

variable {ι α : Type} [DecidableEq ι] [LinearOrderedField α]

theorem natCast_lt_of_lt_toNat {i : Nat} {d : Int} (h : i < d.toNat) : (i : Int) < d := by
  omega

theorem mem_wholeBuf {b : ι} {q : Ptr ι} : q ∈ wholeBuf b ↔ q.buf = b := Iff.rfl

theorem region_subset_wholeBuf (p : Ptr ι) (n : Int) : region p n ⊆ wholeBuf p.buf :=
  fun _ hq => hq.1

theorem matmul_frame {m m' : Mem ι α} {xout x w : Ptr ι} {n d : Int}
    (h : matmul m xout x w n d = some m') : Frame (region xout d) m m' := by
  refine forLoop_frame _ _ _ (fun i hi a b hab => ?_) m m' h
  simp only [Option.bind_eq_bind, Option.bind_eq_some] at hab
  obtain ⟨_, _, hs⟩ := hab
  exact store_frame hs (add_mem_region xout (by omega) (natCast_lt_of_lt_toNat hi))

theorem rmsnorm_frame {F : Libm α} {m m' : Mem ι α} {out x weight : Ptr ι} {size : Int}
    (h : rmsnorm F m out x weight size = some m') : Frame (region out size) m m' := by
  unfold rmsnorm at h
  simp only [Option.bind_eq_bind, Option.bind_eq_some] at h
  obtain ⟨_, _, h⟩ := h
  refine forLoop_frame _ _ _ (fun i hi a b hab => ?_) m m' h
  simp only [Option.bind_eq_some] at hab
  obtain ⟨_, _, _, _, hs⟩ := hab
  exact store_frame hs (add_mem_region out (by omega) (natCast_lt_of_lt_toNat hi))

theorem softmax_frame {F : Libm α} {m m' : Mem ι α} {x : Ptr ι} {size : Int}
    (h : softmax F m x size = some m') : Frame (region x size) m m' := by
  unfold softmax at h
  simp only [Option.bind_eq_bind, Option.bind_eq_some] at h
  obtain ⟨_, _, _, _, ⟨a, S⟩, h2, h3⟩ := h
  have hF2 : Frame (region x size) m a :=
    forLoop_rel (fun (s s' : Mem ι α × α) => Frame (region x size) s.1 s'.1)
      (fun _ => Frame.same _ _) (fun _ _ _ => Frame.andThen) _ _
      (fun i hi s s' hss => by
        simp only [Option.bind_eq_some, Option.pure_def, Option.some.injEq] at hss
        obtain ⟨_, _, c, hs, _, _, rfl⟩ := hss
        exact store_frame hs (add_mem_region x (by omega) (natCast_lt_of_lt_toNat hi)))
      (m, 0) (a, S) h2
  refine hF2.andThen (forLoop_frame _ _ _ (fun i hi a b hab => ?_) a m' h3)
  simp only [Option.bind_eq_some] at hab
  obtain ⟨_, _, hs⟩ := hab
  exact store_frame hs (add_mem_region x (by omega) (natCast_lt_of_lt_toNat hi))

theorem memcpy_frame {m m' : Mem ι α} {dst src : Ptr ι} {n : Int}
    (h : memcpy m dst src n = some m') : Frame (region dst n) m m' := by
  refine forLoop_frame _ _ _ (fun i hi a b hab => ?_) m m' h
  simp only [Option.bind_eq_bind, Option.bind_eq_some] at hab
  obtain ⟨_, _, hs⟩ := hab
  exact store_frame hs (add_mem_region dst (by omega) (natCast_lt_of_lt_toNat hi))

theorem memset0_frame {m m' : Mem ι α} {dst : Ptr ι} {n : Int}
    (h : memset0 m dst n = some m') : Frame (region dst n) m m' :=
  forLoop_frame _ _ _ (fun _ hi _ _ hab =>
    store_frame hab (add_mem_region dst (by omega) (natCast_lt_of_lt_toNat hi))) m m' h

theorem residual_frame {m m' : Mem Buf α} {x y : Ptr Buf} {dim : Int}
    (h : residual m x y dim = some m') : Frame (region x dim) m m' := by
  refine forLoop_frame _ _ _ (fun i hi a b hab => ?_) m m' h
  simp only [Option.bind_eq_bind, Option.bind_eq_some] at hab
  obtain ⟨_, _, _, _, hs⟩ := hab
  exact store_frame hs (add_mem_region x (by omega) (natCast_lt_of_lt_toNat hi))

theorem swiglu_frame {F : Libm α} {m m' : Mem Buf α} {hb hb2 : Ptr Buf} {hidden_dim : Int}
    (h : swiglu F m hb hb2 hidden_dim = some m') : Frame (region hb hidden_dim) m m' := by
  refine forLoop_frame _ _ _ (fun i hi a b hab => ?_) m m' h
  simp only [Option.bind_eq_bind, Option.bind_eq_some] at hab
  obtain ⟨_, _, _, _, hs⟩ := hab
  exact store_frame hs (add_mem_region hb (by omega) (natCast_lt_of_lt_toNat hi))

/-- The rotary loop changes elements of the query buffer and, when `kv_dim` is
even, of the `kv_dim` elements at `k` only. -/
theorem rope_frame {F : Libm α} {m m' : Mem Buf α} {q k : Ptr Buf}
    {pos dim kv_dim head_size : Int} (hk : 2 ∣ kv_dim)
    (h : rope F m q k pos dim kv_dim head_size = some m') :
    Frame (wholeBuf q.buf ∪ region k kv_dim) m m' := by
  refine forLoop_frame _ _ _ (fun c _ a b hab => ?_) m m' h
  simp only [Option.bind_eq_bind, Option.bind_eq_some] at hab
  obtain ⟨_, _, hab⟩ := hab
  refine forLoop_frame _ _ _ (fun v hv a b hab => ?_) a b hab
  simp only [Option.bind_eq_some] at hab
  obtain ⟨_, _, _, _, c1, hs1, hs2⟩ := hab
  by_cases hv0 : v = 0
  · simp only [hv0, if_true] at hs1 hs2
    exact (store_frame hs1 (Or.inl rfl)).andThen (store_frame hs2 (Or.inl rfl))
  · simp only [hv0, if_false] at hs1 hs2
    have hlt : 2 * (c : Int) < kv_dim := by
      by_contra hge
      rw [if_neg hge] at hv
      omega
    obtain ⟨t, rfl⟩ := hk
    exact (store_frame hs1 (Or.inr (add_mem_region k (by omega) hlt))).andThen
      (store_frame hs2 (Or.inr (add_mem_region k (by omega) (by omega))))

theorem attention_head_frame {F : Libm α} {p : TransformerConfig} {m m' : Mem Buf α}
    {h loff pos kv_dim kv_mul head_size : Int}
    (hh : attention_head F p m h loff pos kv_dim kv_mul head_size = some m') :
    Frame (wholeBuf Buf.att ∪ wholeBuf Buf.xb) m m' := by
  unfold attention_head at hh
  simp only [Option.bind_eq_bind, Option.bind_eq_some] at hh
  obtain ⟨a1, h1, a2, h2, a3, h3, h4⟩ := hh
  have f1 : Frame (wholeBuf Buf.att ∪ wholeBuf Buf.xb) m a1 :=
    forLoop_frame _ _ _ (fun t _ a b hab => by
      simp only [Option.bind_eq_some] at hab
      obtain ⟨_, _, _, _, hs⟩ := hab
      exact store_frame hs (Or.inl rfl)) m a1 h1
  have f2 : Frame (wholeBuf Buf.att ∪ wholeBuf Buf.xb) a1 a2 :=
    (softmax_frame h2).mono (fun _ hq => Or.inl hq.1)
  have f3 : Frame (wholeBuf Buf.att ∪ wholeBuf Buf.xb) a2 a3 :=
    (memset0_frame h3).mono (fun _ hq => Or.inr hq.1)
  have f4 : Frame (wholeBuf Buf.att ∪ wholeBuf Buf.xb) a3 m' :=
    forLoop_frame _ _ _ (fun t _ a b hab => by
      simp only [Option.bind_eq_some] at hab
      obtain ⟨_, _, _, _, hab⟩ := hab
      refine forLoop_frame _ _ _ (fun i _ a b hab => ?_) a b hab
      simp only [Option.bind_eq_some] at hab
      obtain ⟨_, _, _, _, hs⟩ := hab
      exact store_frame hs (Or.inr rfl)) a3 m' h4
  exact ((f1.andThen f2).andThen f3).andThen f4

theorem layer_frame {F : Libm α} {p : TransformerConfig} {w : TransformerWeights}
    {m m' : Mem Buf α} {l pos dim kv_dim kv_mul hidden_dim head_size : Int} (hk : 2 ∣ kv_dim)
    (h : layer F p w m l pos dim kv_dim kv_mul hidden_dim head_size = some m') :
    Frame (scratch ∪ (cacheEntry Buf.key_cache p.seq_len kv_dim l pos ∪
      cacheEntry Buf.value_cache p.seq_len kv_dim l pos)) m m' := by
  have hs : ∀ (q : Ptr Buf) (n : Int), q.buf ≠ Buf.data → q.buf ≠ Buf.key_cache →
      q.buf ≠ Buf.value_cache → region q n ⊆ scratch ∪
        (cacheEntry Buf.key_cache p.seq_len kv_dim l pos ∪
          cacheEntry Buf.value_cache p.seq_len kv_dim l pos) :=
    fun q n h1 h2 h3 r hr => Or.inl ⟨hr.1 ▸ h1, hr.1 ▸ h2, hr.1 ▸ h3⟩
  have hkE : cacheEntry Buf.key_cache p.seq_len kv_dim l pos ⊆ scratch ∪
      (cacheEntry Buf.key_cache p.seq_len kv_dim l pos ∪
        cacheEntry Buf.value_cache p.seq_len kv_dim l pos) := fun r hr => Or.inr (Or.inl hr)
  have hvE : cacheEntry Buf.value_cache p.seq_len kv_dim l pos ⊆ scratch ∪
      (cacheEntry Buf.key_cache p.seq_len kv_dim l pos ∪
        cacheEntry Buf.value_cache p.seq_len kv_dim l pos) := fun r hr => Or.inr (Or.inr hr)
  have hwb : ∀ b : Buf, b ≠ Buf.data → b ≠ Buf.key_cache → b ≠ Buf.value_cache →
      wholeBuf b ⊆ scratch ∪ (cacheEntry Buf.key_cache p.seq_len kv_dim l pos ∪
        cacheEntry Buf.value_cache p.seq_len kv_dim l pos) :=
    fun b h1 h2 h3 r hr => Or.inl ⟨hr ▸ h1, hr ▸ h2, hr ▸ h3⟩
  unfold layer at h
  simp only [Option.bind_eq_bind, Option.bind_eq_some] at h
  obtain ⟨a1, h1, a2, h2, a3, h3, a4, h4, a5, h5, a6, h6, a7, h7, a8, h8, a9, h9, a10, h10,
    a11, h11, a12, h12, a13, h13, h14⟩ := h
  have f1 := (rmsnorm_frame h1).mono (hs _ _ (by decide) (by decide) (by decide))
  have f2 := (matmul_frame h2).mono (hs _ _ (by decide) (by decide) (by decide))
  have f3 := (matmul_frame h3).mono hkE
  have f4 := (matmul_frame h4).mono hvE
  have f5 := (rope_frame hk h5).mono
    (Set.union_subset (hwb Buf.q (by decide) (by decide) (by decide)) hkE)
  have f6 := forLoop_frame (scratch ∪ (cacheEntry Buf.key_cache p.seq_len kv_dim l pos ∪
      cacheEntry Buf.value_cache p.seq_len kv_dim l pos)) _ _
    (fun h _ a b hab => (attention_head_frame hab).mono
      (Set.union_subset (hwb Buf.att (by decide) (by decide) (by decide))
        (hwb Buf.xb (by decide) (by decide) (by decide)))) a5 a6 h6
  have f7 := (matmul_frame h7).mono (hs _ _ (by decide) (by decide) (by decide))
  have f8 := (residual_frame h8).mono (hs _ _ (by decide) (by decide) (by decide))
  have f9 := (rmsnorm_frame h9).mono (hs _ _ (by decide) (by decide) (by decide))
  have f10 := (matmul_frame h10).mono (hs _ _ (by decide) (by decide) (by decide))
  have f11 := (matmul_frame h11).mono (hs _ _ (by decide) (by decide) (by decide))
  have f12 := (swiglu_frame h12).mono (hs _ _ (by decide) (by decide) (by decide))
  have f13 := (matmul_frame h13).mono (hs _ _ (by decide) (by decide) (by decide))
  have f14 := (residual_frame h14).mono (hs _ _ (by decide) (by decide) (by decide))
  exact f1.andThen (f2.andThen (f3.andThen (f4.andThen (f5.andThen (f6.andThen (f7.andThen
    (f8.andThen (f9.andThen (f10.andThen (f11.andThen (f12.andThen (f13.andThen f14))))))))))))

theorem lt_of_lt_wrapULL {n : Int} (hn : 0 ≤ n) {l : Nat} (hl : l < (wrapULL n).toNat) :
    (l : Int) < n := by
  unfold wrapULL at hl
  omega

/-- With an even `kv_dim` and `n_layers ≥ 0`, a `forward(token, pos)` call that
returns changed nothing outside `forwardWrites`. -/
theorem forward_frame {F : Libm α} {p : TransformerConfig} {w : TransformerWeights}
    {m m' : Mem Buf α} {token pos kv_dim : Int}
    (hkv : cdiv (p.dim * p.n_kv_heads) p.n_heads = some kv_dim) (hk : 2 ∣ kv_dim)
    (hnl : 0 ≤ p.n_layers)
    (h : forward F p w m token pos = some m') : Frame (forwardWrites p kv_dim pos) m m' := by
  have hs : ∀ (q : Ptr Buf) (n : Int), q.buf ≠ Buf.data → q.buf ≠ Buf.key_cache →
      q.buf ≠ Buf.value_cache → region q n ⊆ forwardWrites p kv_dim pos :=
    fun q n h1 h2 h3 r hr => Or.inl ⟨hr.1 ▸ h1, hr.1 ▸ h2, hr.1 ▸ h3⟩
  unfold forward at h
  simp only [Option.bind_eq_bind, hkv, Option.some_bind, Option.bind_eq_some] at h
  obtain ⟨kv_mul, -, head_size, -, a1, h1, a2, h2, a3, h3, h4⟩ := h
  have f1 := (memcpy_frame h1).mono (hs _ _ (by decide) (by decide) (by decide))
  have f2 := forLoop_frame (forwardWrites p kv_dim pos) _ _
    (fun l hl a b hab => (layer_frame hk hab).mono (fun r hr => by
      rcases hr with hr | hr
      · exact Or.inl hr
      · exact Or.inr ⟨l, by omega, lt_of_lt_wrapULL hnl hl, hr⟩)) a1 a2 h2
  have f3 := (rmsnorm_frame h3).mono (hs _ _ (by decide) (by decide) (by decide))
  have f4 := (matmul_frame h4).mono (hs _ _ (by decide) (by decide) (by decide))
  exact f1.andThen (f2.andThen (f3.andThen f4))

/-- Two cache entries with different positions (both inside `[0, seq_len)`)
have no element in common. -/
theorem cacheEntry_disjoint {b : Buf} {seq_len kv_dim l l' t t' : Int} (ht : 0 ≤ t)
    (hts : t < seq_len) (ht' : 0 ≤ t') (hts' : t' < seq_len) (hne : t ≠ t') {q : Ptr Buf}
    (h1 : q ∈ cacheEntry b seq_len kv_dim l t) (h2 : q ∈ cacheEntry b seq_len kv_dim l' t') :
    False := by
  obtain ⟨-, h1a, h1b⟩ := h1
  obtain ⟨-, h2a, h2b⟩ := h2
  simp only at h1a h1b h2a h2b
  have hkv : 0 < kv_dim := by omega
  have e1 : l * seq_len * kv_dim + t * kv_dim = (l * seq_len + t) * kv_dim := by ring
  have e2 : l' * seq_len * kv_dim + t' * kv_dim = (l' * seq_len + t') * kv_dim := by ring
  rw [e1] at h1a h1b
  rw [e2] at h2a h2b
  have hAB : l * seq_len + t = l' * seq_len + t' := by
    rcases lt_trichotomy (l * seq_len + t) (l' * seq_len + t') with hlt | heq | hgt
    · have : (l * seq_len + t + 1) * kv_dim ≤ (l' * seq_len + t') * kv_dim :=
        mul_le_mul_of_nonneg_right (by omega) hkv.le
      have e3 : (l * seq_len + t + 1) * kv_dim = (l * seq_len + t) * kv_dim + kv_dim := by ring
      omega
    · exact heq
    · have : (l' * seq_len + t' + 1) * kv_dim ≤ (l * seq_len + t) * kv_dim :=
        mul_le_mul_of_nonneg_right (by omega) hkv.le
      have e3 : (l' * seq_len + t' + 1) * kv_dim = (l' * seq_len + t') * kv_dim + kv_dim := by
        ring
      omega
  have hll : l = l' := by
    rcases lt_trichotomy l l' with hlt | heq | hgt
    · have : (l + 1) * seq_len ≤ l' * seq_len := mul_le_mul_of_nonneg_right (by omega) (by omega)
      have e3 : (l + 1) * seq_len = l * seq_len + seq_len := by ring
      omega
    · exact heq
    · have : (l' + 1) * seq_len ≤ l * seq_len := mul_le_mul_of_nonneg_right (by omega) (by omega)
      have e3 : (l' + 1) * seq_len = l' * seq_len + seq_len := by ring
      omega
  subst hll
  omega

/-- C4, as the code has it. For a configuration with `n_layers > 0` whose
`kv_dim = dim * n_kv_heads / n_heads` is even, every state, every token, every
layer `l` and positions `0 ≤ pos < pos' < seq_len`: a `forward(token, pos')`
call that returns leaves all `kv_dim` elements of the key-cache entry and of
the value-cache entry at `(l, pos)` as they were; and the only cache elements
it changes are those of the entries `(l', pos')` with `0 ≤ l' < n_layers`. -/
theorem forward_cache_untouched (F : Libm α) (p : TransformerConfig) (w : TransformerWeights)
    (m m' : Mem Buf α) (token pos' kv_dim : Int)
    (hkv : cdiv (p.dim * p.n_kv_heads) p.n_heads = some kv_dim) (heven : 2 ∣ kv_dim)
    (hnl : 0 < p.n_layers) (hpos' : 0 ≤ pos') (hlt : pos' < p.seq_len)
    (h : forward F p w m token pos' = some m') :
    (∀ l pos i : Int, 0 ≤ pos → pos < pos' → 0 ≤ i → i < kv_dim →
      load m' ⟨Buf.key_cache, l * p.seq_len * kv_dim + pos * kv_dim + i⟩ =
        load m ⟨Buf.key_cache, l * p.seq_len * kv_dim + pos * kv_dim + i⟩ ∧
      load m' ⟨Buf.value_cache, l * p.seq_len * kv_dim + pos * kv_dim + i⟩ =
        load m ⟨Buf.value_cache, l * p.seq_len * kv_dim + pos * kv_dim + i⟩) ∧
    (∀ q : Ptr Buf, q.buf = Buf.key_cache ∨ q.buf = Buf.value_cache →
      (¬ ∃ l' : Int, 0 ≤ l' ∧ l' < p.n_layers ∧ q ∈ cacheEntry q.buf p.seq_len kv_dim l' pos') →
      load m' q = load m q) := by
  have hF := forward_frame hkv heven hnl.le h
  have hb : ∀ q : Ptr Buf, q.buf = Buf.key_cache ∨ q.buf = Buf.value_cache →
      (¬ ∃ l' : Int, 0 ≤ l' ∧ l' < p.n_layers ∧ q ∈ cacheEntry q.buf p.seq_len kv_dim l' pos') →
      load m' q = load m q := by
    intro q hq hno
    refine hF.2 q (fun hw => ?_)
    rcases hw with hw | ⟨l', h0, h1, hw⟩
    · rcases hq with hq | hq
      · exact hw.2.1 hq
      · exact hw.2.2 hq
    · refine hno ⟨l', h0, h1, ?_⟩
      rcases hw with hw | hw
      · have hbuf : q.buf = Buf.key_cache := hw.1
        rw [hbuf]; exact hw
      · have hbuf : q.buf = Buf.value_cache := hw.1
        rw [hbuf]; exact hw
  refine ⟨fun l pos i hp0 hp1 hi0 hi1 => ⟨?_, ?_⟩, hb⟩
  · refine hb _ (Or.inl rfl) (fun ⟨l', _, _, hw⟩ => ?_)
    exact cacheEntry_disjoint (l := l) hp0 (by omega) hpos' hlt (by omega)
      (show (⟨Buf.key_cache, l * p.seq_len * kv_dim + pos * kv_dim + i⟩ : Ptr Buf) ∈
        cacheEntry Buf.key_cache p.seq_len kv_dim l pos from
          ⟨rfl, by simp only; omega, by simp only; omega⟩) hw
  · refine hb _ (Or.inr rfl) (fun ⟨l', _, _, hw⟩ => ?_)
    exact cacheEntry_disjoint (l := l) hp0 (by omega) hpos' hlt (by omega)
      (show (⟨Buf.value_cache, l * p.seq_len * kv_dim + pos * kv_dim + i⟩ : Ptr Buf) ∈
        cacheEntry Buf.value_cache p.seq_len kv_dim l pos from
          ⟨rfl, by simp only; omega, by simp only; omega⟩) hw

end FrameLemmas

/-! ## The run on `oddKvConfig` -/

section OddKv

theorem runState_update {α : Type} (d x xb xb2 hb hb2 q att lg kc vc v : List α) (b : Buf) :
    Function.update (runState d x xb xb2 hb hb2 q att lg kc vc) b v =
      runState (if b = .data then v else d) (if b = .x then v else x) (if b = .xb then v else xb)
        (if b = .xb2 then v else xb2) (if b = .hb then v else hb) (if b = .hb2 then v else hb2)
        (if b = .q then v else q) (if b = .att then v else att) (if b = .logits then v else lg)
        (if b = .key_cache then v else kc) (if b = .value_cache then v else vc) := by
  funext c
  cases b <;> cases c <;> rfl

variable (F : Libm ℝ)
  (x0 x1 b0 b1 c0 c1 h0 g0 q0 q1 a0 a1 a2 a3 a4 a5 l0 k0 k1 k2 v0 v1 v2 : ℝ)

theorem odd_memcpy :
    memcpy (runState oddKvData [x0, x1] [b0, b1] [c0, c1] [h0] [g0] [q0, q1]
        [a0, a1, a2, a3, a4, a5] [l0] [k0, k1, k2] [v0, v1, v2]) ⟨Buf.x, 0⟩ ⟨Buf.data, 7⟩ 2 =
    some (runState oddKvData [1, 0] [b0, b1] [c0, c1] [h0] [g0] [q0, q1]
        [a0, a1, a2, a3, a4, a5] [l0] [k0, k1, k2] [v0, v1, v2]) := by
  simp [memcpy, forLoop, load, store, Ptr.add, oddKvData,
    runState_update, runState]

theorem odd_rms_att :
    rmsnorm F (runState oddKvData [x0, x1] [b0, b1] [c0, c1] [h0] [g0] [q0, q1]
        [a0, a1, a2, a3, a4, a5] [l0] [k0, k1, k2] [v0, v1, v2]) ⟨Buf.xb, 0⟩ ⟨Buf.x, 0⟩ ⟨Buf.data, 9⟩ 2 =
    some (runState oddKvData [x0, x1] [(1 / F.sqrtf ((x0 * x0 + x1 * x1) / 2 + 1 / 100000)) * x0, 0] [c0, c1] [h0] [g0] [q0, q1]
        [a0, a1, a2, a3, a4, a5] [l0] [k0, k1, k2] [v0, v1, v2]) := by
  simp [rmsnorm, forLoop, load, store, Ptr.add, oddKvData,
    runState_update, runState]

theorem odd_rms_ffn :
    rmsnorm F (runState oddKvData [x0, x1] [b0, b1] [c0, c1] [h0] [g0] [q0, q1]
        [a0, a1, a2, a3, a4, a5] [l0] [k0, k1, k2] [v0, v1, v2]) ⟨Buf.xb, 0⟩ ⟨Buf.x, 0⟩ ⟨Buf.data, 23⟩ 2 =
    some (runState oddKvData [x0, x1] [0, 0] [c0, c1] [h0] [g0] [q0, q1]
        [a0, a1, a2, a3, a4, a5] [l0] [k0, k1, k2] [v0, v1, v2]) := by
  simp [rmsnorm, forLoop, load, store, Ptr.add, oddKvData,
    runState_update, runState]

theorem odd_rms_final :
    rmsnorm F (runState oddKvData [x0, x1] [b0, b1] [c0, c1] [h0] [g0] [q0, q1]
        [a0, a1, a2, a3, a4, a5] [l0] [k0, k1, k2] [v0, v1, v2]) ⟨Buf.x, 0⟩ ⟨Buf.x, 0⟩ ⟨Buf.data, 31⟩ 2 =
    some (runState oddKvData [(1 / F.sqrtf ((x0 * x0 + x1 * x1) / 2 + 1 / 100000)) * x0, 0] [b0, b1] [c0, c1] [h0] [g0] [q0, q1]
        [a0, a1, a2, a3, a4, a5] [l0] [k0, k1, k2] [v0, v1, v2]) := by
  simp [rmsnorm, forLoop, load, store, Ptr.add, oddKvData,
    runState_update, runState]

theorem odd_mm_q :
    matmul (runState oddKvData [x0, x1] [b0, b1] [c0, c1] [h0] [g0] [q0, q1]
        [a0, a1, a2, a3, a4, a5] [l0] [k0, k1, k2] [v0, v1, v2]) ⟨Buf.q, 0⟩ ⟨Buf.xb, 0⟩ ⟨Buf.data, 11⟩ 2 2 =
    some (runState oddKvData [x0, x1] [b0, b1] [c0, c1] [h0] [g0] [b0, 0]
        [a0, a1, a2, a3, a4, a5] [l0] [k0, k1, k2] [v0, v1, v2]) := by
  simp [matmul, forLoop, load, store, Ptr.add, oddKvData,
    runState_update, runState]

theorem odd_mm_k :
    matmul (runState oddKvData [x0, x1] [b0, b1] [c0, c1] [h0] [g0] [q0, q1]
        [a0, a1, a2, a3, a4, a5] [l0] [k0, k1, k2] [v0, v1, v2]) ⟨Buf.key_cache, 1⟩ ⟨Buf.xb, 0⟩ ⟨Buf.data, 15⟩ 2 1 =
    some (runState oddKvData [x0, x1] [b0, b1] [c0, c1] [h0] [g0] [q0, q1]
        [a0, a1, a2, a3, a4, a5] [l0] [k0, 0, k2] [v0, v1, v2]) := by
  simp [matmul, forLoop, load, store, Ptr.add, oddKvData,
    runState_update, runState]

theorem odd_mm_v :
    matmul (runState oddKvData [x0, x1] [b0, b1] [c0, c1] [h0] [g0] [q0, q1]
        [a0, a1, a2, a3, a4, a5] [l0] [k0, k1, k2] [v0, v1, v2]) ⟨Buf.value_cache, 1⟩ ⟨Buf.xb, 0⟩ ⟨Buf.data, 17⟩ 2 1 =
    some (runState oddKvData [x0, x1] [b0, b1] [c0, c1] [h0] [g0] [q0, q1]
        [a0, a1, a2, a3, a4, a5] [l0] [k0, k1, k2] [v0, b0, v2]) := by
  simp [matmul, forLoop, load, store, Ptr.add, oddKvData,
    runState_update, runState]

theorem odd_mm_o :
    matmul (runState oddKvData [x0, x1] [b0, b1] [c0, c1] [h0] [g0] [q0, q1]
        [a0, a1, a2, a3, a4, a5] [l0] [k0, k1, k2] [v0, v1, v2]) ⟨Buf.xb2, 0⟩ ⟨Buf.xb, 0⟩ ⟨Buf.data, 19⟩ 2 2 =
    some (runState oddKvData [x0, x1] [b0, b1] [0, b0] [h0] [g0] [q0, q1]
        [a0, a1, a2, a3, a4, a5] [l0] [k0, k1, k2] [v0, v1, v2]) := by
  simp [matmul, forLoop, load, store, Ptr.add, oddKvData,
    runState_update, runState]

theorem odd_mm_w1 :
    matmul (runState oddKvData [x0, x1] [b0, b1] [c0, c1] [h0] [g0] [q0, q1]
        [a0, a1, a2, a3, a4, a5] [l0] [k0, k1, k2] [v0, v1, v2]) ⟨Buf.hb, 0⟩ ⟨Buf.xb, 0⟩ ⟨Buf.data, 25⟩ 2 1 =
    some (runState oddKvData [x0, x1] [b0, b1] [c0, c1] [0] [g0] [q0, q1]
        [a0, a1, a2, a3, a4, a5] [l0] [k0, k1, k2] [v0, v1, v2]) := by
  simp [matmul, forLoop, load, store, Ptr.add, oddKvData,
    runState_update, runState]

theorem odd_mm_w3 :
    matmul (runState oddKvData [x0, x1] [b0, b1] [c0, c1] [h0] [g0] [q0, q1]
        [a0, a1, a2, a3, a4, a5] [l0] [k0, k1, k2] [v0, v1, v2]) ⟨Buf.hb2, 0⟩ ⟨Buf.xb, 0⟩ ⟨Buf.data, 29⟩ 2 1 =
    some (runState oddKvData [x0, x1] [b0, b1] [c0, c1] [h0] [0] [q0, q1]
        [a0, a1, a2, a3, a4, a5] [l0] [k0, k1, k2] [v0, v1, v2]) := by
  simp [matmul, forLoop, load, store, Ptr.add, oddKvData,
    runState_update, runState]

theorem odd_mm_w2 :
    matmul (runState oddKvData [x0, x1] [b0, b1] [c0, c1] [h0] [g0] [q0, q1]
        [a0, a1, a2, a3, a4, a5] [l0] [k0, k1, k2] [v0, v1, v2]) ⟨Buf.xb, 0⟩ ⟨Buf.hb, 0⟩ ⟨Buf.data, 27⟩ 1 2 =
    some (runState oddKvData [x0, x1] [0, 0] [c0, c1] [h0] [g0] [q0, q1]
        [a0, a1, a2, a3, a4, a5] [l0] [k0, k1, k2] [v0, v1, v2]) := by
  simp [matmul, forLoop, load, store, Ptr.add, oddKvData,
    runState_update, runState]

theorem odd_mm_logits :
    matmul (runState oddKvData [x0, x1] [b0, b1] [c0, c1] [h0] [g0] [q0, q1]
        [a0, a1, a2, a3, a4, a5] [l0] [k0, k1, k2] [v0, v1, v2]) ⟨Buf.logits, 0⟩ ⟨Buf.x, 0⟩ ⟨Buf.data, 7⟩ 2 1 =
    some (runState oddKvData [x0, x1] [b0, b1] [c0, c1] [h0] [g0] [q0, q1]
        [a0, a1, a2, a3, a4, a5] [x0] [k0, k1, k2] [v0, v1, v2]) := by
  simp [matmul, forLoop, load, store, Ptr.add, oddKvData,
    runState_update, runState]

theorem odd_residual_xb2 :
    residual (runState oddKvData [x0, x1] [b0, b1] [c0, c1] [h0] [g0] [q0, q1]
        [a0, a1, a2, a3, a4, a5] [l0] [k0, k1, k2] [v0, v1, v2]) ⟨Buf.x, 0⟩ ⟨Buf.xb2, 0⟩ 2 =
    some (runState oddKvData [x0 + c0, x1 + c1] [b0, b1] [c0, c1] [h0] [g0] [q0, q1]
        [a0, a1, a2, a3, a4, a5] [l0] [k0, k1, k2] [v0, v1, v2]) := by
  simp [residual, forLoop, load, store, Ptr.add, oddKvData,
    runState_update, runState]

theorem odd_residual_xb :
    residual (runState oddKvData [x0, x1] [b0, b1] [c0, c1] [h0] [g0] [q0, q1]
        [a0, a1, a2, a3, a4, a5] [l0] [k0, k1, k2] [v0, v1, v2]) ⟨Buf.x, 0⟩ ⟨Buf.xb, 0⟩ 2 =
    some (runState oddKvData [x0 + b0, x1 + b1] [b0, b1] [c0, c1] [h0] [g0] [q0, q1]
        [a0, a1, a2, a3, a4, a5] [l0] [k0, k1, k2] [v0, v1, v2]) := by
  simp [residual, forLoop, load, store, Ptr.add, oddKvData,
    runState_update, runState]

theorem odd_swiglu :
    swiglu F (runState oddKvData [x0, x1] [b0, b1] [c0, c1] [h0] [g0] [q0, q1]
        [a0, a1, a2, a3, a4, a5] [l0] [k0, k1, k2] [v0, v1, v2]) ⟨Buf.hb, 0⟩ ⟨Buf.hb2, 0⟩ 1 =
    some (runState oddKvData [x0, x1] [b0, b1] [c0, c1] [h0 * (1 / (1 + F.expf (-h0))) * g0] [g0] [q0, q1]
        [a0, a1, a2, a3, a4, a5] [l0] [k0, k1, k2] [v0, v1, v2]) := by
  simp [swiglu, forLoop, load, store, Ptr.add, oddKvData,
    runState_update, runState]

theorem odd_rope :
    rope F (runState oddKvData [x0, x1] [b0, b1] [c0, c1] [h0] [g0] [q0, q1]
        [a0, a1, a2, a3, a4, a5] [l0] [k0, k1, k2] [v0, v1, v2]) ⟨Buf.q, 0⟩ ⟨Buf.key_cache, 1⟩ 1 2 1 1 =
    some (runState oddKvData [x0, x1] [b0, b1] [c0, c1] [h0] [g0] [q0 * F.cosf (1 / F.powf 10000 0) - q1 * F.sinf (1 / F.powf 10000 0),
         q0 * F.sinf (1 / F.powf 10000 0) + q1 * F.cosf (1 / F.powf 10000 0)]
        [a0, a1, a2, a3, a4, a5] [l0] [k0, k1 * F.cosf (1 / F.powf 10000 0) - k2 * F.sinf (1 / F.powf 10000 0),
          k1 * F.sinf (1 / F.powf 10000 0) + k2 * F.cosf (1 / F.powf 10000 0)] [v0, v1, v2]) := by
  simp [rope, cmod, forLoop, load, store, Ptr.add, oddKvData,
    runState_update, runState]

theorem odd_head0 :
    attention_head F oddKvConfig (runState oddKvData [x0, x1] [b0, b1] [c0, c1] [h0] [g0] [q0, q1]
        [a0, a1, a2, a3, a4, a5] [l0] [k0, k1, k2] [v0, v1, v2]) 0 0 1 1 2 1 =
    some (runState oddKvData [x0, x1] [F.expf ((q0 * k0 / F.sqrtf 1) - (if (q0 * k0 / F.sqrtf 1) < (q0 * k1 / F.sqrtf 1) then (q0 * k1 / F.sqrtf 1) else (q0 * k0 / F.sqrtf 1))) /
          (F.expf ((q0 * k0 / F.sqrtf 1) - (if (q0 * k0 / F.sqrtf 1) < (q0 * k1 / F.sqrtf 1) then (q0 * k1 / F.sqrtf 1) else (q0 * k0 / F.sqrtf 1))) +
            F.expf ((q0 * k1 / F.sqrtf 1) - (if (q0 * k0 / F.sqrtf 1) < (q0 * k1 / F.sqrtf 1) then (q0 * k1 / F.sqrtf 1) else (q0 * k0 / F.sqrtf 1)))) * v0 +
          F.expf ((q0 * k1 / F.sqrtf 1) - (if (q0 * k0 / F.sqrtf 1) < (q0 * k1 / F.sqrtf 1) then (q0 * k1 / F.sqrtf 1) else (q0 * k0 / F.sqrtf 1))) /
          (F.expf ((q0 * k0 / F.sqrtf 1) - (if (q0 * k0 / F.sqrtf 1) < (q0 * k1 / F.sqrtf 1) then (q0 * k1 / F.sqrtf 1) else (q0 * k0 / F.sqrtf 1))) +
            F.expf ((q0 * k1 / F.sqrtf 1) - (if (q0 * k0 / F.sqrtf 1) < (q0 * k1 / F.sqrtf 1) then (q0 * k1 / F.sqrtf 1) else (q0 * k0 / F.sqrtf 1)))) * v1, b1] [c0, c1] [h0] [g0] [q0, q1]
        [F.expf ((q0 * k0 / F.sqrtf 1) - (if (q0 * k0 / F.sqrtf 1) < (q0 * k1 / F.sqrtf 1) then (q0 * k1 / F.sqrtf 1) else (q0 * k0 / F.sqrtf 1))) /
          (F.expf ((q0 * k0 / F.sqrtf 1) - (if (q0 * k0 / F.sqrtf 1) < (q0 * k1 / F.sqrtf 1) then (q0 * k1 / F.sqrtf 1) else (q0 * k0 / F.sqrtf 1))) +
            F.expf ((q0 * k1 / F.sqrtf 1) - (if (q0 * k0 / F.sqrtf 1) < (q0 * k1 / F.sqrtf 1) then (q0 * k1 / F.sqrtf 1) else (q0 * k0 / F.sqrtf 1)))),
          F.expf ((q0 * k1 / F.sqrtf 1) - (if (q0 * k0 / F.sqrtf 1) < (q0 * k1 / F.sqrtf 1) then (q0 * k1 / F.sqrtf 1) else (q0 * k0 / F.sqrtf 1))) /
          (F.expf ((q0 * k0 / F.sqrtf 1) - (if (q0 * k0 / F.sqrtf 1) < (q0 * k1 / F.sqrtf 1) then (q0 * k1 / F.sqrtf 1) else (q0 * k0 / F.sqrtf 1))) +
            F.expf ((q0 * k1 / F.sqrtf 1) - (if (q0 * k0 / F.sqrtf 1) < (q0 * k1 / F.sqrtf 1) then (q0 * k1 / F.sqrtf 1) else (q0 * k0 / F.sqrtf 1)))), a2, a3, a4, a5] [l0] [k0, k1, k2] [v0, v1, v2]) := by
  simp [attention_head, softmax, memset0, cdiv, oddKvConfig, forLoop, load, store, Ptr.add, oddKvData,
    runState_update, runState]

theorem odd_head1 :
    attention_head F oddKvConfig (runState oddKvData [x0, x1] [b0, b1] [c0, c1] [h0] [g0] [q0, q1]
        [a0, a1, a2, a3, a4, a5] [l0] [k0, k1, k2] [v0, v1, v2]) 1 0 1 1 2 1 =
    some (runState oddKvData [x0, x1] [b0, F.expf ((q1 * k0 / F.sqrtf 1) - (if (q1 * k0 / F.sqrtf 1) < (q1 * k1 / F.sqrtf 1) then (q1 * k1 / F.sqrtf 1) else (q1 * k0 / F.sqrtf 1))) /
          (F.expf ((q1 * k0 / F.sqrtf 1) - (if (q1 * k0 / F.sqrtf 1) < (q1 * k1 / F.sqrtf 1) then (q1 * k1 / F.sqrtf 1) else (q1 * k0 / F.sqrtf 1))) +
            F.expf ((q1 * k1 / F.sqrtf 1) - (if (q1 * k0 / F.sqrtf 1) < (q1 * k1 / F.sqrtf 1) then (q1 * k1 / F.sqrtf 1) else (q1 * k0 / F.sqrtf 1)))) * v0 +
          F.expf ((q1 * k1 / F.sqrtf 1) - (if (q1 * k0 / F.sqrtf 1) < (q1 * k1 / F.sqrtf 1) then (q1 * k1 / F.sqrtf 1) else (q1 * k0 / F.sqrtf 1))) /
          (F.expf ((q1 * k0 / F.sqrtf 1) - (if (q1 * k0 / F.sqrtf 1) < (q1 * k1 / F.sqrtf 1) then (q1 * k1 / F.sqrtf 1) else (q1 * k0 / F.sqrtf 1))) +
            F.expf ((q1 * k1 / F.sqrtf 1) - (if (q1 * k0 / F.sqrtf 1) < (q1 * k1 / F.sqrtf 1) then (q1 * k1 / F.sqrtf 1) else (q1 * k0 / F.sqrtf 1)))) * v1] [c0, c1] [h0] [g0] [q0, q1]
        [a0, a1, a2, F.expf ((q1 * k0 / F.sqrtf 1) - (if (q1 * k0 / F.sqrtf 1) < (q1 * k1 / F.sqrtf 1) then (q1 * k1 / F.sqrtf 1) else (q1 * k0 / F.sqrtf 1))) /
          (F.expf ((q1 * k0 / F.sqrtf 1) - (if (q1 * k0 / F.sqrtf 1) < (q1 * k1 / F.sqrtf 1) then (q1 * k1 / F.sqrtf 1) else (q1 * k0 / F.sqrtf 1))) +
            F.expf ((q1 * k1 / F.sqrtf 1) - (if (q1 * k0 / F.sqrtf 1) < (q1 * k1 / F.sqrtf 1) then (q1 * k1 / F.sqrtf 1) else (q1 * k0 / F.sqrtf 1)))),
          F.expf ((q1 * k1 / F.sqrtf 1) - (if (q1 * k0 / F.sqrtf 1) < (q1 * k1 / F.sqrtf 1) then (q1 * k1 / F.sqrtf 1) else (q1 * k0 / F.sqrtf 1))) /
          (F.expf ((q1 * k0 / F.sqrtf 1) - (if (q1 * k0 / F.sqrtf 1) < (q1 * k1 / F.sqrtf 1) then (q1 * k1 / F.sqrtf 1) else (q1 * k0 / F.sqrtf 1))) +
            F.expf ((q1 * k1 / F.sqrtf 1) - (if (q1 * k0 / F.sqrtf 1) < (q1 * k1 / F.sqrtf 1) then (q1 * k1 / F.sqrtf 1) else (q1 * k0 / F.sqrtf 1)))), a5] [l0] [k0, k1, k2] [v0, v1, v2]) := by
  simp [attention_head, softmax, memset0, cdiv, oddKvConfig,
    (by decide : Int.tdiv 1 2 = 0), forLoop, load, store, Ptr.add, oddKvData,
    runState_update, runState]

/-- The `forward(0, 1)` call on `oddKvConfig` from `oddKvMem c` returns; the
logit is `oddLogit F c`, and the key cache then holds 0 at position 0, the
rotated key at position 1 and, at position 2, `c * cos(angle)`. -/
theorem odd_forward (c : ℝ) :
    ∃ m', forward F oddKvConfig oddKvWeights (oddKvMem c) 0 1 = some m' ∧
      m' Buf.logits = [oddLogit F c] ∧
      m' Buf.key_cache = [0, -(c * F.sinf (oddAngle F)), c * F.cosf (oddAngle F)] := by
  refine ⟨?m, ?h1, ?h2, ?h3⟩
  case h1 =>
    have e0 := odd_head0 F
    have e1 := odd_head1 F
    simp only [oddKvConfig] at e0 e1
    simp [forward, cdiv, wrapULL, oddKvConfig, oddKvWeights, forLoop, oddKvMem, layer]
    rw [odd_memcpy, Option.some_bind, odd_rms_att, Option.some_bind, odd_mm_q, Option.some_bind,
      odd_mm_k, Option.some_bind, odd_mm_v, Option.some_bind, odd_rope, Option.some_bind,
      e0, Option.some_bind, e1, Option.some_bind,
      odd_mm_o, Option.some_bind, odd_residual_xb2, Option.some_bind,
      odd_rms_ffn, Option.some_bind, odd_mm_w1, Option.some_bind, odd_mm_w3, Option.some_bind,
      odd_swiglu, Option.some_bind, odd_mm_w2, Option.some_bind, odd_residual_xb,
      Option.some_bind, odd_rms_final, Option.some_bind, odd_mm_logits]
    exact rfl
  case h2 =>
    simp [runState, oddLogit, oddAtt, oddScore, oddXb, oddAngle]
  case h3 =>
    simp [runState, oddAngle]

/-- C4 as stated fails: `oddKvConfig` has positive fields, `n_heads` divides
`dim` and `dim * n_kv_heads`, and `kv_dim = 1`; the call `forward(0, 1)` from
`oddKvMem 1` returns and changes the key-cache element at index 2, which is
the entry of position 2 and belongs to no entry `(l', 1)`: the rotation of the
pair `(k[0], k[1])` writes one element past the entry of position 1. -/
theorem forward_cache_untouched_counterexample :
    cdiv (oddKvConfig.dim * oddKvConfig.n_kv_heads) oddKvConfig.n_heads = some 1 ∧
    (¬ ∃ l' : Int, 0 ≤ l' ∧ l' < oddKvConfig.n_layers ∧
      (⟨Buf.key_cache, 2⟩ : Ptr Buf) ∈ cacheEntry Buf.key_cache oddKvConfig.seq_len 1 l' 1) ∧
    ∃ m', forward (⟨Real.sqrt, Real.exp, fun a b => a ^ b, Real.cos, Real.sin⟩ : Libm ℝ)
        oddKvConfig oddKvWeights (oddKvMem 1) 0 1 = some m' ∧
      load m' ⟨Buf.key_cache, 2⟩ ≠ load (oddKvMem 1) ⟨Buf.key_cache, 2⟩ := by
  refine ⟨by decide, ?_, ?_⟩
  · rintro ⟨l', h0, h1, -, h2, h3⟩
    simp only [oddKvConfig] at h1 h2 h3
    omega
  · obtain ⟨m', h1, -, h3⟩ := odd_forward
      (⟨Real.sqrt, Real.exp, fun a b => a ^ b, Real.cos, Real.sin⟩ : Libm ℝ) 1
    refine ⟨m', h1, ?_⟩
    have hl : load m' ⟨Buf.key_cache, 2⟩ = some (Real.cos 1) := by
      simp [load, h3, oddAngle]
    have hr : load (oddKvMem 1) ⟨Buf.key_cache, 2⟩ = some 1 := by
      simp [load, oddKvMem, runState]
    rw [hl, hr]
    intro h
    have := Real.cos_one_le
    rw [Option.some.inj h] at this
    norm_num at this

end OddKv

/-! ## Weight layout and header decoding -/

theorem cdiv_of_ne (a : Int) {b : Int} (h : b ≠ 0) : cdiv a b = some (Int.tdiv a b) := by
  simp [cdiv, h]

/-- C6. Over the unbounded integers and for a configuration with
`n_heads ≠ 0`, `head_size = dim / n_heads`, `memory_map_weights` returns the
views in the order token_embedding_table, rms_att_weight, wq, wk, wv, wo,
rms_ffn_weight, w1, w2, w3, rms_final_weight; the first starts at the pointer
passed in (offset 0 of the region after the header), every other one starts
where the previous one ends, the extents being `vocab*dim`, `layers*dim`,
`layers*dim*(n_heads*head_size)`, `layers*dim*(n_kv_heads*head_size)` twice,
`layers*(n_heads*head_size)*dim`, `layers*dim`, `layers*dim*hidden_dim` three
times; the final norm weight has the `dim` elements that follow. -/
theorem memory_map_weights_layout (p : TransformerConfig) (ptr shared : Int)
    (hn : p.n_heads ≠ 0) :
    ∃ w, memory_map_weights Arith.exact p ptr shared = some w ∧
      w.token_embedding_table = ptr ∧
      w.rms_att_weight = w.token_embedding_table + p.vocab_size * p.dim ∧
      w.wq = w.rms_att_weight + p.n_layers * p.dim ∧
      w.wk = w.wq + p.n_layers * p.dim * (p.n_heads * Int.tdiv p.dim p.n_heads) ∧
      w.wv = w.wk + p.n_layers * p.dim * (p.n_kv_heads * Int.tdiv p.dim p.n_heads) ∧
      w.wo = w.wv + p.n_layers * p.dim * (p.n_kv_heads * Int.tdiv p.dim p.n_heads) ∧
      w.rms_ffn_weight = w.wo + p.n_layers * (p.n_heads * Int.tdiv p.dim p.n_heads) * p.dim ∧
      w.w1 = w.rms_ffn_weight + p.n_layers * p.dim ∧
      w.w2 = w.w1 + p.n_layers * p.dim * p.hidden_dim ∧
      w.w3 = w.w2 + p.n_layers * p.dim * p.hidden_dim ∧
      w.rms_final_weight = w.w3 + p.n_layers * p.dim * p.hidden_dim := by
  refine ⟨_, by simp only [memory_map_weights, cdiv_of_ne _ hn, Option.bind_eq_bind,
    Option.some_bind, Option.pure_def]; rfl, ?_⟩
  refine ⟨rfl, rfl, rfl, rfl, rfl, rfl, rfl, rfl, rfl, ?_, rfl⟩
  simp only [Arith.exact, id]
  ring

theorem memory_map_weights_layout_witness :
    ∃ w, memory_map_weights Arith.exact tinyConfig 7 1 = some w ∧
      w.token_embedding_table = 7 ∧
      w.rms_att_weight = w.token_embedding_table + tinyConfig.vocab_size * tinyConfig.dim ∧
      w.wq = w.rms_att_weight + tinyConfig.n_layers * tinyConfig.dim ∧
      w.wk = w.wq + tinyConfig.n_layers * tinyConfig.dim *
        (tinyConfig.n_heads * Int.tdiv tinyConfig.dim tinyConfig.n_heads) ∧
      w.wv = w.wk + tinyConfig.n_layers * tinyConfig.dim *
        (tinyConfig.n_kv_heads * Int.tdiv tinyConfig.dim tinyConfig.n_heads) ∧
      w.wo = w.wv + tinyConfig.n_layers * tinyConfig.dim *
        (tinyConfig.n_kv_heads * Int.tdiv tinyConfig.dim tinyConfig.n_heads) ∧
      w.rms_ffn_weight = w.wo + tinyConfig.n_layers *
        (tinyConfig.n_heads * Int.tdiv tinyConfig.dim tinyConfig.n_heads) * tinyConfig.dim ∧
      w.w1 = w.rms_ffn_weight + tinyConfig.n_layers * tinyConfig.dim ∧
      w.w2 = w.w1 + tinyConfig.n_layers * tinyConfig.dim * tinyConfig.hidden_dim ∧
      w.w3 = w.w2 + tinyConfig.n_layers * tinyConfig.dim * tinyConfig.hidden_dim ∧
      w.rms_final_weight = w.w3 + tinyConfig.n_layers * tinyConfig.dim * tinyConfig.hidden_dim :=
  memory_map_weights_layout tinyConfig 7 1 (by decide)

/-- C8, as the code has it. For a header whose vocabulary field `v` has a
representable absolute value (and whose `n_heads` is not zero, so that the
layout is defined), `read_checkpoint` stores `vocab_size = |v|` and treats the
classifier weights as shared exactly when `v > 0`, as not shared exactly when
`v ≤ 0`; the views are those of `memory_map_weights` for that flag. -/
theorem read_checkpoint_vocab (A : Arith) (config : TransformerConfig)
    (hv : config.vocab_size ≠ -2 ^ 31) (hn : config.n_heads ≠ 0) :
    ∃ c s w, read_checkpoint A config = some (c, s, w) ∧
      c = { config with vocab_size := |config.vocab_size| } ∧
      (s ≠ 0 ↔ 0 < config.vocab_size) ∧ (s = 0 ↔ config.vocab_size ≤ 0) ∧
      memory_map_weights A c headerFloats s = some w ∧
      (0 < config.vocab_size → w.wcls = w.token_embedding_table) := by
  have hn' : ({ config with vocab_size := |config.vocab_size| } : TransformerConfig).n_heads ≠ 0 :=
    hn
  obtain ⟨w, hw⟩ : ∃ w, memory_map_weights A { config with vocab_size := |config.vocab_size| }
      headerFloats (if config.vocab_size > 0 then 1 else 0) = some w :=
    ⟨_, by simp only [memory_map_weights, cdiv_of_ne _ hn', Option.bind_eq_bind,
      Option.some_bind, Option.pure_def]; rfl⟩
  refine ⟨_, if config.vocab_size > 0 then 1 else 0, w, ?_, rfl, ?_, ?_, hw, ?_⟩
  · simp only [read_checkpoint, cabs, hv, if_false, Option.bind_eq_bind, Option.some_bind,
      Option.pure_def, hw]
  · by_cases h : config.vocab_size > 0 <;> simp [h]
  · by_cases h : config.vocab_size > 0 <;> simp [h]; omega
  · intro h
    simp only [memory_map_weights, cdiv_of_ne _ hn', Option.bind_eq_bind, Option.some_bind,
      Option.pure_def, gt_iff_lt, h, if_true] at hw
    cases hw
    simp

theorem read_checkpoint_vocab_witness :
    ∃ c s w, read_checkpoint Arith.machine (tinyHeader (-5)) = some (c, s, w) ∧
      c = { tinyHeader (-5) with vocab_size := |(tinyHeader (-5)).vocab_size| } ∧
      (s ≠ 0 ↔ 0 < (tinyHeader (-5)).vocab_size) ∧ (s = 0 ↔ (tinyHeader (-5)).vocab_size ≤ 0) ∧
      memory_map_weights Arith.machine c headerFloats s = some w ∧
      (0 < (tinyHeader (-5)).vocab_size → w.wcls = w.token_embedding_table) :=
  read_checkpoint_vocab Arith.machine (tinyHeader (-5)) (by decide) (by decide)

/-- C8 as stated fails at `v = 0`: the field is not negative, and
`read_checkpoint` treats the classifier weights as not shared (the flag is 0
and `wcls` is not the token-embedding view). -/
theorem read_checkpoint_vocab_counterexample :
    ¬ (tinyHeader 0).vocab_size < 0 ∧
      ∃ c w, read_checkpoint Arith.machine (tinyHeader 0) = some (c, 0, w) ∧
        c.vocab_size = 0 ∧ w.wcls ≠ w.token_embedding_table := by
  refine ⟨by decide, _, _, rfl, ?_, ?_⟩ <;> decide

/-- C14 fails on the code, which means to do these products in 64 bits
(comment at transformer.hpp line 72) but multiplies `vocab_size * dim` as two
`int`s: for `vocab_size = 65536`, `dim = 32768` (all fields non-negative, all
counts far below `2^64`) the exact element count of the embedding table is
`2^31`, and the increment the machine arithmetic computes is `-2^31`, so every
later view is displaced. -/
theorem memory_map_weights_overflow :
    bigVocabConfig.vocab_size * bigVocabConfig.dim = 2 ^ 31 ∧
    ∃ w, memory_map_weights Arith.machine bigVocabConfig headerFloats 1 = some w ∧
      w.rms_att_weight - w.token_embedding_table = -2 ^ 31 ∧
      ∃ w', memory_map_weights Arith.exact bigVocabConfig headerFloats 1 = some w' ∧
        w'.rms_att_weight - w'.token_embedding_table = 2 ^ 31 ∧ w.wq ≠ w'.wq := by
  refine ⟨by decide, _, rfl, by decide, _, rfl, by decide, by decide⟩

/-- A value in the range of `int` is stored unchanged. -/
theorem wrapInt_of_fits {x : Int} (h0 : -2 ^ 31 ≤ x) (h1 : x < 2 ^ 31) : wrapInt x = x := by
  unfold wrapInt
  omega

/-- C15, as the code has it, on the machine arithmetic. For a configuration
with positive fields whose products `dim * n_kv_heads`, `n_layers * seq_len`,
`n_layers * seq_len * kv_dim` and `n_heads * seq_len` fit an `int` (are below
`2^31`), `malloc_run_state` (when the allocations succeed) returns buffers that
are all zero and have the lengths `x`, `xb`, `xb2`, `q` = `dim`; `hb`,
`hb2` = `hidden_dim`; `att` = `n_heads * seq_len`; `logits` = `vocab_size`;
`key_cache`, `value_cache` = `n_layers * seq_len * kv_dim` with
`kv_dim = dim * n_kv_heads / n_heads`; the mapped checkpoint is left alone. -/
theorem malloc_run_state_zeroed {α : Type} [Zero α] (p : TransformerConfig) (data : List α)
    (hdim : 0 < p.dim) (hhid : 0 < p.hidden_dim) (hlay : 0 < p.n_layers) (hnh : 0 < p.n_heads)
    (hkv : 0 < p.n_kv_heads) (hvoc : 0 < p.vocab_size) (hseq : 0 < p.seq_len)
    (hfk : p.dim * p.n_kv_heads < 2 ^ 31) (hfl : p.n_layers * p.seq_len < 2 ^ 31)
    (hfc : p.n_layers * p.seq_len * Int.tdiv (p.dim * p.n_kv_heads) p.n_heads < 2 ^ 31)
    (hfa : p.n_heads * p.seq_len < 2 ^ 31) :
    ∃ m, malloc_run_state Arith.machine p data = some m ∧ m Buf.data = data ∧
      (∀ b, b ≠ Buf.data → ∀ v, v ∈ m b → v = 0) ∧
      ((m Buf.x).length : Int) = p.dim ∧ ((m Buf.xb).length : Int) = p.dim ∧
      ((m Buf.xb2).length : Int) = p.dim ∧ ((m Buf.q).length : Int) = p.dim ∧
      ((m Buf.hb).length : Int) = p.hidden_dim ∧ ((m Buf.hb2).length : Int) = p.hidden_dim ∧
      ((m Buf.att).length : Int) = p.n_heads * p.seq_len ∧
      ((m Buf.logits).length : Int) = p.vocab_size ∧
      ((m Buf.key_cache).length : Int) =
        p.n_layers * p.seq_len * Int.tdiv (p.dim * p.n_kv_heads) p.n_heads ∧
      ((m Buf.value_cache).length : Int) =
        p.n_layers * p.seq_len * Int.tdiv (p.dim * p.n_kv_heads) p.n_heads := by
  have hkd : 0 ≤ Int.tdiv (p.dim * p.n_kv_heads) p.n_heads :=
    Int.tdiv_nonneg (by positivity) hnh.le
  have hc : 0 ≤ p.n_layers * p.seq_len * Int.tdiv (p.dim * p.n_kv_heads) p.n_heads := by
    positivity
  have ha : 0 ≤ p.n_heads * p.seq_len := by positivity
  have hk0 : 0 ≤ p.dim * p.n_kv_heads := by positivity
  have hl0 : 0 ≤ p.n_layers * p.seq_len := by positivity
  have ek : wrapInt (p.dim * p.n_kv_heads) = p.dim * p.n_kv_heads :=
    wrapInt_of_fits (by omega) hfk
  have el : wrapInt (p.n_layers * p.seq_len) = p.n_layers * p.seq_len :=
    wrapInt_of_fits (by omega) hfl
  have ec : wrapInt (p.n_layers * p.seq_len * Int.tdiv (p.dim * p.n_kv_heads) p.n_heads) =
      p.n_layers * p.seq_len * Int.tdiv (p.dim * p.n_kv_heads) p.n_heads :=
    wrapInt_of_fits (by omega) hfc
  have ea : wrapInt (p.n_heads * p.seq_len) = p.n_heads * p.seq_len :=
    wrapInt_of_fits (by omega) hfa
  refine ⟨runState data (List.replicate p.dim.toNat 0) (List.replicate p.dim.toNat 0)
    (List.replicate p.dim.toNat 0) (List.replicate p.hidden_dim.toNat 0)
    (List.replicate p.hidden_dim.toNat 0) (List.replicate p.dim.toNat 0)
    (List.replicate (p.n_heads * p.seq_len).toNat 0) (List.replicate p.vocab_size.toNat 0)
    (List.replicate (p.n_layers * p.seq_len *
      Int.tdiv (p.dim * p.n_kv_heads) p.n_heads).toNat 0)
    (List.replicate (p.n_layers * p.seq_len *
      Int.tdiv (p.dim * p.n_kv_heads) p.n_heads).toNat 0), ?_, rfl, ?_, ?_⟩
  · simp only [malloc_run_state, Arith.machine, ek, el, ec, ea, cdiv_of_ne _ hnh.ne', calloc,
      hdim.le, hhid.le, hvoc.le, hc, ha, if_true, Option.bind_eq_bind, Option.some_bind,
      Option.pure_def]
    rfl
  · intro b hb v hv
    cases b <;> first | exact absurd rfl hb | exact (List.mem_replicate.mp hv).2
  · simp only [runState, List.length_replicate]
    refine ⟨?_, ?_, ?_, ?_, ?_, ?_, ?_, ?_, ?_, ?_⟩ <;> omega

theorem malloc_run_state_zeroed_witness :
    ∃ m, malloc_run_state Arith.machine tinyConfig ([] : List ℚ) = some m ∧ m Buf.data = [] ∧
      (∀ b, b ≠ Buf.data → ∀ v, v ∈ m b → v = 0) ∧
      ((m Buf.x).length : Int) = tinyConfig.dim ∧ ((m Buf.xb).length : Int) = tinyConfig.dim ∧
      ((m Buf.xb2).length : Int) = tinyConfig.dim ∧ ((m Buf.q).length : Int) = tinyConfig.dim ∧
      ((m Buf.hb).length : Int) = tinyConfig.hidden_dim ∧
      ((m Buf.hb2).length : Int) = tinyConfig.hidden_dim ∧
      ((m Buf.att).length : Int) = tinyConfig.n_heads * tinyConfig.seq_len ∧
      ((m Buf.logits).length : Int) = tinyConfig.vocab_size ∧
      ((m Buf.key_cache).length : Int) = tinyConfig.n_layers * tinyConfig.seq_len *
        Int.tdiv (tinyConfig.dim * tinyConfig.n_kv_heads) tinyConfig.n_heads ∧
      ((m Buf.value_cache).length : Int) = tinyConfig.n_layers * tinyConfig.seq_len *
        Int.tdiv (tinyConfig.dim * tinyConfig.n_kv_heads) tinyConfig.n_heads :=
  malloc_run_state_zeroed tinyConfig [] (by decide) (by decide) (by decide) (by decide)
    (by decide) (by decide) (by decide) (by decide) (by decide) (by decide) (by decide)

/-- C15 as stated fails on the machine arithmetic: `longCacheConfig` has
positive fields, `kv_dim = 1` and caches of `n_layers * seq_len * kv_dim = 2^32`
elements by the claim; the `int` product `65536 * 65536` wraps to 0, every
allocation succeeds, and both caches have no element at all. -/
theorem malloc_run_state_zeroed_counterexample :
    (0 < longCacheConfig.dim ∧ 0 < longCacheConfig.hidden_dim ∧ 0 < longCacheConfig.n_layers ∧
      0 < longCacheConfig.n_heads ∧ 0 < longCacheConfig.n_kv_heads ∧
      0 < longCacheConfig.vocab_size ∧ 0 < longCacheConfig.seq_len) ∧
    longCacheConfig.n_layers * longCacheConfig.seq_len *
      Int.tdiv (longCacheConfig.dim * longCacheConfig.n_kv_heads) longCacheConfig.n_heads =
        2 ^ 32 ∧
    ∃ m, malloc_run_state Arith.machine longCacheConfig ([] : List ℚ) = some m ∧
      m Buf.key_cache = [] ∧ m Buf.value_cache = [] ∧
      ((m Buf.key_cache).length : Int) ≠ longCacheConfig.n_layers * longCacheConfig.seq_len *
        Int.tdiv (longCacheConfig.dim * longCacheConfig.n_kv_heads) longCacheConfig.n_heads := by
  refine ⟨by decide, by decide, _, rfl, ?_, ?_, ?_⟩ <;> decide

/-! ## Head grouping and the per-layer strides of `forward` -/

/-- The integers `forward` derives from a configuration with positive fields in
which `n_heads` divides `dim` and `n_kv_heads` divides `n_heads`. -/
theorem config_shape (p : TransformerConfig) (hdim : 0 < p.dim) (hnh : 0 < p.n_heads)
    (hkv : 0 < p.n_kv_heads) (hd : p.n_heads ∣ p.dim) (hg : p.n_kv_heads ∣ p.n_heads) :
    ∃ head_size kv_mul : Int, 0 < head_size ∧ 0 < kv_mul ∧ p.dim = p.n_heads * head_size ∧
      p.n_heads = p.n_kv_heads * kv_mul ∧
      cdiv p.dim p.n_heads = some head_size ∧ cdiv p.n_heads p.n_kv_heads = some kv_mul ∧
      cdiv (p.dim * p.n_kv_heads) p.n_heads = some (p.n_kv_heads * head_size) := by
  obtain ⟨hs, hhs⟩ := hd
  obtain ⟨k, hk⟩ := hg
  have hs0 : 0 < hs := by
    by_contra h
    have : p.n_heads * hs ≤ 0 := Int.mul_nonpos_of_nonneg_of_nonpos hnh.le (by omega)
    omega
  have hk0 : 0 < k := by
    by_contra h
    have : p.n_kv_heads * k ≤ 0 := Int.mul_nonpos_of_nonneg_of_nonpos hkv.le (by omega)
    omega
  refine ⟨hs, k, hs0, hk0, hhs, hk, ?_, ?_, ?_⟩
  · rw [cdiv_of_ne _ hnh.ne', hhs, Int.mul_tdiv_cancel_left _ hnh.ne']
  · rw [cdiv_of_ne _ hkv.ne', hk, Int.mul_tdiv_cancel_left _ hkv.ne']
  · rw [cdiv_of_ne _ hnh.ne', hhs]
    have e : p.n_heads * hs * p.n_kv_heads = p.n_heads * (p.n_kv_heads * hs) := by ring
    rw [e, Int.mul_tdiv_cancel_left _ hnh.ne']

/-- C18, as the code has it. For a configuration with positive fields in
which `n_heads` divides `dim` and `n_kv_heads` divides `n_heads`:
`kv_mul = n_heads / n_kv_heads` is not zero, and for every query head
`0 ≤ h < n_heads` the key/value head index `h / kv_mul` is `< n_kv_heads`, so
the slice `(h / kv_mul) * head_size + i`, `0 ≤ i < head_size`, lies inside the
`kv_dim` elements of a cache entry. -/
theorem kv_head_in_range (p : TransformerConfig) (hdim : 0 < p.dim) (hnh : 0 < p.n_heads)
    (hkv : 0 < p.n_kv_heads) (hd : p.n_heads ∣ p.dim) (hg : p.n_kv_heads ∣ p.n_heads) :
    ∃ head_size kv_mul kv_dim : Int, cdiv p.dim p.n_heads = some head_size ∧
      cdiv p.n_heads p.n_kv_heads = some kv_mul ∧
      cdiv (p.dim * p.n_kv_heads) p.n_heads = some kv_dim ∧ kv_mul ≠ 0 ∧
      ∀ h : Int, 0 ≤ h → h < p.n_heads →
        cdiv h kv_mul = some (Int.tdiv h kv_mul) ∧ 0 ≤ Int.tdiv h kv_mul ∧
        Int.tdiv h kv_mul < p.n_kv_heads ∧
        ∀ i : Int, 0 ≤ i → i < head_size →
          0 ≤ Int.tdiv h kv_mul * head_size + i ∧ Int.tdiv h kv_mul * head_size + i < kv_dim := by
  obtain ⟨hs, k, hs0, hk0, -, hk, e1, e2, e3⟩ := config_shape p hdim hnh hkv hd hg
  refine ⟨hs, k, _, e1, e2, e3, hk0.ne', fun h h0 h1 => ?_⟩
  have hg0 : 0 ≤ Int.tdiv h k := Int.tdiv_nonneg h0 hk0.le
  have hg1 : Int.tdiv h k < p.n_kv_heads := by
    rw [Int.tdiv_eq_ediv h0 hk0.le]
    exact Int.ediv_lt_of_lt_mul hk0 (by rw [← hk]; exact h1)
  refine ⟨cdiv_of_ne _ hk0.ne', hg0, hg1, fun i i0 i1 => ⟨by positivity, ?_⟩⟩
  have : (Int.tdiv h k + 1) * hs ≤ p.n_kv_heads * hs :=
    mul_le_mul_of_nonneg_right (by omega) hs0.le
  have e : (Int.tdiv h k + 1) * hs = Int.tdiv h k * hs + hs := by ring
  omega

theorem kv_head_in_range_witness :
    ∃ head_size kv_mul kv_dim : Int, cdiv tinyConfig.dim tinyConfig.n_heads = some head_size ∧
      cdiv tinyConfig.n_heads tinyConfig.n_kv_heads = some kv_mul ∧
      cdiv (tinyConfig.dim * tinyConfig.n_kv_heads) tinyConfig.n_heads = some kv_dim ∧
      kv_mul ≠ 0 ∧
      ∀ h : Int, 0 ≤ h → h < tinyConfig.n_heads →
        cdiv h kv_mul = some (Int.tdiv h kv_mul) ∧ 0 ≤ Int.tdiv h kv_mul ∧
        Int.tdiv h kv_mul < tinyConfig.n_kv_heads ∧
        ∀ i : Int, 0 ≤ i → i < head_size →
          0 ≤ Int.tdiv h kv_mul * head_size + i ∧ Int.tdiv h kv_mul * head_size + i < kv_dim :=
  kv_head_in_range tinyConfig (by decide) (by decide) (by decide) (by decide) (by decide)

/-- C18 as stated fails: `threeHeadConfig` (three query heads, two key/value
heads, `dim = 6`) has positive fields, `n_heads` divides `dim` and
`dim * n_kv_heads`; there `kv_mul = 3 / 2 = 1`, and query head 2 gets the
key/value head index `2 / 1 = 2`, which is not `< n_kv_heads = 2`: its slice
starts at element `2 * 2 = 4 = kv_dim`, past the cache entry. -/
theorem kv_head_in_range_counterexample :
    0 < threeHeadConfig.dim ∧ 0 < threeHeadConfig.n_heads ∧ 0 < threeHeadConfig.n_kv_heads ∧
    threeHeadConfig.n_heads ∣ threeHeadConfig.dim ∧
    threeHeadConfig.n_heads ∣ threeHeadConfig.dim * threeHeadConfig.n_kv_heads ∧
    cdiv threeHeadConfig.n_heads threeHeadConfig.n_kv_heads = some 1 ∧
    cdiv threeHeadConfig.dim threeHeadConfig.n_heads = some 2 ∧
    cdiv (threeHeadConfig.dim * threeHeadConfig.n_kv_heads) threeHeadConfig.n_heads = some 4 ∧
    (2 : Int) < threeHeadConfig.n_heads ∧ cdiv 2 1 = some 2 ∧
    ¬ (2 : Int) < threeHeadConfig.n_kv_heads ∧ ¬ (2 * 2 + 0 : Int) < 4 := by
  decide

theorem slice_in_block (base n len l : Int) (hlen : 0 ≤ len) (h0 : 0 ≤ l) (h1 : l < n) :
    base ≤ base + l * len ∧ base + l * len + len ≤ base + n * len := by
  have a : 0 ≤ l * len := Int.mul_nonneg h0 hlen
  have b : (l + 1) * len ≤ n * len := mul_le_mul_of_nonneg_right (by omega) hlen
  have e : (l + 1) * len = l * len + len := by ring
  omega

/-- C19. For a configuration with positive fields in which `n_heads` divides
`dim`, over the unbounded integers: every block that `memory_map_weights`
reserves for a per-layer tensor has `n_layers` times the length of the slice
`forward` reads for one layer (`dim` for the norm weights, `dim * dim` for
`wq` and `wo`, `dim * kv_dim` for `wk` and `wv`, `dim * hidden_dim` for `w1`,
`w2`, `w3`), and for every layer `0 ≤ l < n_layers` the slice at the offset
`forward` uses starts inside the block and ends before the next view: the
slices of the layers tile the block. -/
theorem forward_slices_in_layout (p : TransformerConfig) (ptr shared : Int)
    (hdim : 0 < p.dim) (hhid : 0 < p.hidden_dim) (hnh : 0 < p.n_heads) (hkv : 0 < p.n_kv_heads)
    (hd : p.n_heads ∣ p.dim) :
    ∃ w kv_dim, memory_map_weights Arith.exact p ptr shared = some w ∧
      cdiv (p.dim * p.n_kv_heads) p.n_heads = some kv_dim ∧
      w.wq = w.rms_att_weight + p.n_layers * p.dim ∧
      w.wk = w.wq + p.n_layers * (p.dim * p.dim) ∧
      w.wv = w.wk + p.n_layers * (p.dim * kv_dim) ∧
      w.wo = w.wv + p.n_layers * (p.dim * kv_dim) ∧
      w.rms_ffn_weight = w.wo + p.n_layers * (p.dim * p.dim) ∧
      w.w1 = w.rms_ffn_weight + p.n_layers * p.dim ∧
      w.w2 = w.w1 + p.n_layers * (p.dim * p.hidden_dim) ∧
      w.w3 = w.w2 + p.n_layers * (p.dim * p.hidden_dim) ∧
      w.rms_final_weight = w.w3 + p.n_layers * (p.dim * p.hidden_dim) ∧
      ∀ l : Int, 0 ≤ l → l < p.n_layers →
        (w.rms_att_weight ≤ w.rms_att_weight + l * p.dim ∧
          w.rms_att_weight + l * p.dim + p.dim ≤ w.wq) ∧
        (w.wq ≤ w.wq + l * p.dim * p.dim ∧ w.wq + l * p.dim * p.dim + p.dim * p.dim ≤ w.wk) ∧
        (w.wk ≤ w.wk + l * p.dim * kv_dim ∧
          w.wk + l * p.dim * kv_dim + p.dim * kv_dim ≤ w.wv) ∧
        (w.wv ≤ w.wv + l * p.dim * kv_dim ∧
          w.wv + l * p.dim * kv_dim + p.dim * kv_dim ≤ w.wo) ∧
        (w.wo ≤ w.wo + l * p.dim * p.dim ∧
          w.wo + l * p.dim * p.dim + p.dim * p.dim ≤ w.rms_ffn_weight) ∧
        (w.rms_ffn_weight ≤ w.rms_ffn_weight + l * p.dim ∧
          w.rms_ffn_weight + l * p.dim + p.dim ≤ w.w1) ∧
        (w.w1 ≤ w.w1 + l * p.dim * p.hidden_dim ∧
          w.w1 + l * p.dim * p.hidden_dim + p.dim * p.hidden_dim ≤ w.w2) ∧
        (w.w2 ≤ w.w2 + l * p.dim * p.hidden_dim ∧
          w.w2 + l * p.dim * p.hidden_dim + p.dim * p.hidden_dim ≤ w.w3) ∧
        (w.w3 ≤ w.w3 + l * p.dim * p.hidden_dim ∧
          w.w3 + l * p.dim * p.hidden_dim + p.dim * p.hidden_dim ≤ w.rms_final_weight) := by
  obtain ⟨w, hw, -, e1, e2, e3, e4, e5, e6, e7, e8, e9, e10⟩ :=
    memory_map_weights_layout p ptr shared hnh.ne'
  have hA : p.n_heads * Int.tdiv p.dim p.n_heads = p.dim := Int.mul_tdiv_cancel' hd
  have hks : 0 ≤ Int.tdiv p.dim p.n_heads := Int.tdiv_nonneg hdim.le hnh.le
  have hK : Int.tdiv (p.dim * p.n_kv_heads) p.n_heads = p.n_kv_heads * Int.tdiv p.dim p.n_heads := by
    conv_lhs => rw [← hA]
    have e : p.n_heads * Int.tdiv p.dim p.n_heads * p.n_kv_heads =
        p.n_heads * (p.n_kv_heads * Int.tdiv p.dim p.n_heads) := by ring
    rw [e, Int.mul_tdiv_cancel_left _ hnh.ne']
  have hkd : 0 ≤ p.n_kv_heads * Int.tdiv p.dim p.n_heads := Int.mul_nonneg hkv.le hks
  rw [hA] at e3 e6
  have f2 : w.wq = w.rms_att_weight + p.n_layers * p.dim := e2
  have f3 : w.wk = w.wq + p.n_layers * (p.dim * p.dim) := by rw [e3]; ring
  have f4 : w.wv = w.wk + p.n_layers * (p.dim * (p.n_kv_heads * Int.tdiv p.dim p.n_heads)) := by
    rw [e4]; ring
  have f5 : w.wo = w.wv + p.n_layers * (p.dim * (p.n_kv_heads * Int.tdiv p.dim p.n_heads)) := by
    rw [e5]; ring
  have f6 : w.rms_ffn_weight = w.wo + p.n_layers * (p.dim * p.dim) := by rw [e6]; ring
  have f7 : w.w1 = w.rms_ffn_weight + p.n_layers * p.dim := e7
  have f8 : w.w2 = w.w1 + p.n_layers * (p.dim * p.hidden_dim) := by rw [e8]; ring
  have f9 : w.w3 = w.w2 + p.n_layers * (p.dim * p.hidden_dim) := by rw [e9]; ring
  have f10 : w.rms_final_weight = w.w3 + p.n_layers * (p.dim * p.hidden_dim) := by
    rw [e10]; ring
  refine ⟨w, _, hw, by rw [cdiv_of_ne _ hnh.ne', hK], f2, f3, f4, f5, f6, f7, f8, f9, f10,
    fun l l0 l1 => ?_⟩
  have s1 := slice_in_block w.rms_att_weight p.n_layers p.dim l hdim.le l0 l1
  have s2 := slice_in_block w.wq p.n_layers (p.dim * p.dim) l (by positivity) l0 l1
  have s3 := slice_in_block w.wk p.n_layers
    (p.dim * (p.n_kv_heads * Int.tdiv p.dim p.n_heads)) l (by positivity) l0 l1
  have s4 := slice_in_block w.wv p.n_layers
    (p.dim * (p.n_kv_heads * Int.tdiv p.dim p.n_heads)) l (by positivity) l0 l1
  have s5 := slice_in_block w.wo p.n_layers (p.dim * p.dim) l (by positivity) l0 l1
  have s6 := slice_in_block w.rms_ffn_weight p.n_layers p.dim l hdim.le l0 l1
  have s7 := slice_in_block w.w1 p.n_layers (p.dim * p.hidden_dim) l (by positivity) l0 l1
  have s8 := slice_in_block w.w2 p.n_layers (p.dim * p.hidden_dim) l (by positivity) l0 l1
  have s9 := slice_in_block w.w3 p.n_layers (p.dim * p.hidden_dim) l (by positivity) l0 l1
  rw [← f2] at s1
  rw [← f3] at s2
  rw [← f4] at s3
  rw [← f5] at s4
  rw [← f6] at s5
  rw [← f7] at s6
  rw [← f8] at s7
  rw [← f9] at s8
  rw [← f10] at s9
  simp only [mul_assoc] at s1 s2 s3 s4 s5 s6 s7 s8 s9 ⊢
  exact ⟨s1, s2, s3, s4, s5, s6, s7, s8, s9⟩

theorem forward_slices_in_layout_witness :
    ∃ w kv_dim, memory_map_weights Arith.exact tinyConfig 7 1 = some w ∧
      cdiv (tinyConfig.dim * tinyConfig.n_kv_heads) tinyConfig.n_heads = some kv_dim ∧
      w.wq = w.rms_att_weight + tinyConfig.n_layers * tinyConfig.dim ∧
      w.wk = w.wq + tinyConfig.n_layers * (tinyConfig.dim * tinyConfig.dim) ∧
      w.wv = w.wk + tinyConfig.n_layers * (tinyConfig.dim * kv_dim) ∧
      w.wo = w.wv + tinyConfig.n_layers * (tinyConfig.dim * kv_dim) ∧
      w.rms_ffn_weight = w.wo + tinyConfig.n_layers * (tinyConfig.dim * tinyConfig.dim) ∧
      w.w1 = w.rms_ffn_weight + tinyConfig.n_layers * tinyConfig.dim ∧
      w.w2 = w.w1 + tinyConfig.n_layers * (tinyConfig.dim * tinyConfig.hidden_dim) ∧
      w.w3 = w.w2 + tinyConfig.n_layers * (tinyConfig.dim * tinyConfig.hidden_dim) ∧
      w.rms_final_weight = w.w3 + tinyConfig.n_layers * (tinyConfig.dim * tinyConfig.hidden_dim) ∧
      ∀ l : Int, 0 ≤ l → l < tinyConfig.n_layers →
        (w.rms_att_weight ≤ w.rms_att_weight + l * tinyConfig.dim ∧
          w.rms_att_weight + l * tinyConfig.dim + tinyConfig.dim ≤ w.wq) ∧
        (w.wq ≤ w.wq + l * tinyConfig.dim * tinyConfig.dim ∧
          w.wq + l * tinyConfig.dim * tinyConfig.dim + tinyConfig.dim * tinyConfig.dim ≤ w.wk) ∧
        (w.wk ≤ w.wk + l * tinyConfig.dim * kv_dim ∧
          w.wk + l * tinyConfig.dim * kv_dim + tinyConfig.dim * kv_dim ≤ w.wv) ∧
        (w.wv ≤ w.wv + l * tinyConfig.dim * kv_dim ∧
          w.wv + l * tinyConfig.dim * kv_dim + tinyConfig.dim * kv_dim ≤ w.wo) ∧
        (w.wo ≤ w.wo + l * tinyConfig.dim * tinyConfig.dim ∧
          w.wo + l * tinyConfig.dim * tinyConfig.dim + tinyConfig.dim * tinyConfig.dim ≤
            w.rms_ffn_weight) ∧
        (w.rms_ffn_weight ≤ w.rms_ffn_weight + l * tinyConfig.dim ∧
          w.rms_ffn_weight + l * tinyConfig.dim + tinyConfig.dim ≤ w.w1) ∧
        (w.w1 ≤ w.w1 + l * tinyConfig.dim * tinyConfig.hidden_dim ∧
          w.w1 + l * tinyConfig.dim * tinyConfig.hidden_dim +
            tinyConfig.dim * tinyConfig.hidden_dim ≤ w.w2) ∧
        (w.w2 ≤ w.w2 + l * tinyConfig.dim * tinyConfig.hidden_dim ∧
          w.w2 + l * tinyConfig.dim * tinyConfig.hidden_dim +
            tinyConfig.dim * tinyConfig.hidden_dim ≤ w.w3) ∧
        (w.w3 ≤ w.w3 + l * tinyConfig.dim * tinyConfig.hidden_dim ∧
          w.w3 + l * tinyConfig.dim * tinyConfig.hidden_dim +
            tinyConfig.dim * tinyConfig.hidden_dim ≤ w.rms_final_weight) :=
  forward_slices_in_layout tinyConfig 7 1 (by decide) (by decide) (by decide) (by decide)
    (by decide)

/-! ## Instances of the kernel theorems -/

theorem softmax_distribution_witness :
    ∃ (m' : Mem Nat ℝ) (out : Nat → ℝ), softmax (⟨Real.sqrt, Real.exp, fun a b => a ^ b, Real.cos, Real.sin⟩ : Libm ℝ)
        (fun _ : Nat => [1, 2, (3 : ℝ)]) ⟨0, 0⟩ (3 : Nat) = some m' ∧
      (∀ i : Nat, i < 3 → load m' ((⟨0, 0⟩ : Ptr Nat).add i) = some (out i) ∧
        0 ≤ out i ∧ out i ≤ 1) ∧
      ∑ i in Finset.range 3, out i = 1 :=
  softmax_distribution ⟨Real.sqrt, Real.exp, fun a b => a ^ b, Real.cos, Real.sin⟩ rfl
    (fun _ : Nat => [1, 2, (3 : ℝ)]) ⟨0, 0⟩ 3 (by decide) (by decide)

theorem rmsnorm_formula_witness :
    (∃ m', rmsnorm (⟨Real.sqrt, Real.exp, fun a b => a ^ b, Real.cos, Real.sin⟩ : Libm ℝ)
        (fun b : Nat => if b = 0 then [0, 0] else if b = 1 then [3, 4] else [1, (2 : ℝ)])
        ⟨0, 0⟩ ⟨1, 0⟩ ⟨2, 0⟩ (2 : Nat) = some m' ∧
      ∀ j : Nat, j < 2 → load m' ((⟨0, 0⟩ : Ptr Nat).add j) =
        some ([1, (2 : ℝ)].getD j 0 * [3, (4 : ℝ)].getD j 0 *
          (1 / Real.sqrt ((∑ k in Finset.range 2, [3, (4 : ℝ)].getD k 0 ^ 2) / ((2 : Nat) : ℝ)
            + 1 / 100000)))) ∧
    (∃ m', rmsnorm (⟨Real.sqrt, Real.exp, fun a b => a ^ b, Real.cos, Real.sin⟩ : Libm ℝ)
        (fun b : Nat => if b = 0 then [0, 0] else if b = 1 then [3, 4] else [1, (2 : ℝ)])
        ⟨1, 0⟩ ⟨1, 0⟩ ⟨2, 0⟩ (2 : Nat) = some m' ∧
      ∀ j : Nat, j < 2 → load m' ((⟨1, 0⟩ : Ptr Nat).add j) =
        some ([1, (2 : ℝ)].getD j 0 * [3, (4 : ℝ)].getD j 0 *
          (1 / Real.sqrt ((∑ k in Finset.range 2, [3, (4 : ℝ)].getD k 0 ^ 2) / ((2 : Nat) : ℝ)
            + 1 / 100000)))) :=
  rmsnorm_formula ⟨Real.sqrt, Real.exp, fun a b => a ^ b, Real.cos, Real.sin⟩ rfl
    (fun b : Nat => if b = 0 then [0, 0] else if b = 1 then [3, 4] else [1, (2 : ℝ)])
    ⟨0, 0⟩ ⟨1, 0⟩ ⟨2, 0⟩ 2 (fun j => [3, (4 : ℝ)].getD j 0) (fun j => [1, (2 : ℝ)].getD j 0)
    (fun j hj => by interval_cases j <;> rfl) (fun j hj => by interval_cases j <;> rfl)
    (by decide)
    (fun _ _ h => absurd (show (1 : Nat) = 0 from h.1) (by decide))
    (fun _ _ h => absurd (show (2 : Nat) = 0 from h.1) (by decide))
    (fun _ _ h => absurd (show (2 : Nat) = 1 from h.1) (by decide))

theorem rmsnorm_mean_square_witness :
    ∃ (m' : Mem Nat ℝ) (o : Nat → ℝ),
      rmsnorm (⟨Real.sqrt, Real.exp, fun a b => a ^ b, Real.cos, Real.sin⟩ : Libm ℝ)
        (fun b : Nat => if b = 0 then [0, 0] else if b = 1 then [3, 4] else [1, (1 : ℝ)])
        ⟨0, 0⟩ ⟨1, 0⟩ ⟨2, 0⟩ (2 : Nat) = some m' ∧
      (∀ j : Nat, j < 2 → load m' ((⟨0, 0⟩ : Ptr Nat).add j) = some (o j)) ∧
      (∑ j in Finset.range 2, o j ^ 2) / ((2 : Nat) : ℝ) =
        ((∑ k in Finset.range 2, [3, (4 : ℝ)].getD k 0 ^ 2) / ((2 : Nat) : ℝ)) /
          ((∑ k in Finset.range 2, [3, (4 : ℝ)].getD k 0 ^ 2) / ((2 : Nat) : ℝ) + 1 / 100000) ∧
      (9999 / 100000 ≤ (∑ k in Finset.range 2, [3, (4 : ℝ)].getD k 0 ^ 2) / ((2 : Nat) : ℝ) →
        |(∑ j in Finset.range 2, o j ^ 2) / ((2 : Nat) : ℝ) - 1| ≤ 1 / 10000) :=
  rmsnorm_mean_square ⟨Real.sqrt, Real.exp, fun a b => a ^ b, Real.cos, Real.sin⟩ rfl
    (fun b : Nat => if b = 0 then [0, 0] else if b = 1 then [3, 4] else [1, (1 : ℝ)])
    ⟨0, 0⟩ ⟨1, 0⟩ ⟨2, 0⟩ 2 (fun j => [3, (4 : ℝ)].getD j 0)
    (fun j hj => by interval_cases j <;> rfl) (fun j hj => by interval_cases j <;> rfl)
    (by decide)
    (fun _ _ h => absurd (show (1 : Nat) = 0 from h.1) (by decide))
    (fun _ _ h => absurd (show (2 : Nat) = 0 from h.1) (by decide))

/-- C13 as stated fails for the zero vector: with `x = (0)`, `weight = (1)`
and `size = 1` the output of `rmsnorm` is `(0)`, whose mean square 0 is at
distance 1 from 1. -/
theorem rmsnorm_mean_square_counterexample :
    ∃ (m' : Mem Nat ℝ) (o : ℝ),
      rmsnorm (⟨Real.sqrt, Real.exp, fun a b => a ^ b, Real.cos, Real.sin⟩ : Libm ℝ)
        (fun b : Nat => if b = 0 then [5] else if b = 1 then [0] else [(1 : ℝ)])
        ⟨0, 0⟩ ⟨1, 0⟩ ⟨2, 0⟩ (1 : Nat) = some m' ∧
      load m' ⟨0, 0⟩ = some o ∧ ¬ |(∑ _j in Finset.range 1, o ^ 2) / ((1 : Nat) : ℝ) - 1| ≤ 1 / 10000 := by
  obtain ⟨m', h1, -, h3⟩ := rmsnorm_spec
    (⟨Real.sqrt, Real.exp, fun a b => a ^ b, Real.cos, Real.sin⟩ : Libm ℝ)
    (fun b : Nat => if b = 0 then [5] else if b = 1 then [0] else [(1 : ℝ)])
    ⟨0, 0⟩ ⟨1, 0⟩ ⟨2, 0⟩ 1 (fun _ => 0) (fun _ => 1)
    (fun j hj => by interval_cases j; rfl) (fun j hj => by interval_cases j; rfl)
    (by decide)
    (fun _ _ h => absurd (show (1 : Nat) = 0 from h.1) (by decide))
    (fun _ _ h => absurd (show (2 : Nat) = 0 from h.1) (by decide))
  refine ⟨m', 0, h1, ?_, by norm_num⟩
  have := h3 0 (by decide)
  simpa [Ptr.add] using this

theorem softmax_shift_invariant_witness :
    ∃ m' m2', softmax (⟨Real.sqrt, Real.exp, fun a b => a ^ b, Real.cos, Real.sin⟩ : Libm ℝ)
        (fun _ : Nat => [1, 2, (3 : ℝ)]) ⟨0, 0⟩ (3 : Nat) = some m' ∧
      softmax (⟨Real.sqrt, Real.exp, fun a b => a ^ b, Real.cos, Real.sin⟩ : Libm ℝ)
        (fun _ : Nat => [1 + 10, 2 + 10, (3 + 10 : ℝ)]) ⟨0, 0⟩ (3 : Nat) = some m2' ∧
      (∀ i : Nat, i < 3 → load m' ((⟨0, 0⟩ : Ptr Nat).add i) =
        some (Real.exp ([1, 2, (3 : ℝ)].getD i 0) /
          ∑ j in Finset.range 3, Real.exp ([1, 2, (3 : ℝ)].getD j 0))) ∧
      ∀ i : Nat, i < 3 → load m2' ((⟨0, 0⟩ : Ptr Nat).add i) =
        load m' ((⟨0, 0⟩ : Ptr Nat).add i) :=
  softmax_shift_invariant ⟨Real.sqrt, Real.exp, fun a b => a ^ b, Real.cos, Real.sin⟩ rfl
    (fun _ : Nat => [1, 2, (3 : ℝ)]) (fun _ : Nat => [1 + 10, 2 + 10, (3 + 10 : ℝ)]) ⟨0, 0⟩ 3
    (fun j => [1, 2, (3 : ℝ)].getD j 0) 10 (by decide)
    (fun j hj => by interval_cases j <;> rfl) (fun j hj => by interval_cases j <;> rfl)

theorem matmul_rows_witness :
    ∃ m', matmul kernelMem ⟨0, 0⟩ ⟨1, 0⟩ ⟨2, 0⟩ (2 : Nat) (2 : Nat) = some m' ∧
      ∀ i : Nat, i < 2 → load m' ((⟨0, 0⟩ : Ptr Nat).add i) =
        some (∑ j in Finset.range 2, [1, 2, 0, (1 : ℚ)].getD (i * 2 + j) 0 * [3, (5 : ℚ)].getD j 0) :=
  matmul_rows kernelMem ⟨0, 0⟩ ⟨1, 0⟩ ⟨2, 0⟩ 2 2 (fun j => [3, (5 : ℚ)].getD j 0)
    (fun k => [1, 2, 0, (1 : ℚ)].getD k 0) (by decide) (by decide) (by decide)
    (fun _ _ h => absurd (show (1 : Nat) = 0 from h.1) (by decide))
    (fun _ _ h => absurd (show (2 : Nat) = 0 from h.1) (by decide))

theorem identity_rows_exact_instance :
    ∃ m', matmul identityMem ⟨0, 0⟩ ⟨1, 0⟩ ⟨2, 0⟩ (2 : Nat) (2 : Nat) = some m' ∧
      ∀ i : Nat, i < 2 → load m' ((⟨0, 0⟩ : Ptr Nat).add i) = some ([3, (5 : ℚ)].getD i 0) ∧
        load m' ((⟨0, 0⟩ : Ptr Nat).add i) = load identityMem ((⟨1, 0⟩ : Ptr Nat).add i) :=
  identity_rows_exact identityMem ⟨0, 0⟩ ⟨1, 0⟩ ⟨2, 0⟩ 2 (fun j => [3, (5 : ℚ)].getD j 0)
    (by decide) (by decide) (by decide)
    (fun _ _ h => absurd (show (1 : Nat) = 0 from h.1) (by decide))
    (fun _ _ h => absurd (show (2 : Nat) = 0 from h.1) (by decide))

theorem matmul_identity_witness :
    ∃ m', matmul finiteMem ⟨0, 0⟩ ⟨1, 0⟩ ⟨2, 0⟩ (2 : Nat) (2 : Nat) = some m' ∧
      ∀ i : Nat, i < 2 →
        load m' ((⟨0, 0⟩ : Ptr Nat).add i) = some (Ieee.fin ([3, (5 : ℚ)].getD i 0)) ∧
        load m' ((⟨0, 0⟩ : Ptr Nat).add i) = load finiteMem ((⟨1, 0⟩ : Ptr Nat).add i) :=
  matmul_identity finiteMem ⟨0, 0⟩ ⟨1, 0⟩ ⟨2, 0⟩ 2 (fun j => [3, (5 : ℚ)].getD j 0)
    (by decide) (by decide) (by decide)
    (fun _ _ h => absurd (show (1 : Nat) = 0 from h.1) (by decide))
    (fun _ _ h => absurd (show (2 : Nat) = 0 from h.1) (by decide))

/-- C10 as stated fails for an input that is not finite: with the 2×2 identity
matrix and `x = (+inf, 1)`, row 1 adds the product `0 * inf`, a NaN, and
`matmul` leaves `xout = (+inf, NaN)`, which is not `x`. -/
theorem matmul_identity_counterexample :
    ieeeMem 1 = [Ieee.pinf, Ieee.fin 1] ∧
    ieeeMem 2 = [Ieee.fin 1, Ieee.fin 0, Ieee.fin 0, Ieee.fin 1] ∧
    ∃ m', matmul ieeeMem ⟨0, 0⟩ ⟨1, 0⟩ ⟨2, 0⟩ (2 : Nat) (2 : Nat) = some m' ∧
      m' 0 = [Ieee.pinf, Ieee.nan] ∧
      load m' ((⟨0, 0⟩ : Ptr Nat).add 1) ≠ load ieeeMem ((⟨1, 0⟩ : Ptr Nat).add 1) := by
  refine ⟨rfl, rfl, _, rfl, ?_, ?_⟩ <;> decide

/-! ## The rotary loop -/

section RopeLemmas

variable {ι α : Type} [DecidableEq ι] [LinearOrderedField α]

theorem forLoop_one {σ : Type} (body : Nat → σ → Option σ) (s : σ) :
    forLoop 1 body s = body 0 s := rfl

theorem forLoop_two {σ : Type} (body : Nat → σ → Option σ) (s : σ) :
    forLoop 2 body s = (body 0 s).bind (body 1) := rfl

/-- One rotation of the pair at `vec + i`, `vec + i + 1`. -/
theorem rotate_pair (m : Mem ι α) (vec : Ptr ι) (i : Int) (fcr fci v0 v1 : α)
    (h0 : load m (vec.add i) = some v0) (h1 : load m (vec.add (i + 1)) = some v1) :
    ∃ m', ((load m (vec.add i)).bind fun v0 => (load m (vec.add (i + 1))).bind fun v1 =>
        (store m (vec.add i) (v0 * fcr - v1 * fci)).bind fun m =>
          store m (vec.add (i + 1)) (v0 * fci + v1 * fcr)) = some m' ∧
      SameLen m m' ∧
      (∀ p, p ≠ vec.add i → p ≠ vec.add (i + 1) → load m' p = load m p) ∧
      load m' (vec.add i) = some (v0 * fcr - v1 * fci) ∧
      load m' (vec.add (i + 1)) = some (v0 * fci + v1 * fcr) := by
  obtain ⟨a, ha⟩ := store_of_inb (v0 * fcr - v1 * fci) (inb_of_load h0)
  obtain ⟨b, hb⟩ := store_of_inb (v0 * fci + v1 * fcr)
    ((store_sameLen ha).keepsInB (inb_of_load h1))
  refine ⟨b, by simp only [h0, h1, Option.some_bind, ha, hb], (store_sameLen ha).chain
    (store_sameLen hb), ?_, ?_, load_store_same hb⟩
  · intro p hp0 hp1
    rw [load_store_ne hb hp1, load_store_ne ha hp0]
  · rw [load_store_ne hb, load_store_same ha]
    intro e
    have := congrArg Ptr.off e
    simp only [Ptr.add_off] at this
    omega

/-- What the rotary loop does: with `q` holding `qv` and `k` holding `kv` in
another buffer, it returns, changes only the pairs it rotates and leaves every
pair `(2c, 2c+1)` rotated by the angle of the index `2c`: all pairs of `q`, the
pairs with `2c < kv_dim` of `k`. -/
theorem rope_spec (F : Libm α) (m : Mem Buf α) (q k : Ptr Buf) (pos dim kv_dim head_size : Int)
    (qv kv : Nat → α) (hhs : head_size ≠ 0) (hbuf : q.buf ≠ k.buf)
    (hq : ∀ j : Nat, (j : Int) < 2 * ((dim + 1) / 2) → load m (q.add j) = some (qv j))
    (hk : ∀ c : Nat, (c : Int) < (dim + 1) / 2 → 2 * (c : Int) < kv_dim →
      load m (k.add (2 * (c : Int))) = some (kv (2 * c)) ∧
      load m (k.add (2 * (c : Int) + 1)) = some (kv (2 * c + 1))) :
    ∃ m', rope F m q k pos dim kv_dim head_size = some m' ∧
      Frame (ropeWrites q k kv_dim ((dim + 1) / 2).toNat) m m' ∧
      (∀ c : Nat, (c : Int) < (dim + 1) / 2 →
        load m' (q.add (2 * (c : Int))) = some (qv (2 * c) *
            F.cosf (ropeAngle F pos head_size (2 * (c : Int))) -
          qv (2 * c + 1) * F.sinf (ropeAngle F pos head_size (2 * (c : Int)))) ∧
        load m' (q.add (2 * (c : Int) + 1)) = some (qv (2 * c) *
            F.sinf (ropeAngle F pos head_size (2 * (c : Int))) +
          qv (2 * c + 1) * F.cosf (ropeAngle F pos head_size (2 * (c : Int))))) ∧
      (∀ c : Nat, (c : Int) < (dim + 1) / 2 → 2 * (c : Int) < kv_dim →
        load m' (k.add (2 * (c : Int))) = some (kv (2 * c) *
            F.cosf (ropeAngle F pos head_size (2 * (c : Int))) -
          kv (2 * c + 1) * F.sinf (ropeAngle F pos head_size (2 * (c : Int)))) ∧
        load m' (k.add (2 * (c : Int) + 1)) = some (kv (2 * c) *
            F.sinf (ropeAngle F pos head_size (2 * (c : Int))) +
          kv (2 * c + 1) * F.cosf (ropeAngle F pos head_size (2 * (c : Int))))) := by
  have hoff : ∀ (v : Ptr Buf) (a b : Int), a ≠ b → v.add a ≠ v.add b := by
    intro v a b hab e
    have := congrArg Ptr.off e
    simp only [Ptr.add_off] at this
    omega
  have hqk : ∀ a b : Int, q.add a ≠ k.add b := by
    intro a b e
    have := congrArg Ptr.buf e
    exact hbuf this
  have key := forLoop_inv
    (fun n a => Frame (ropeWrites q k kv_dim n) m a ∧
      (∀ c : Nat, c < n →
        load a (q.add (2 * (c : Int))) = some (qv (2 * c) *
            F.cosf (ropeAngle F pos head_size (2 * (c : Int))) -
          qv (2 * c + 1) * F.sinf (ropeAngle F pos head_size (2 * (c : Int)))) ∧
        load a (q.add (2 * (c : Int) + 1)) = some (qv (2 * c) *
            F.sinf (ropeAngle F pos head_size (2 * (c : Int))) +
          qv (2 * c + 1) * F.cosf (ropeAngle F pos head_size (2 * (c : Int))))) ∧
      (∀ c : Nat, c < n → 2 * (c : Int) < kv_dim →
        load a (k.add (2 * (c : Int))) = some (kv (2 * c) *
            F.cosf (ropeAngle F pos head_size (2 * (c : Int))) -
          kv (2 * c + 1) * F.sinf (ropeAngle F pos head_size (2 * (c : Int)))) ∧
        load a (k.add (2 * (c : Int) + 1)) = some (kv (2 * c) *
            F.sinf (ropeAngle F pos head_size (2 * (c : Int))) +
          kv (2 * c + 1) * F.cosf (ropeAngle F pos head_size (2 * (c : Int))))))
    ((dim + 1) / 2).toNat
    (fun c m => (cmod (2 * (c : Int)) head_size).bind fun head_dim =>
      forLoop (if 2 * (c : Int) < kv_dim then 2 else 1) (fun v m =>
        (load m ((if v = 0 then q else k).add (2 * (c : Int)))).bind fun v0 =>
        (load m ((if v = 0 then q else k).add (2 * (c : Int) + 1))).bind fun v1 =>
        (store m ((if v = 0 then q else k).add (2 * (c : Int)))
          (v0 * F.cosf ((pos : α) * (1 / F.powf 10000 ((head_dim : α) / (head_size : α)))) -
            v1 * F.sinf ((pos : α) * (1 / F.powf 10000 ((head_dim : α) / (head_size : α)))))).bind
          fun m => store m ((if v = 0 then q else k).add (2 * (c : Int) + 1))
            (v0 * F.sinf ((pos : α) * (1 / F.powf 10000 ((head_dim : α) / (head_size : α)))) +
              v1 * F.cosf ((pos : α) * (1 / F.powf 10000 ((head_dim : α) / (head_size : α))))))
        m)
    m ⟨Frame.same _ _, fun c hc => absurd hc (Nat.not_lt_zero c),
      fun c hc => absurd hc (Nat.not_lt_zero c)⟩
    (fun n hn a hI => by
      obtain ⟨hF, hqa, hka⟩ := hI
      have hnC : (n : Int) < (dim + 1) / 2 := by omega
      have hfresh : ∀ p : Ptr Buf, (p = q.add (2 * (n : Int)) ∨ p = q.add (2 * (n : Int) + 1) ∨
          p = k.add (2 * (n : Int)) ∨ p = k.add (2 * (n : Int) + 1)) →
          p ∉ ropeWrites q k kv_dim n := by
        intro p hp hw
        obtain ⟨c, hc, hw⟩ := hw
        have hcn : (c : Int) < n := by exact_mod_cast hc
        rcases hp with rfl | rfl | rfl | rfl <;> rcases hw with e | e | ⟨-, e | e⟩ <;>
          first
            | exact hqk _ _ e
            | exact hqk _ _ e.symm
            | exact hoff _ _ _ (by omega) e
      have hq0 : load a (q.add (2 * (n : Int))) = some (qv (2 * n)) := by
        rw [hF.2 _ (hfresh _ (Or.inl rfl))]
        have := hq (2 * n) (by push_cast; omega)
        push_cast at this
        exact this
      have hq1 : load a (q.add (2 * (n : Int) + 1)) = some (qv (2 * n + 1)) := by
        rw [hF.2 _ (hfresh _ (Or.inr (Or.inl rfl)))]
        have := hq (2 * n + 1) (by push_cast; omega)
        push_cast at this
        exact this
      obtain ⟨b, hb, hbl, hbf, hb0, hb1⟩ := rotate_pair a q (2 * (n : Int))
        (F.cosf (ropeAngle F pos head_size (2 * (n : Int))))
        (F.sinf (ropeAngle F pos head_size (2 * (n : Int)))) _ _ hq0 hq1
      have hcm : cmod (2 * (n : Int)) head_size = some (Int.tmod (2 * (n : Int)) head_size) := by
        simp [cmod, hhs]
      by_cases hlt : 2 * (n : Int) < kv_dim
      · have hk0 : load b (k.add (2 * (n : Int))) = some (kv (2 * n)) := by
          rw [hbf _ (hqk _ _).symm (hqk _ _).symm, hF.2 _ (hfresh _ (Or.inr (Or.inr (Or.inl rfl))))]
          exact (hk n hnC hlt).1
        have hk1 : load b (k.add (2 * (n : Int) + 1)) = some (kv (2 * n + 1)) := by
          rw [hbf _ (hqk _ _).symm (hqk _ _).symm, hF.2 _ (hfresh _ (Or.inr (Or.inr (Or.inr rfl))))]
          exact (hk n hnC hlt).2
        obtain ⟨d, hd, hdl, hdf, hd0, hd1⟩ := rotate_pair b k (2 * (n : Int))
          (F.cosf (ropeAngle F pos head_size (2 * (n : Int))))
          (F.sinf (ropeAngle F pos head_size (2 * (n : Int)))) _ _ hk0 hk1
        refine ⟨d, ?_, ⟨?_, ?_⟩, ?_, ?_⟩
        · beta_reduce
          rw [hcm, Option.some_bind, if_pos hlt, forLoop_two]
          simp only [if_true, one_ne_zero, if_false]
          simp only [ropeAngle] at hb hd
          rw [hb, Option.some_bind]
          exact hd
        · exact (hF.1.chain hbl).chain hdl
        · intro p hp
          have hp' : p ∉ ropeWrites q k kv_dim n := fun ⟨c, hc, hw⟩ =>
            hp ⟨c, Nat.lt_succ_of_lt hc, hw⟩
          rw [hdf p (fun e => hp ⟨n, Nat.lt_succ_self n, Or.inr (Or.inr ⟨hlt, Or.inl e⟩)⟩)
            (fun e => hp ⟨n, Nat.lt_succ_self n, Or.inr (Or.inr ⟨hlt, Or.inr e⟩)⟩),
            hbf p (fun e => hp ⟨n, Nat.lt_succ_self n, Or.inl e⟩)
            (fun e => hp ⟨n, Nat.lt_succ_self n, Or.inr (Or.inl e)⟩)]
          exact hF.2 p hp'
        · intro c hc
          rcases Nat.lt_succ_iff_lt_or_eq.mp hc with h | h
          · have hcn : (c : Int) < n := by exact_mod_cast h
            rw [hdf _ (hqk _ _) (hqk _ _), hdf _ (hqk _ _) (hqk _ _),
              hbf _ (hoff _ _ _ (by omega)) (hoff _ _ _ (by omega)),
              hbf _ (hoff _ _ _ (by omega)) (hoff _ _ _ (by omega))]
            exact hqa c h
          · subst h
            rw [hdf _ (hqk _ _) (hqk _ _), hdf _ (hqk _ _) (hqk _ _)]
            exact ⟨hb0, hb1⟩
        · intro c hc hck
          rcases Nat.lt_succ_iff_lt_or_eq.mp hc with h | h
          · have hcn : (c : Int) < n := by exact_mod_cast h
            rw [hdf _ (hoff _ _ _ (by omega)) (hoff _ _ _ (by omega)),
              hdf _ (hoff _ _ _ (by omega)) (hoff _ _ _ (by omega)),
              hbf _ (hqk _ _).symm (hqk _ _).symm, hbf _ (hqk _ _).symm (hqk _ _).symm]
            exact hka c h hck
          · subst h
            exact ⟨hd0, hd1⟩
      · refine ⟨b, ?_, ⟨?_, ?_⟩, ?_, ?_⟩
        · beta_reduce
          rw [hcm, Option.some_bind, if_neg hlt, forLoop_one]
          simp only [if_true]
          simp only [ropeAngle] at hb
          exact hb
        · exact hF.1.chain hbl
        · intro p hp
          have hp' : p ∉ ropeWrites q k kv_dim n := fun ⟨c, hc, hw⟩ =>
            hp ⟨c, Nat.lt_succ_of_lt hc, hw⟩
          rw [hbf p (fun e => hp ⟨n, Nat.lt_succ_self n, Or.inl e⟩)
            (fun e => hp ⟨n, Nat.lt_succ_self n, Or.inr (Or.inl e)⟩)]
          exact hF.2 p hp'
        · intro c hc
          rcases Nat.lt_succ_iff_lt_or_eq.mp hc with h | h
          · have hcn : (c : Int) < n := by exact_mod_cast h
            rw [hbf _ (hoff _ _ _ (by omega)) (hoff _ _ _ (by omega)),
              hbf _ (hoff _ _ _ (by omega)) (hoff _ _ _ (by omega))]
            exact hqa c h
          · subst h
            exact ⟨hb0, hb1⟩
        · intro c hc hck
          rcases Nat.lt_succ_iff_lt_or_eq.mp hc with h | h
          · have hcn : (c : Int) < n := by exact_mod_cast h
            rw [hbf _ (hqk _ _).symm (hqk _ _).symm, hbf _ (hqk _ _).symm (hqk _ _).symm]
            exact hka c h hck
          · subst h
            exact absurd hck hlt)
  obtain ⟨m', h1, h2, h3, h4⟩ := key
  refine ⟨m', ?_, h2, fun c hc => h3 c (by omega), fun c hc => h4 c (by omega)⟩
  unfold rope
  simp only [Option.bind_eq_bind]
  exact h1

/-- C11. The rotary loop of `forward` over the reals (`cosf`, `sinf`, `powf`
are the real functions): when the pairs it touches are inside their buffers
(`q` and `k` in different buffers, `head_size ≠ 0`) the loop returns, and for
every even index `i < dim` the query pair `(v0, v1)` at `(i, i + 1)` has become
`(v0*cos a - v1*sin a, v0*sin a + v1*cos a)` for the angle
`a = pos / 10000^((i mod head_size) / head_size)`, with
`v0'^2 + v1'^2 = v0^2 + v1^2`; the same holds for the key pair when
`i < kv_dim`. -/
theorem rope_preserves_pair_norm (F : Libm ℝ) (hcos : F.cosf = Real.cos)
    (hsin : F.sinf = Real.sin) (hpow : F.powf = fun a b => a ^ b) (m : Mem Buf ℝ)
    (q k : Ptr Buf) (pos dim kv_dim head_size : Int) (hhs : head_size ≠ 0)
    (hbuf : q.buf ≠ k.buf)
    (hq : ∀ j : Nat, (j : Int) < 2 * ((dim + 1) / 2) → InB m (q.add j))
    (hk : ∀ c : Nat, (c : Int) < (dim + 1) / 2 → 2 * (c : Int) < kv_dim →
      InB m (k.add (2 * (c : Int))) ∧ InB m (k.add (2 * (c : Int) + 1))) :
    ∃ m', rope F m q k pos dim kv_dim head_size = some m' ∧
      ∀ i : Int, 0 ≤ i → i < dim → 2 ∣ i →
        ropeAngle F pos head_size i =
          (pos : ℝ) / (10000 : ℝ) ^ (((Int.tmod i head_size : Int) : ℝ) / (head_size : ℝ)) ∧
        (∃ v0 v1 w0 w1 : ℝ, load m (q.add i) = some v0 ∧ load m (q.add (i + 1)) = some v1 ∧
          load m' (q.add i) = some w0 ∧ load m' (q.add (i + 1)) = some w1 ∧
          w0 = v0 * Real.cos (ropeAngle F pos head_size i) -
            v1 * Real.sin (ropeAngle F pos head_size i) ∧
          w1 = v0 * Real.sin (ropeAngle F pos head_size i) +
            v1 * Real.cos (ropeAngle F pos head_size i) ∧
          w0 ^ 2 + w1 ^ 2 = v0 ^ 2 + v1 ^ 2) ∧
        (i < kv_dim →
          ∃ v0 v1 w0 w1 : ℝ, load m (k.add i) = some v0 ∧ load m (k.add (i + 1)) = some v1 ∧
            load m' (k.add i) = some w0 ∧ load m' (k.add (i + 1)) = some w1 ∧
            w0 = v0 * Real.cos (ropeAngle F pos head_size i) -
              v1 * Real.sin (ropeAngle F pos head_size i) ∧
            w1 = v0 * Real.sin (ropeAngle F pos head_size i) +
              v1 * Real.cos (ropeAngle F pos head_size i) ∧
            w0 ^ 2 + w1 ^ 2 = v0 ^ 2 + v1 ^ 2) := by
  have hnorm : ∀ a v0 v1 : ℝ, (v0 * Real.cos a - v1 * Real.sin a) ^ 2 +
      (v0 * Real.sin a + v1 * Real.cos a) ^ 2 = v0 ^ 2 + v1 ^ 2 := by
    intro a v0 v1
    have h := Real.sin_sq_add_cos_sq a
    calc (v0 * Real.cos a - v1 * Real.sin a) ^ 2 + (v0 * Real.sin a + v1 * Real.cos a) ^ 2
        = (v0 ^ 2 + v1 ^ 2) * (Real.sin a ^ 2 + Real.cos a ^ 2) := by ring
      _ = v0 ^ 2 + v1 ^ 2 := by rw [h, mul_one]
  have hqv : ∀ j : Nat, (j : Int) < 2 * ((dim + 1) / 2) →
      load m (q.add j) = some ((load m (q.add j)).getD 0) := by
    intro j hj
    obtain ⟨v, hv⟩ := load_of_inb (hq j hj)
    rw [hv]; rfl
  have hkv : ∀ c : Nat, (c : Int) < (dim + 1) / 2 → 2 * (c : Int) < kv_dim →
      load m (k.add (2 * (c : Int))) = some ((load m (k.add ((2 * c : Nat) : Int))).getD 0) ∧
      load m (k.add (2 * (c : Int) + 1)) =
        some ((load m (k.add ((2 * c + 1 : Nat) : Int))).getD 0) := by
    intro c hc hck
    obtain ⟨v, hv⟩ := load_of_inb (hk c hc hck).1
    obtain ⟨v', hv'⟩ := load_of_inb (hk c hc hck).2
    push_cast
    rw [hv, hv']; exact ⟨rfl, rfl⟩
  obtain ⟨m', hm, -, hqo, hko⟩ := rope_spec F m q k pos dim kv_dim head_size
    (fun j => (load m (q.add (j : Int))).getD 0) (fun j => (load m (k.add (j : Int))).getD 0)
    hhs hbuf hqv hkv
  refine ⟨m', hm, ?_⟩
  intro i hi0 hid hi2
  obtain ⟨c, rfl⟩ : ∃ c : Nat, i = 2 * (c : Int) := by
    obtain ⟨t, rfl⟩ := hi2
    exact ⟨t.toNat, by omega⟩
  have hc : (c : Int) < (dim + 1) / 2 := by omega
  refine ⟨?_, ?_, ?_⟩
  · simp only [ropeAngle, hpow, mul_one_div]
  · have h0 := hqv (2 * c) (by push_cast; omega)
    have h1 := hqv (2 * c + 1) (by push_cast; omega)
    push_cast at h0 h1
    obtain ⟨o0, o1⟩ := hqo c hc
    rw [hcos, hsin] at o0 o1
    exact ⟨_, _, _, _, h0, h1, o0, o1, rfl, rfl, hnorm _ _ _⟩
  · intro hck
    obtain ⟨h0, h1⟩ := hkv c hc hck
    obtain ⟨o0, o1⟩ := hko c hc hck
    rw [hcos, hsin] at o0 o1
    exact ⟨_, _, _, _, h0, h1, o0, o1, rfl, rfl, hnorm _ _ _⟩

end RopeLemmas

theorem rope_preserves_pair_norm_witness :
    ∃ m', rope (⟨Real.sqrt, Real.exp, fun a b => a ^ b, Real.cos, Real.sin⟩ : Libm ℝ) ropeMem
        ⟨Buf.q, 0⟩ ⟨Buf.key_cache, 0⟩ 1 2 2 2 = some m' ∧
      ∀ i : Int, 0 ≤ i → i < 2 → 2 ∣ i →
        ropeAngle (⟨Real.sqrt, Real.exp, fun a b => a ^ b, Real.cos, Real.sin⟩ : Libm ℝ) 1 2 i =
          ((1 : Int) : ℝ) / (10000 : ℝ) ^ (((Int.tmod i 2 : Int) : ℝ) / ((2 : Int) : ℝ)) ∧
        (∃ v0 v1 w0 w1 : ℝ, load ropeMem ((⟨Buf.q, 0⟩ : Ptr Buf).add i) = some v0 ∧
          load ropeMem ((⟨Buf.q, 0⟩ : Ptr Buf).add (i + 1)) = some v1 ∧
          load m' ((⟨Buf.q, 0⟩ : Ptr Buf).add i) = some w0 ∧
          load m' ((⟨Buf.q, 0⟩ : Ptr Buf).add (i + 1)) = some w1 ∧
          w0 = v0 * Real.cos (ropeAngle
              (⟨Real.sqrt, Real.exp, fun a b => a ^ b, Real.cos, Real.sin⟩ : Libm ℝ) 1 2 i) -
            v1 * Real.sin (ropeAngle
              (⟨Real.sqrt, Real.exp, fun a b => a ^ b, Real.cos, Real.sin⟩ : Libm ℝ) 1 2 i) ∧
          w1 = v0 * Real.sin (ropeAngle
              (⟨Real.sqrt, Real.exp, fun a b => a ^ b, Real.cos, Real.sin⟩ : Libm ℝ) 1 2 i) +
            v1 * Real.cos (ropeAngle
              (⟨Real.sqrt, Real.exp, fun a b => a ^ b, Real.cos, Real.sin⟩ : Libm ℝ) 1 2 i) ∧
          w0 ^ 2 + w1 ^ 2 = v0 ^ 2 + v1 ^ 2) ∧
        (i < 2 →
          ∃ v0 v1 w0 w1 : ℝ, load ropeMem ((⟨Buf.key_cache, 0⟩ : Ptr Buf).add i) = some v0 ∧
            load ropeMem ((⟨Buf.key_cache, 0⟩ : Ptr Buf).add (i + 1)) = some v1 ∧
            load m' ((⟨Buf.key_cache, 0⟩ : Ptr Buf).add i) = some w0 ∧
            load m' ((⟨Buf.key_cache, 0⟩ : Ptr Buf).add (i + 1)) = some w1 ∧
            w0 = v0 * Real.cos (ropeAngle
                (⟨Real.sqrt, Real.exp, fun a b => a ^ b, Real.cos, Real.sin⟩ : Libm ℝ) 1 2 i) -
              v1 * Real.sin (ropeAngle
                (⟨Real.sqrt, Real.exp, fun a b => a ^ b, Real.cos, Real.sin⟩ : Libm ℝ) 1 2 i) ∧
            w1 = v0 * Real.sin (ropeAngle
                (⟨Real.sqrt, Real.exp, fun a b => a ^ b, Real.cos, Real.sin⟩ : Libm ℝ) 1 2 i) +
              v1 * Real.cos (ropeAngle
                (⟨Real.sqrt, Real.exp, fun a b => a ^ b, Real.cos, Real.sin⟩ : Libm ℝ) 1 2 i) ∧
            w0 ^ 2 + w1 ^ 2 = v0 ^ 2 + v1 ^ 2) :=
  rope_preserves_pair_norm _ rfl rfl rfl ropeMem ⟨Buf.q, 0⟩ ⟨Buf.key_cache, 0⟩ 1 2 2 2
    (by decide) (by decide)
    (fun j hj => by
      have hj2 : j < 2 := by omega
      interval_cases j <;> simp [InB, Ptr.add, ropeMem, runState])
    (fun c hc _ => by
      have hc1 : c < 1 := by omega
      interval_cases c
      simp [InB, Ptr.add, ropeMem, runState])

/-! ## One attention head -/

section HeadLemmas

variable {α : Type} [LinearOrderedField α]

theorem bind_step {σ τ : Type} {x : Option σ} {f : σ → Option τ} {P : σ → Prop}
    {Q : τ → Prop} (hx : ∃ a, x = some a ∧ P a) (hf : ∀ a, P a → ∃ b, f a = some b ∧ Q b) :
    ∃ b, x.bind f = some b ∧ Q b := by
  obtain ⟨a, rfl, hP⟩ := hx
  exact hf a hP

theorem post_step {σ : Type} {x : Option σ} {P Q : σ → Prop}
    (hx : ∃ a, x = some a ∧ P a) (h : ∀ a, P a → Q a) : ∃ a, x = some a ∧ Q a := by
  obtain ⟨a, ha, hP⟩ := hx
  exact ⟨a, ha, h a hP⟩

theorem attention_head_spec (F : Libm α) (p : TransformerConfig) (m : Mem Buf α)
    (h loff kv_dim kv_mul : Int) (P hs : Nat) (qv : Nat → α) (kval vval : Nat → Nat → α)
    (hmul : kv_mul ≠ 0)
    (hq : ∀ i, i < hs → load m ((⟨Buf.q, h * hs⟩ : Ptr Buf).add i) = some (qv i))
    (hk : ∀ t, t < P + 1 → ∀ i, i < hs → load m ((⟨Buf.key_cache,
      loff + (t : Int) * kv_dim + Int.tdiv h kv_mul * hs⟩ : Ptr Buf).add i) = some (kval t i))
    (hv : ∀ t, t < P + 1 → ∀ i, i < hs → load m ((⟨Buf.value_cache,
      loff + (t : Int) * kv_dim + Int.tdiv h kv_mul * hs⟩ : Ptr Buf).add i) = some (vval t i))
    (hatt : ∀ t, t < P + 1 → InB m ((⟨Buf.att, h * p.seq_len⟩ : Ptr Buf).add t))
    (hxb : ∀ i, i < hs → InB m ((⟨Buf.xb, h * hs⟩ : Ptr Buf).add i)) :
    ∃ m', attention_head F p m h loff P kv_dim kv_mul hs = some m' ∧
      (Frame (region ⟨Buf.att, h * p.seq_len⟩ ((P + 1 : Nat) : Int) ∪
        region ⟨Buf.xb, h * hs⟩ hs) m m' ∧
      (∀ t, t < P + 1 → load m' ((⟨Buf.att, h * p.seq_len⟩ : Ptr Buf).add t) =
        some (softmaxVal F (attScore F qv kval hs) (P + 1) t)) ∧
      (∀ i, i < hs → load m' ((⟨Buf.xb, h * hs⟩ : Ptr Buf).add i) =
        some (∑ t in Finset.range (P + 1),
          softmaxVal F (attScore F qv kval hs) (P + 1) t * vval t i))) := by
  have eP : ((P : Int) + 1) = ((P + 1 : Nat) : Int) := by push_cast; rfl
  have hg : cdiv h kv_mul = some (Int.tdiv h kv_mul) := cdiv_of_ne _ hmul
  unfold attention_head
  simp only [Option.bind_eq_bind, Option.pure_def, eP, Int.toNat_ofNat, hg, Option.some_bind,
    Int.cast_natCast]
  have hbufq : ∀ (W : Set (Ptr Buf)) (a : Mem Buf α), Frame W m a →
      (∀ r, r ∈ W → r.buf = Buf.att ∨ r.buf = Buf.xb) →
      ∀ r : Ptr Buf, r.buf ≠ Buf.att → r.buf ≠ Buf.xb → load a r = load m r := by
    intro W a hF hW r h1 h2
    exact hF.2 r (fun hr => by rcases hW r hr with e | e; exact h1 e; exact h2 e)
  refine bind_step (forLoop_store (P + 1) ⟨Buf.att, h * p.seq_len⟩ _
    (attScore F qv kval hs) m hatt ?_) ?_
  · intro t ht a hF _
    have hsum := forLoop_sum hs
      (fun i score => (load a ((⟨Buf.q, h * hs⟩ : Ptr Buf).add i)).bind fun qi =>
        (load a ((⟨Buf.key_cache, loff + (t : Int) * kv_dim + Int.tdiv h kv_mul * hs⟩ :
          Ptr Buf).add i)).bind fun ki => some (score + qi * ki))
      (fun i => qv i * kval t i) 0 (fun j hj acc => by
        have e1 := hbufq _ a hF (fun r hr => Or.inl hr.1)
          ((⟨Buf.q, h * hs⟩ : Ptr Buf).add j) (by simp [Ptr.add]) (by simp [Ptr.add])
        have e2 := hbufq _ a hF (fun r hr => Or.inl hr.1)
          ((⟨Buf.key_cache, loff + (t : Int) * kv_dim + Int.tdiv h kv_mul * hs⟩ :
            Ptr Buf).add j) (by simp [Ptr.add]) (by simp [Ptr.add])
        simp only [e1, e2, hq j hj, hk t ht j hj, Option.some_bind])
    rw [hsum]
    simp only [Option.some_bind, zero_add, attScore]
  · intro a1 ⟨f1, v1⟩
    refine bind_step (softmax_spec F a1 ⟨Buf.att, h * p.seq_len⟩ (P + 1)
      (attScore F qv kval hs) (by omega) v1) ?_
    intro a2 ⟨f2, v2⟩
    have f12 : Frame (region (⟨Buf.att, h * p.seq_len⟩ : Ptr Buf) ((P + 1 : Nat) : Int)) m a2 :=
      f1.andThen f2
    refine bind_step (forLoop_store hs ⟨Buf.xb, h * hs⟩ _ (fun _ => (0 : α)) a2
      (fun i hi => f12.1.keepsInB (hxb i hi)) (fun i hi a hF _ => rfl)) ?_
    intro a3 ⟨f3, v3⟩
    have f13 : Frame (region ⟨Buf.att, h * p.seq_len⟩ ((P + 1 : Nat) : Int) ∪
        region ⟨Buf.xb, h * hs⟩ hs) m a3 :=
      (f12.mono Set.subset_union_left).andThen (f3.mono Set.subset_union_right)
    have hatt3 : ∀ t, t < P + 1 → load a3 ((⟨Buf.att, h * p.seq_len⟩ : Ptr Buf).add t) =
        some (softmaxVal F (attScore F qv kval hs) (P + 1) t) := by
      intro t ht
      rw [f3.2 _ (not_mem_region_of_buf (by simp [Ptr.add]))]
      exact v2 t ht
    refine post_step (forLoop_inv
      (fun n a => Frame (region (⟨Buf.xb, h * hs⟩ : Ptr Buf) hs) a3 a ∧
        ∀ i, i < hs → load a ((⟨Buf.xb, h * hs⟩ : Ptr Buf).add i) =
          some (∑ t in Finset.range n,
            softmaxVal F (attScore F qv kval hs) (P + 1) t * vval t i))
      (P + 1) _ a3 ⟨Frame.same _ _, fun i hi => by simpa using v3 i hi⟩ ?_) ?_
    · intro t ht a ⟨hF, hval⟩
      have hFm : Frame (region ⟨Buf.att, h * p.seq_len⟩ ((P + 1 : Nat) : Int) ∪
          region ⟨Buf.xb, h * hs⟩ hs) m a := f13.andThen (hF.mono Set.subset_union_right)
      have hla : load a ((⟨Buf.att, h * p.seq_len⟩ : Ptr Buf).add t) =
          some (softmaxVal F (attScore F qv kval hs) (P + 1) t) := by
        rw [hF.2 _ (not_mem_region_of_buf (by simp [Ptr.add]))]
        exact hatt3 t ht
      beta_reduce
      rw [hla, Option.some_bind]
      refine post_step (forLoop_store hs ⟨Buf.xb, h * hs⟩ _
        (fun i => (∑ t' in Finset.range t,
            softmaxVal F (attScore F qv kval hs) (P + 1) t' * vval t' i) +
          softmaxVal F (attScore F qv kval hs) (P + 1) t * vval t i) a
        (fun i hi => hFm.1.keepsInB (hxb i hi)) ?_) ?_
      · intro i hi c hFc _
        have e1 : load c ((⟨Buf.xb, h * hs⟩ : Ptr Buf).add i) = some (∑ t' in Finset.range t,
            softmaxVal F (attScore F qv kval hs) (P + 1) t' * vval t' i) := by
          rw [hFc.2 _ (fun hm => by have := hm.2.2; simp only [Ptr.add_off] at this; omega)]
          exact hval i hi
        have e2 : load c ((⟨Buf.value_cache, loff + (t : Int) * kv_dim +
            Int.tdiv h kv_mul * hs⟩ : Ptr Buf).add i) = some (vval t i) := by
          rw [hFc.2 _ (not_mem_region_of_buf (by simp [Ptr.add])),
            hbufq _ a hFm (fun r hr => by
              rcases hr with hr | hr
              · exact Or.inl hr.1
              · exact Or.inr hr.1) _ (by simp [Ptr.add]) (by simp [Ptr.add])]
          exact hv t ht i hi
        rw [e1, e2]
        rfl
      · intro b ⟨fb, vb⟩
        refine ⟨hF.andThen fb, fun i hi => ?_⟩
        rw [vb i hi, Finset.sum_range_succ]
    · intro m' ⟨f4, v4⟩
      refine ⟨f13.andThen (f4.mono Set.subset_union_right), fun t ht => ?_, v4⟩
      rw [f4.2 _ (not_mem_region_of_buf (by simp [Ptr.add]))]
      exact hatt3 t ht

/-- A loop that returned ran every iteration, from a state related to the
initial one. -/
theorem forLoop_iter {σ : Type} (R : σ → σ → Prop) (hrefl : ∀ a, R a a)
    (htrans : ∀ a b c, R a b → R b c → R a c) (n : Nat) (body : Nat → σ → Option σ)
    (hb : ∀ k, k < n → ∀ a b, body k a = some b → R a b) (s s' : σ)
    (h : forLoop n body s = some s') : ∀ k, k < n → ∃ a b, R s a ∧ body k a = some b := by
  induction n generalizing s' with
  | zero => intro k hk; exact absurd hk (Nat.not_lt_zero k)
  | succ n ih =>
    rw [forLoop_succ] at h
    obtain ⟨a, ha, hab⟩ := Option.bind_eq_some.mp h
    intro k hk
    rcases Nat.lt_succ_iff_lt_or_eq.mp hk with hlt | rfl
    · exact ih (fun j hj => hb j (Nat.lt_succ_of_lt hj)) a ha k hlt
    · exact ⟨a, s', forLoop_rel R hrefl htrans k body
        (fun j hj => hb j (Nat.lt_succ_of_lt hj)) s a ha, hab⟩

theorem forLoop_sameLen {ι : Type} [DecidableEq ι] (n : Nat)
    (body : Nat → Mem ι α → Option (Mem ι α))
    (hb : ∀ k, k < n → ∀ a b, body k a = some b → SameLen a b) (m m' : Mem ι α)
    (h : forLoop n body m = some m') : SameLen m m' :=
  forLoop_rel SameLen SameLen.self (fun _ _ _ => SameLen.chain) n body hb m m' h

/-- A head that returned was ready. -/
theorem attention_head_ready {F : Libm α} {p : TransformerConfig} {m m' : Mem Buf α}
    {h loff kv_dim kv_mul : Int} {P hs : Nat}
    (hh : attention_head F p m h loff P kv_dim kv_mul hs = some m') :
    headReady p m h loff kv_dim kv_mul P hs := by
  have eP : ((P : Int) + 1) = ((P + 1 : Nat) : Int) := by push_cast; rfl
  unfold attention_head at hh
  simp only [Option.bind_eq_bind, Option.pure_def, eP, Int.toNat_ofNat, Option.bind_eq_some]
    at hh
  obtain ⟨a1, h1, a2, h2, a3, h3, h4⟩ := hh
  have b1 : ∀ t, t < P + 1 → ∀ a b : Mem Buf α, ((cdiv h kv_mul).bind fun g =>
      (forLoop hs (fun i score =>
        (load a ((⟨Buf.q, h * hs⟩ : Ptr Buf).add i)).bind fun qi =>
          (load a ((⟨Buf.key_cache, loff + (t : Int) * kv_dim + g * hs⟩ : Ptr Buf).add i)).bind
            fun ki => some (score + qi * ki)) (0 : α)).bind fun score =>
        store a ((⟨Buf.att, h * p.seq_len⟩ : Ptr Buf).add t)
          (score / F.sqrtf (((hs : Nat) : Int) : α))) = some b → SameLen a b := by
    intro t _ a b hab
    simp only [Option.bind_eq_some] at hab
    obtain ⟨_, _, _, _, hs'⟩ := hab
    exact store_sameLen hs'
  have it1 := forLoop_iter SameLen SameLen.self (fun _ _ _ => SameLen.chain) _ _ b1 m a1 h1
  have s1 : SameLen m a1 := forLoop_sameLen _ _ b1 m a1 h1
  have s2 : SameLen a1 a2 := (softmax_frame h2).1
  have s3 : SameLen a2 a3 := (memset0_frame h3).1
  have b3 : ∀ i, i < hs → ∀ a b : Mem Buf α,
      store a ((⟨Buf.xb, h * hs⟩ : Ptr Buf).add i) (0 : α) = some b → SameLen a b :=
    fun i _ a b hab => store_sameLen hab
  have it3 := forLoop_iter SameLen SameLen.self (fun _ _ _ => SameLen.chain) _ _ b3 a2 a3 h3
  have b4 : ∀ t, t < P + 1 → ∀ a b : Mem Buf α, ((cdiv h kv_mul).bind fun g =>
      (load a ((⟨Buf.att, h * p.seq_len⟩ : Ptr Buf).add t)).bind fun w =>
        forLoop hs (fun i m =>
          (load m ((⟨Buf.xb, h * hs⟩ : Ptr Buf).add i)).bind fun xbi =>
            (load m ((⟨Buf.value_cache, loff + (t : Int) * kv_dim + g * hs⟩ :
              Ptr Buf).add i)).bind fun vi =>
              store m ((⟨Buf.xb, h * hs⟩ : Ptr Buf).add i) (xbi + w * vi)) a) = some b →
      SameLen a b := by
    intro t _ a b hab
    simp only [Option.bind_eq_some] at hab
    obtain ⟨_, _, _, _, hl⟩ := hab
    refine forLoop_sameLen _ _ (fun i _ c d hcd => ?_) a b hl
    simp only [Option.bind_eq_some] at hcd
    obtain ⟨_, _, _, _, hs'⟩ := hcd
    exact store_sameLen hs'
  have it4 := forLoop_iter SameLen SameLen.self (fun _ _ _ => SameLen.chain) _ _ b4 a3 m' h4
  have s13 : SameLen m a3 := (s1.chain s2).chain s3
  refine ⟨?_, ?_, ?_⟩
  · obtain ⟨a, b, _, hab⟩ := it1 0 (Nat.succ_pos P)
    simp only [Option.bind_eq_some] at hab
    obtain ⟨g, hg, _⟩ := hab
    intro h0
    simp [cdiv, h0] at hg
  · intro i hi
    constructor
    · obtain ⟨a, b, hma, hab⟩ := it1 0 (Nat.succ_pos P)
      simp only [Option.bind_eq_some] at hab
      obtain ⟨g, hg, sc, hsc, _⟩ := hab
      obtain ⟨x, y, _, hxy⟩ := forLoop_iter (fun _ _ => True) (fun _ => trivial)
        (fun _ _ _ _ _ => trivial) _ _ (fun _ _ _ _ _ => trivial) _ _ hsc i hi
      simp only [Option.bind_eq_some] at hxy
      obtain ⟨qi, hqi, _⟩ := hxy
      exact hma.symm.keepsInB (inb_of_load hqi)
    · obtain ⟨a, b, hma, hab⟩ := it3 i hi
      exact (s1.chain (s2.chain hma)).symm.keepsInB (store_eq hab).1
  · intro t ht
    obtain ⟨a, b, hma, hab⟩ := it1 t ht
    simp only [Option.bind_eq_some] at hab
    obtain ⟨g, hg, sc, hsc, hst⟩ := hab
    have hg' : g = Int.tdiv h kv_mul := by
      unfold cdiv at hg
      split at hg
      · cases hg
      · cases hg; rfl
    subst hg'
    refine ⟨hma.symm.keepsInB (store_eq hst).1, fun i hi => ⟨?_, ?_⟩⟩
    · obtain ⟨x, y, _, hxy⟩ := forLoop_iter (fun _ _ => True) (fun _ => trivial)
        (fun _ _ _ _ _ => trivial) _ _ (fun _ _ _ _ _ => trivial) _ _ hsc i hi
      simp only [Option.bind_eq_some] at hxy
      obtain ⟨qi, _, ki, hki, _⟩ := hxy
      exact hma.symm.keepsInB (inb_of_load hki)
    · obtain ⟨c, d, hmc, hcd⟩ := it4 t ht
      simp only [Option.bind_eq_some] at hcd
      obtain ⟨g', hg2, w, _, hl⟩ := hcd
      have hg'' : g' = Int.tdiv h kv_mul := by
        unfold cdiv at hg2
        split at hg2
        · cases hg2
        · cases hg2; rfl
      subst hg''
      obtain ⟨x, y, hcx, hxy⟩ := forLoop_iter SameLen SameLen.self (fun _ _ _ => SameLen.chain)
        _ _ (fun i _ c d hcd => by
          simp only [Option.bind_eq_some] at hcd
          obtain ⟨_, _, _, _, hs'⟩ := hcd
          exact store_sameLen hs') _ _ hl i hi
      simp only [Option.bind_eq_some] at hxy
      obtain ⟨_, _, vi, hvi, _⟩ := hxy
      exact (s13.chain (hmc.chain hcx)).symm.keepsInB (inb_of_load hvi)

theorem headReady_sameLen {p : TransformerConfig} {m a : Mem Buf α}
    {h loff kv_dim kv_mul : Int} {P hs : Nat} (hs' : SameLen m a)
    (hr : headReady p m h loff kv_dim kv_mul P hs) : headReady p a h loff kv_dim kv_mul P hs :=
  ⟨hr.1, fun i hi => ⟨hs'.keepsInB (hr.2.1 i hi).1, hs'.keepsInB (hr.2.1 i hi).2⟩,
    fun t ht => ⟨hs'.keepsInB (hr.2.2 t ht).1, fun i hi =>
      ⟨hs'.keepsInB ((hr.2.2 t ht).2 i hi).1, hs'.keepsInB ((hr.2.2 t ht).2 i hi).2⟩⟩⟩

theorem load_getD {ι : Type} [DecidableEq ι] {m : Mem ι α} {r : Ptr ι} (h : InB m r) :
    load m r = some ((load m r).getD 0) := by
  obtain ⟨v, hv⟩ := load_of_inb h
  rw [hv]; rfl

/-- A ready head returns, changes only `headWrites` and leaves there the
attention weights and the output computed from `q` and the two caches. -/
theorem attention_head_run (F : Libm α) (p : TransformerConfig) (m : Mem Buf α)
    (h loff kv_dim kv_mul : Int) (P hs : Nat)
    (hr : headReady p m h loff kv_dim kv_mul P hs) :
    ∃ m', attention_head F p m h loff P kv_dim kv_mul hs = some m' ∧
      (Frame (headWrites p h P hs) m m' ∧
      (∀ t, t < P + 1 → load m' ((⟨Buf.att, h * p.seq_len⟩ : Ptr Buf).add t) =
        some (headAtt F m h loff kv_dim kv_mul P hs t)) ∧
      (∀ i, i < hs → load m' ((⟨Buf.xb, h * hs⟩ : Ptr Buf).add i) =
        some (headOut F m h loff kv_dim kv_mul P hs i))) :=
  attention_head_spec F p m h loff kv_dim kv_mul P hs (headQ m h hs)
    (headKV Buf.key_cache m h loff kv_dim kv_mul hs)
    (headKV Buf.value_cache m h loff kv_dim kv_mul hs) hr.1
    (fun i hi => load_getD (hr.2.1 i hi).1)
    (fun t ht i hi => load_getD ((hr.2.2 t ht).2 i hi).1)
    (fun t ht i hi => load_getD ((hr.2.2 t ht).2 i hi).2)
    (fun t ht => (hr.2.2 t ht).1)
    (fun i hi => (hr.2.1 i hi).2)

/-- What a head computes depends on `q` and the caches only. -/
theorem headAtt_congr (F : Libm α) {m a : Mem Buf α}
    (hq : ∀ r : Ptr Buf, r.buf ≠ Buf.att → r.buf ≠ Buf.xb → load a r = load m r)
    (h loff kv_dim kv_mul : Int) (P hs : Nat) :
    headAtt F a h loff kv_dim kv_mul P hs = headAtt F m h loff kv_dim kv_mul P hs ∧
    headOut F a h loff kv_dim kv_mul P hs = headOut F m h loff kv_dim kv_mul P hs := by
  have e1 : headQ a h hs = headQ m h hs := by
    funext i
    simp only [headQ]
    rw [hq _ (by simp [Ptr.add]) (by simp [Ptr.add])]
  have e2 : headKV Buf.key_cache a h loff kv_dim kv_mul hs =
      headKV Buf.key_cache m h loff kv_dim kv_mul hs := by
    funext t i
    simp only [headKV]
    rw [hq _ (by simp [Ptr.add]) (by simp [Ptr.add])]
  have e3 : headKV Buf.value_cache a h loff kv_dim kv_mul hs =
      headKV Buf.value_cache m h loff kv_dim kv_mul hs := by
    funext t i
    simp only [headKV]
    rw [hq _ (by simp [Ptr.add]) (by simp [Ptr.add])]
  have e4 : headAtt F a h loff kv_dim kv_mul P hs = headAtt F m h loff kv_dim kv_mul P hs := by
    funext t
    simp only [headAtt, e1, e2]
  refine ⟨e4, ?_⟩
  funext i
  simp only [headOut, e4, e3]

theorem headWrites_buf {p : TransformerConfig} {h : Int} {P hs : Nat} {r : Ptr Buf}
    (hr : r ∈ headWrites p h P hs) : r.buf = Buf.att ∨ r.buf = Buf.xb := by
  rcases hr with hr | hr
  · exact Or.inl hr.1
  · exact Or.inr hr.1

/-- Different heads write different elements. -/
theorem headWrites_disjoint {p : TransformerConfig} {P hs : Nat} (hP : (P : Int) < p.seq_len)
    {h h' : Nat} (hne : h ≠ h') {r : Ptr Buf} (hr : r ∈ headWrites p h P hs)
    (hr' : r ∈ headWrites p h' P hs) : False := by
  have key : ∀ (a b : Nat) (len n : Int), 0 ≤ len → n ≤ len → a < b →
      ∀ o : Int, (a : Int) * len ≤ o → o < a * len + n → (b : Int) * len ≤ o → False := by
    intro a b len n hlen hn hab o h1 h2 h3
    have : ((a : Int) + 1) * len ≤ (b : Int) * len :=
      mul_le_mul_of_nonneg_right (by exact_mod_cast hab) hlen
    have e : ((a : Int) + 1) * len = a * len + len := by ring
    omega
  rcases Nat.lt_or_gt_of_ne hne with hlt | hlt
  · rcases hr with ⟨hb, h1, h2⟩ | ⟨hb, h1, h2⟩ <;> rcases hr' with ⟨hb', h1', h2'⟩ | ⟨hb', h1', h2'⟩
    · exact key h h' p.seq_len _ (by omega) (by push_cast; omega) hlt _ h1 h2 h1'
    · rw [hb] at hb'; cases hb'
    · rw [hb] at hb'; cases hb'
    · exact key h h' hs _ (by omega) le_rfl hlt _ h1 h2 h1'
  · rcases hr with ⟨hb, h1, h2⟩ | ⟨hb, h1, h2⟩ <;> rcases hr' with ⟨hb', h1', h2'⟩ | ⟨hb', h1', h2'⟩
    · exact key h' h p.seq_len _ (by omega) (by push_cast; omega) hlt _ h1' h2' h1
    · rw [hb] at hb'; cases hb'
    · rw [hb] at hb'; cases hb'
    · exact key h' h hs _ (by omega) le_rfl hlt _ h1' h2' h1

/-- The heads of a duplicate-free list, all ready, run to the end; each leaves
its attention weights and its output as computed from the initial state. -/
theorem heads_spec (F : Libm α) (p : TransformerConfig) (loff kv_dim kv_mul : Int)
    (P hs : Nat) (hP : (P : Int) < p.seq_len) (order : List Nat) (hnd : order.Nodup)
    (m : Mem Buf α) (hready : ∀ h : Nat, h ∈ order → headReady p m h loff kv_dim kv_mul P hs) :
    ∃ m', headsInOrder F p m order loff P kv_dim kv_mul hs = some m' ∧
      Frame (headsWrites p order P hs) m m' ∧
      ∀ h : Nat, h ∈ order →
        (∀ t, t < P + 1 → load m' ((⟨Buf.att, (h : Int) * p.seq_len⟩ : Ptr Buf).add t) =
          some (headAtt F m h loff kv_dim kv_mul P hs t)) ∧
        (∀ i, i < hs → load m' ((⟨Buf.xb, (h : Int) * hs⟩ : Ptr Buf).add i) =
          some (headOut F m h loff kv_dim kv_mul P hs i)) := by
  induction order generalizing m with
  | nil =>
    exact ⟨m, rfl, Frame.same _ _, fun h hh => absurd hh (List.not_mem_nil h)⟩
  | cons h0 rest ih =>
    obtain ⟨a, ha, fa, va, xa⟩ := attention_head_run F p m h0 loff kv_dim kv_mul P hs
      (hready h0 (List.mem_cons_self _ _))
    have hnd' := List.nodup_cons.mp hnd
    obtain ⟨m', hm', fm', vm'⟩ := ih hnd'.2 a
      (fun h hh => headReady_sameLen fa.1 (hready h (List.mem_cons_of_mem _ hh)))
    have hkeep : ∀ r : Ptr Buf, r.buf ≠ Buf.att → r.buf ≠ Buf.xb → load a r = load m r :=
      fun r h1 h2 => fa.2 r (fun hr => by
        rcases headWrites_buf hr with e | e
        · exact h1 e
        · exact h2 e)
    refine ⟨m', ?_, ?_, ?_⟩
    · show (attention_head F p m h0 loff P kv_dim kv_mul hs).bind _ = _
      rw [ha]; exact hm'
    · have s1 : headWrites p h0 P hs ⊆ headsWrites p (h0 :: rest) P hs :=
        fun r hr => ⟨h0, List.mem_cons_self _ _, hr⟩
      have s2 : headsWrites p rest P hs ⊆ headsWrites p (h0 :: rest) P hs := by
        intro r hr
        obtain ⟨h, hh, hr⟩ := hr
        exact ⟨h, List.mem_cons_of_mem _ hh, hr⟩
      exact (fa.mono s1).andThen (fm'.mono s2)
    · intro h hh
      rcases List.mem_cons.mp hh with rfl | hh
      · have hout : ∀ r, r ∈ headWrites p h P hs → load m' r = load a r := by
          intro r hr
          refine fm'.2 r (fun ⟨h', hh', hr'⟩ => ?_)
          exact headWrites_disjoint hP (fun e => hnd'.1 (by rw [e]; exact hh')) hr hr'
        refine ⟨fun t ht => ?_, fun i hi => ?_⟩
        · rw [hout _ (Or.inl (add_mem_region _ (by omega) (by exact_mod_cast ht)))]
          exact va t ht
        · rw [hout _ (Or.inr (add_mem_region _ (by omega) (by exact_mod_cast hi)))]
          exact xa i hi
      · obtain ⟨e1, e2⟩ := headAtt_congr F hkeep h loff kv_dim kv_mul P hs
        rw [← e1, ← e2]
        exact vm' h hh

/-- A head that is not ready stops the run. -/
theorem heads_none (F : Libm α) (p : TransformerConfig) (loff kv_dim kv_mul : Int)
    (P hs : Nat) (order : List Nat) (m : Mem Buf α) (h : Nat) (hh : h ∈ order)
    (hnot : ¬ headReady p m h loff kv_dim kv_mul P hs) :
    headsInOrder F p m order loff P kv_dim kv_mul hs = none := by
  induction order generalizing m with
  | nil => exact absurd hh (List.not_mem_nil h)
  | cons h0 rest ih =>
    show (attention_head F p m h0 loff P kv_dim kv_mul hs).bind _ = _
    cases ha : attention_head F p m h0 loff P kv_dim kv_mul hs with
    | none => rfl
    | some a =>
      rw [Option.some_bind]
      rcases List.mem_cons.mp hh with rfl | hh'
      · exact absurd (attention_head_ready ha) hnot
      · exact ih a hh' (fun hr => hnot
          (headReady_sameLen (attention_head_frame ha).1.symm hr))

theorem headsInOrder_snoc (F : Libm α) (p : TransformerConfig) (loff pos kv_dim kv_mul hs : Int)
    (order : List Nat) (h : Nat) (m : Mem Buf α) :
    headsInOrder F p m (order ++ [h]) loff pos kv_dim kv_mul hs =
      (headsInOrder F p m order loff pos kv_dim kv_mul hs).bind fun m =>
        attention_head F p m h loff pos kv_dim kv_mul hs := by
  induction order generalizing m with
  | nil => simp [headsInOrder]
  | cons h0 rest ih => simp [headsInOrder, ih, Option.bind_assoc]

/-- The head loop of `forward` takes the heads in the order `0, 1, ...`. -/
theorem forLoop_heads (F : Libm α) (p : TransformerConfig) (loff pos kv_dim kv_mul hs : Int)
    (n : Nat) (m : Mem Buf α) :
    forLoop n (fun h m => attention_head F p m h loff pos kv_dim kv_mul hs) m =
      headsInOrder F p m (List.range n) loff pos kv_dim kv_mul hs := by
  induction n with
  | zero => rfl
  | succ n ih => rw [forLoop_succ, ih, List.range_succ, headsInOrder_snoc]

theorem mem_ext {ι : Type} {a b : Mem ι α} (h : ∀ r, load a r = load b r) : a = b := by
  funext buf
  refine List.ext_getElem? (fun n => ?_)
  have := h ⟨buf, n⟩
  simpa [load] using this

end HeadLemmas

/-! ## The head loop -/

section HeadOrder

variable {α : Type} [LinearOrderedField α]

/-- A head that returns changed only `headWrites`. -/
theorem attention_head_writes {F : Libm α} {p : TransformerConfig} {a a' : Mem Buf α}
    {h loff kv_dim kv_mul : Int} {P hs : Nat}
    (hh : attention_head F p a h loff P kv_dim kv_mul hs = some a') :
    Frame (headWrites p h P hs) a a' := by
  obtain ⟨b, hb, fb, -⟩ := attention_head_run F p a h loff kv_dim kv_mul P hs
    (attention_head_ready hh)
  rw [hh] at hb
  cases hb
  exact fb

/-- Two runs of a head from states with the same buffer lengths and the same
`q` and caches both stop or both return, with the same `headWrites`. -/
theorem attention_head_reads (F : Libm α) (p : TransformerConfig) (a b : Mem Buf α)
    (h loff kv_dim kv_mul : Int) (P hs : Nat) (hl : SameLen a b)
    (hq : ∀ r : Ptr Buf, r.buf ≠ Buf.att → r.buf ≠ Buf.xb → load a r = load b r) :
    (attention_head F p a h loff P kv_dim kv_mul hs = none ∧
      attention_head F p b h loff P kv_dim kv_mul hs = none) ∨
    ∃ a' b', attention_head F p a h loff P kv_dim kv_mul hs = some a' ∧
      attention_head F p b h loff P kv_dim kv_mul hs = some b' ∧
      Agree (headWrites p h P hs) a' b' := by
  by_cases hr : headReady p a h loff kv_dim kv_mul P hs
  · obtain ⟨a', ha, -, va, xa⟩ := attention_head_run F p a h loff kv_dim kv_mul P hs hr
    obtain ⟨b', hb, -, vb, xb⟩ := attention_head_run F p b h loff kv_dim kv_mul P hs
      (headReady_sameLen hl hr)
    obtain ⟨e1, e2⟩ := headAtt_congr F hq h loff kv_dim kv_mul P hs
    refine Or.inr ⟨a', b', ha, hb, ?_⟩
    intro r hr
    rcases hr with hr | hr
    · obtain ⟨t, ht, rfl⟩ := exists_of_mem_region hr
      rw [va t (by exact_mod_cast ht), vb t (by exact_mod_cast ht), e1]
    · obtain ⟨i, hi, rfl⟩ := exists_of_mem_region hr
      rw [xa i (by exact_mod_cast hi), xb i (by exact_mod_cast hi), e2]
  · refine Or.inl ⟨?_, ?_⟩
    · cases ha : attention_head F p a h loff P kv_dim kv_mul hs with
      | none => rfl
      | some a' => exact absurd (attention_head_ready ha) hr
    · cases hb : attention_head F p b h loff P kv_dim kv_mul hs with
      | none => rfl
      | some b' => exact absurd (headReady_sameLen hl.symm (attention_head_ready hb)) hr

theorem idx_bound {a n len o : Int} (ha : 0 ≤ a) (han : a < n) (ho : 0 ≤ o) (hol : o < len) :
    0 ≤ a * len + o ∧ a * len + o < n * len := by
  have h1 : 0 ≤ a * len := mul_nonneg ha (by omega)
  have h2 : (a + 1) * len ≤ n * len := mul_le_mul_of_nonneg_right (by omega) (by omega)
  have e : (a + 1) * len = a * len + len := by ring
  omega

/-- In a state with the buffers of `malloc_run_state`, for a configuration with
positive fields in which `n_heads` divides `dim` and `n_kv_heads` divides
`n_heads`, every head is ready at every layer and position. -/
theorem stage_ready (p : TransformerConfig) (m : Mem Buf α)
    (l pos head_size kv_mul kv_dim : Int)
    (hdim : 0 < p.dim) (hnh : 0 < p.n_heads) (hnkv : 0 < p.n_kv_heads)
    (hd : p.n_heads ∣ p.dim) (hg : p.n_kv_heads ∣ p.n_heads)
    (hhs : cdiv p.dim p.n_heads = some head_size)
    (hkm : cdiv p.n_heads p.n_kv_heads = some kv_mul)
    (hkv : cdiv (p.dim * p.n_kv_heads) p.n_heads = some kv_dim)
    (hl0 : 0 ≤ l) (hl1 : l < p.n_layers) (hp0 : 0 ≤ pos) (hp1 : pos < p.seq_len)
    (hshape : RunStateShape p kv_dim m) :
    ∀ h : Nat, (h : Int) < p.n_heads →
      headReady p m h (l * p.seq_len * kv_dim) kv_dim kv_mul pos.toNat head_size.toNat := by
  obtain ⟨hs, k, hs0, hk0, hdimeq, hnheq, e1, e2, e3⟩ := config_shape p hdim hnh hnkv hd hg
  obtain rfl : hs = head_size := by rw [e1] at hhs; exact Option.some.inj hhs
  obtain rfl : k = kv_mul := by rw [e2] at hkm; exact Option.some.inj hkm
  obtain rfl : p.n_kv_heads * hs = kv_dim := by rw [e3] at hkv; exact Option.some.inj hkv
  intro h hh
  have hg0 : 0 ≤ Int.tdiv h k := Int.tdiv_nonneg (by omega) hk0.le
  have hg1 : Int.tdiv h k < p.n_kv_heads := by
    rw [Int.tdiv_eq_ediv (by omega) hk0.le]
    exact Int.ediv_lt_of_lt_mul hk0 (by rw [← hnheq]; exact hh)
  have ehs : ((hs.toNat : Nat) : Int) = hs := Int.toNat_of_nonneg hs0.le
  have hkc : ∀ t : Nat, t < pos.toNat + 1 → ∀ i : Nat, i < hs.toNat →
      0 ≤ l * p.seq_len * (p.n_kv_heads * hs) + (t : Int) * (p.n_kv_heads * hs) +
        Int.tdiv h k * hs + i ∧
      l * p.seq_len * (p.n_kv_heads * hs) + (t : Int) * (p.n_kv_heads * hs) +
        Int.tdiv h k * hs + i < p.n_layers * p.seq_len * (p.n_kv_heads * hs) := by
    intro t ht i hi
    have b1 := idx_bound hg0 hg1 (show (0 : Int) ≤ i by omega) (show (i : Int) < hs by omega)
    have b2 := idx_bound (show (0 : Int) ≤ t by omega) (show (t : Int) < p.seq_len by omega)
      b1.1 b1.2
    have b3 := idx_bound hl0 hl1 b2.1 b2.2
    have e : l * p.seq_len * (p.n_kv_heads * hs) + (t : Int) * (p.n_kv_heads * hs) +
        Int.tdiv h k * hs + i =
        l * (p.seq_len * (p.n_kv_heads * hs)) +
          ((t : Int) * (p.n_kv_heads * hs) + (Int.tdiv h k * hs + i)) := by ring
    have e' : p.n_layers * p.seq_len * (p.n_kv_heads * hs) =
        p.n_layers * (p.seq_len * (p.n_kv_heads * hs)) := by ring
    rw [e, e']
    exact b3
  refine ⟨hk0.ne', fun i hi => ?_, fun t ht => ⟨?_, fun i hi => ?_⟩⟩
  · have b := idx_bound (show (0 : Int) ≤ h by omega) hh (show (0 : Int) ≤ i by omega)
      (show (i : Int) < hs by omega)
    simp only [InB, Ptr.add_off, Ptr.add_buf, ehs, hshape.q, hshape.xb, hdimeq]
    exact ⟨b, b⟩
  · have b := idx_bound (show (0 : Int) ≤ h by omega) hh (show (0 : Int) ≤ t by omega)
      (show (t : Int) < p.seq_len by omega)
    simp only [InB, Ptr.add_off, Ptr.add_buf, hshape.att]
    exact b
  · simp only [InB, Ptr.add_off, Ptr.add_buf, ehs, hshape.key_cache, hshape.value_cache]
    exact ⟨hkc t ht i hi, hkc t ht i hi⟩

/-- C17. The head loop of `forward` at a position `P < seq_len`, for heads of
`hs` elements (any `loff`, `kv_dim`, `kv_mul`, in particular those `forward`
passes).  Distinct heads `h ≠ h'` write disjoint elements, head `h` changing
only `att[h*seq_len .. h*seq_len + P]` and `xb[h*hs .. (h+1)*hs - 1]`; what a
head writes, and whether it returns, does not depend on the contents of `att`
and `xb`, the only buffers the heads write; running the heads in the order of
any permutation of `0, ..., n_heads - 1` gives the result of the loop of
`forward`.  When every head is ready (`kv_mul ≠ 0` and its slices of `q`, `xb`,
`att` and the caches lie inside the buffers) both runs return, with the same
state, which differs from the initial one only in what the heads write and
holds, for every head, the attention weights and the output computed from the
initial `q` and caches.  Every head is ready for a configuration with positive
fields in which `n_heads` divides `dim` and `n_kv_heads` divides `n_heads`, with
the head size, `kv_mul`, `kv_dim` and layer offset of `forward`, in a state with
the buffers of `malloc_run_state`. -/
theorem heads_order_independent (F : Libm α) (p : TransformerConfig) (m : Mem Buf α)
    (loff kv_dim kv_mul : Int) (P hs : Nat) (hP : (P : Int) < p.seq_len)
    (order : List Nat) (hperm : order.Perm (List.range p.n_heads.toNat)) :
    (∀ h h' : Nat, h ≠ h' → ∀ r, r ∈ headWrites p h P hs → r ∉ headWrites p h' P hs) ∧
    (∀ (h : Nat) (a a' : Mem Buf α),
      attention_head F p a h loff P kv_dim kv_mul hs = some a' →
        Frame (headWrites p h P hs) a a') ∧
    (∀ (h : Nat) (a b : Mem Buf α), SameLen a b →
      (∀ r : Ptr Buf, r.buf ≠ Buf.att → r.buf ≠ Buf.xb → load a r = load b r) →
      (attention_head F p a h loff P kv_dim kv_mul hs = none ∧
        attention_head F p b h loff P kv_dim kv_mul hs = none) ∨
      ∃ a' b', attention_head F p a h loff P kv_dim kv_mul hs = some a' ∧
        attention_head F p b h loff P kv_dim kv_mul hs = some b' ∧
        Agree (headWrites p h P hs) a' b') ∧
    headsInOrder F p m order loff P kv_dim kv_mul hs =
      forLoop p.n_heads.toNat
        (fun h m => attention_head F p m h loff P kv_dim kv_mul hs) m ∧
    ((∀ h : Nat, h < p.n_heads.toNat → headReady p m h loff kv_dim kv_mul P hs) →
      ∃ m', forLoop p.n_heads.toNat
          (fun h m => attention_head F p m h loff P kv_dim kv_mul hs) m = some m' ∧
        headsInOrder F p m order loff P kv_dim kv_mul hs = some m' ∧
        Frame (headsWrites p (List.range p.n_heads.toNat) P hs) m m' ∧
        ∀ h : Nat, h < p.n_heads.toNat →
          (∀ t, t < P + 1 → load m' ((⟨Buf.att, (h : Int) * p.seq_len⟩ : Ptr Buf).add t) =
            some (headAtt F m h loff kv_dim kv_mul P hs t)) ∧
          (∀ i, i < hs → load m' ((⟨Buf.xb, (h : Int) * hs⟩ : Ptr Buf).add i) =
            some (headOut F m h loff kv_dim kv_mul P hs i))) ∧
    (∀ l : Int, 0 < p.dim → 0 < p.n_heads → 0 < p.n_kv_heads → p.n_heads ∣ p.dim →
      p.n_kv_heads ∣ p.n_heads → cdiv p.dim p.n_heads = some (hs : Int) →
      cdiv p.n_heads p.n_kv_heads = some kv_mul →
      cdiv (p.dim * p.n_kv_heads) p.n_heads = some kv_dim →
      0 ≤ l → l < p.n_layers → loff = l * p.seq_len * kv_dim → RunStateShape p kv_dim m →
      ∀ h : Nat, h < p.n_heads.toNat → headReady p m h loff kv_dim kv_mul P hs) := by
  have heq : headsInOrder F p m order loff P kv_dim kv_mul hs =
      forLoop p.n_heads.toNat
        (fun h m => attention_head F p m h loff P kv_dim kv_mul hs) m := by
    rw [forLoop_heads]
    by_cases hr : ∀ h : Nat, h ∈ order → headReady p m h loff kv_dim kv_mul P hs
    · obtain ⟨m1, h1, f1, v1⟩ := heads_spec F p loff kv_dim kv_mul P hs hP order
        (hperm.nodup_iff.mpr (List.nodup_range _)) m hr
      obtain ⟨m2, h2, f2, v2⟩ := heads_spec F p loff kv_dim kv_mul P hs hP
        (List.range p.n_heads.toNat) (List.nodup_range _) m
        (fun h hh => hr h (hperm.mem_iff.mpr hh))
      rw [h1, h2]
      congr 1
      refine mem_ext (fun r => ?_)
      by_cases hw : r ∈ headsWrites p order P hs
      · obtain ⟨h, hh, hw⟩ := hw
        rcases hw with hw | hw
        · obtain ⟨t, ht, rfl⟩ := exists_of_mem_region hw
          rw [(v1 h hh).1 t (by exact_mod_cast ht),
            (v2 h (hperm.mem_iff.mp hh)).1 t (by exact_mod_cast ht)]
        · obtain ⟨i, hi, rfl⟩ := exists_of_mem_region hw
          rw [(v1 h hh).2 i (by exact_mod_cast hi),
            (v2 h (hperm.mem_iff.mp hh)).2 i (by exact_mod_cast hi)]
      · have hw' : r ∉ headsWrites p (List.range p.n_heads.toNat) P hs := by
          intro hx
          obtain ⟨h, hh, hx⟩ := hx
          exact hw ⟨h, hperm.mem_iff.mpr hh, hx⟩
        rw [f1.2 r hw, f2.2 r hw']
    · push_neg at hr
      obtain ⟨h, hh, hnot⟩ := hr
      rw [heads_none F p loff kv_dim kv_mul P hs order m h hh hnot,
        heads_none F p loff kv_dim kv_mul P hs _ m h (hperm.mem_iff.mp hh) hnot]
  refine ⟨fun h h' hne r hr hr' => headWrites_disjoint hP hne hr hr',
    fun h a a' hh => attention_head_writes hh,
    fun h a b hl hq => attention_head_reads F p a b h loff kv_dim kv_mul P hs hl hq, heq, ?_, ?_⟩
  · intro hr
    obtain ⟨m2, h2, f2, v2⟩ := heads_spec F p loff kv_dim kv_mul P hs hP
      (List.range p.n_heads.toNat) (List.nodup_range _) m
      (fun h hh => hr h (List.mem_range.mp hh))
    have h3 : forLoop p.n_heads.toNat
        (fun h m => attention_head F p m h loff P kv_dim kv_mul hs) m = some m2 := by
      rw [forLoop_heads]; exact h2
    exact ⟨m2, h3, heq.trans h3, f2, fun h hh => v2 h (List.mem_range.mpr hh)⟩
  · intro l hdim hnh hnkv hd hg hhs hkm hkv hl0 hl1 hloff hshape h hh
    have := stage_ready p m l P hs kv_mul kv_dim hdim hnh hnkv hd hg hhs hkm hkv hl0 hl1
      (by omega) hP hshape h (by omega)
    simp only [Int.toNat_ofNat] at this
    rw [hloff]
    exact this

/-- Over the reals the value `softmax` leaves is the plain softmax: subtracting
the maximum changes nothing. -/
theorem softmaxVal_exp (F : Libm ℝ) (hexp : F.expf = Real.exp) (xv : Nat → ℝ) (n t : Nat) :
    softmaxVal F xv n t = Real.exp (xv t) / ∑ u in Finset.range n, Real.exp (xv u) := by
  have e : ∀ j, Real.exp (xv j - maxPrefix xv (n - 1)) =
      Real.exp (xv j) * Real.exp (-maxPrefix xv (n - 1)) := by
    intro j; rw [← Real.exp_add]; congr 1
  simp only [softmaxVal, hexp, e, ← Finset.sum_mul]
  rw [mul_div_mul_right _ _ (Real.exp_pos _).ne']

theorem load_zeros {ι : Type} (m : Mem ι α) (b : ι) (n : Nat)
    (hb : m b = List.replicate n 0) (o : Int) (h0 : 0 ≤ o) (h1 : o < n) :
    load m ⟨b, o⟩ = some 0 := by
  have : o.toNat < n := by omega
  simp [load, h0, hb, List.getElem?_replicate, this]

end HeadOrder

theorem attnMem_shape : RunStateShape tinyConfig 4 attnMem :=
  ⟨by simp [attnMem, runState, tinyConfig], by simp [attnMem, runState, tinyConfig],
    by simp [attnMem, runState, tinyConfig], by simp [attnMem, runState, tinyConfig],
    by simp [attnMem, runState, tinyConfig], by simp [attnMem, runState, tinyConfig],
    by simp [attnMem, runState, tinyConfig], by simp [attnMem, runState, tinyConfig],
    by simp [attnMem, runState, tinyConfig], by simp [attnMem, runState, tinyConfig]⟩

theorem heads_order_independent_witness :
    ∃ m', forLoop tinyConfig.n_heads.toNat (fun h m =>
        attention_head (⟨Real.sqrt, Real.exp, fun a b => a ^ b, Real.cos, Real.sin⟩ : Libm ℝ)
          tinyConfig m h 0 ((1 : Nat) : Int) 4 1 ((2 : Nat) : Int)) attnMem = some m' ∧
      headsInOrder (⟨Real.sqrt, Real.exp, fun a b => a ^ b, Real.cos, Real.sin⟩ : Libm ℝ)
        tinyConfig attnMem [1, 0] 0 ((1 : Nat) : Int) 4 1 ((2 : Nat) : Int) = some m' ∧
      Frame (headsWrites tinyConfig (List.range tinyConfig.n_heads.toNat) 1 2) attnMem m' ∧
      (∀ h : Nat, h < tinyConfig.n_heads.toNat →
        (∀ t : Nat, t < 1 + 1 →
          load m' ((⟨Buf.att, (h : Int) * tinyConfig.seq_len⟩ : Ptr Buf).add t) =
            some (headAtt (⟨Real.sqrt, Real.exp, fun a b => a ^ b, Real.cos, Real.sin⟩ : Libm ℝ)
              attnMem (h : Int) 0 4 1 1 2 t)) ∧
        (∀ i : Nat, i < 2 → load m' ((⟨Buf.xb, (h : Int) * (2 : Nat)⟩ : Ptr Buf).add i) =
            some (headOut (⟨Real.sqrt, Real.exp, fun a b => a ^ b, Real.cos, Real.sin⟩ : Libm ℝ)
              attnMem (h : Int) 0 4 1 1 2 i))) ∧
      load attnMem ⟨Buf.xb, 0⟩ = some 0 ∧ load m' ⟨Buf.xb, 0⟩ = some 3 ∧
      load attnMem ⟨Buf.att, 0⟩ = some 0 ∧ load m' ⟨Buf.att, 0⟩ = some (1 / 2) := by
  have T := heads_order_independent
    (⟨Real.sqrt, Real.exp, fun a b => a ^ b, Real.cos, Real.sin⟩ : Libm ℝ) tinyConfig attnMem
    0 4 1 1 2 (by decide) [1, 0] (by decide)
  obtain ⟨m', h1, h2, h3, h4⟩ := T.2.2.2.2.1 (T.2.2.2.2.2 0 (by decide) (by decide) (by decide)
    (by decide) (by decide) (by decide) (by decide) (by decide) (by decide) (by decide)
    (by decide) attnMem_shape)
  have hsm := softmaxVal_exp
    (⟨Real.sqrt, Real.exp, fun a b => a ^ b, Real.cos, Real.sin⟩ : Libm ℝ) rfl
  refine ⟨m', h1, h2, h3, h4, rfl, ?_, rfl, ?_⟩
  · refine ((h4 0 (by decide)).2 0 (by decide)).trans (congrArg some ?_)
    simp [headOut, headAtt, hsm, attScore, headQ, headKV, Finset.sum_range_succ,
      load, attnMem, runState, Ptr.add]
    field_simp
    ring
  · refine ((h4 0 (by decide)).1 0 (by decide)).trans (congrArg some ?_)
    simp [headAtt, hsm, attScore, headQ, headKV, Finset.sum_range_succ,
      load, attnMem, runState, Ptr.add]
    field_simp
    ring



section StepLemmas

variable {ι α : Type} [DecidableEq ι] [LinearOrderedField α]

theorem Block.step {L : ι → Nat} {f : Mem ι α → Option (Mem ι α)} {R W A : Set (Ptr ι)}
    (hb : Block L f R W) (hR : R ⊆ A) : Step L f A (A ∪ W) := by
  intro m1 m2 h1 h2 hA
  obtain ⟨m1', m2', e1, e2, f1, f2, hW⟩ := hb m1 m2 h1 h2 (fun r hr => hA r (hR hr))
  refine ⟨m1', m2', e1, e2, h1.frame f1, h2.frame f2, ?_⟩
  intro r hr
  by_cases hw : r ∈ W
  · exact hW r hw
  · rcases hr with hr | hr
    · rw [f1.2 r hw, f2.2 r hw]; exact hA r hr
    · exact absurd hr hw

theorem Step.seq {L : ι → Nat} {f g : Mem ι α → Option (Mem ι α)} {A B C : Set (Ptr ι)}
    (hf : Step L f A B) (hg : Step L g B C) : Step L (fun m => (f m).bind g) A C := by
  intro m1 m2 h1 h2 hA
  obtain ⟨a1, a2, e1, e2, l1, l2, hB⟩ := hf m1 m2 h1 h2 hA
  obtain ⟨b1, b2, e1', e2', l1', l2', hC⟩ := hg a1 a2 l1 l2 hB
  exact ⟨b1, b2, by simp only [e1, Option.some_bind, e1'], by simp only [e2, Option.some_bind, e2'],
    l1', l2', hC⟩

theorem Step.weaken {L : ι → Nat} {f : Mem ι α → Option (Mem ι α)} {A B B' : Set (Ptr ι)}
    (hf : Step L f A B) (hB : B' ⊆ B) : Step L f A B' := by
  intro m1 m2 h1 h2 hA
  obtain ⟨a1, a2, e1, e2, l1, l2, hB'⟩ := hf m1 m2 h1 h2 hA
  exact ⟨a1, a2, e1, e2, l1, l2, fun r hr => hB' r (hB hr)⟩

theorem Step.loop {L : ι → Nat} {body : Nat → Mem ι α → Option (Mem ι α)} {A : Set (Ptr ι)}
    (n : Nat) (hb : ∀ k, k < n → Step L (body k) A A) : Step L (forLoop n body) A A := by
  induction n with
  | zero => exact fun m1 m2 h1 h2 hA => ⟨m1, m2, rfl, rfl, h1, h2, hA⟩
  | succ n ih =>
    have := (ih (fun k hk => hb k (Nat.lt_succ_of_lt hk))).seq (hb n (Nat.lt_succ_self n))
    exact this

theorem loads_of_agree {L : ι → Nat} {R : Set (Ptr ι)} {m1 m2 : Mem ι α} (h1 : HasLen L m1)
    (hA : Agree R m1 m2) (p : Ptr ι) (n : Int) (hin : InBounds L (region p n))
    (hsub : region p n ⊆ R) (j : Nat) (hj : (j : Int) < n) :
    load m1 (p.add j) = some ((load m1 (p.add j)).getD 0) ∧
    load m2 (p.add j) = some ((load m1 (p.add j)).getD 0) := by
  have hm : p.add j ∈ region p n := add_mem_region p (by omega) hj
  have hi := hin _ hm
  have e := load_getD (h1.inBuf hi.1 hi.2)
  exact ⟨e, by rw [← hA _ (hsub hm)]; exact e⟩

theorem agree_region {m1 m2 : Mem ι α} {p : Ptr ι} {n : Nat} {v : Nat → α}
    (v1 : ∀ i, i < n → load m1 (p.add i) = some (v i))
    (v2 : ∀ i, i < n → load m2 (p.add i) = some (v i)) : Agree (region p n) m1 m2 := by
  intro r hr
  obtain ⟨i, hi, rfl⟩ := exists_of_mem_region hr
  rw [v1 i (by exact_mod_cast hi), v2 i (by exact_mod_cast hi)]

theorem inb_region {L : ι → Nat} {m : Mem ι α} (h : HasLen L m) {p : Ptr ι} {n : Int}
    (hin : InBounds L (region p n)) (j : Nat) (hj : (j : Int) < n) : InB m (p.add j) := by
  have hi := hin _ (add_mem_region p (show (0 : Int) ≤ j by omega) hj)
  exact h.inBuf hi.1 hi.2

/-- What `memcpy` does. -/
theorem memcpy_spec (m : Mem ι α) (dst src : Ptr ι) (n : Nat) (sv : Nat → α)
    (hs : ∀ j, j < n → load m (src.add j) = some (sv j))
    (hd : ∀ j, j < n → InB m (dst.add j))
    (hsep : ∀ j, j < n → src.add j ∉ region dst j) :
    ∃ m', memcpy m dst src n = some m' ∧ Frame (region dst n) m m' ∧
      ∀ j, j < n → load m' (dst.add j) = some (sv j) := by
  unfold memcpy
  simp only [Int.toNat_ofNat, Option.bind_eq_bind]
  refine forLoop_store n dst _ _ m hd ?_
  intro j hj a hF _
  have h1 : load a (src.add j) = some (sv j) := by
    rw [← hs j hj]; exact hF.2 _ (hsep j hj)
  simp only [h1, Option.some_bind]

/-- What the residual loop does: `x[i] + y[i]` at `x + i`. -/
theorem residual_spec (m : Mem Buf α) (x y : Ptr Buf) (n : Nat) (xv yv : Nat → α)
    (hx : ∀ j, j < n → load m (x.add j) = some (xv j))
    (hy : ∀ j, j < n → load m (y.add j) = some (yv j))
    (hsep : ∀ j, j < n → y.add j ∉ region x j) :
    ∃ m', residual m x y n = some m' ∧ Frame (region x n) m m' ∧
      ∀ j, j < n → load m' (x.add j) = some (xv j + yv j) := by
  unfold residual
  simp only [Int.toNat_ofNat, Option.bind_eq_bind]
  refine forLoop_store n x _ _ m (fun j hj => inb_of_load (hx j hj)) ?_
  intro j hj a hF _
  have h1 : load a (x.add j) = some (xv j) := by
    rw [← hx j hj]
    exact hF.2 _ (fun hm => by have := hm.2.2; simp only [Ptr.add_off] at this; omega)
  have h2 : load a (y.add j) = some (yv j) := by
    rw [← hy j hj]; exact hF.2 _ (hsep j hj)
  simp only [h1, h2, Option.some_bind]

/-- What the SwiGLU loop does: `hb[i] * (1 / (1 + expf(-hb[i]))) * hb2[i]` at
`hb + i`. -/
theorem swiglu_spec (F : Libm α) (m : Mem Buf α) (hb hb2 : Ptr Buf) (n : Nat) (hv gv : Nat → α)
    (hx : ∀ j, j < n → load m (hb.add j) = some (hv j))
    (hy : ∀ j, j < n → load m (hb2.add j) = some (gv j))
    (hsep : ∀ j, j < n → hb2.add j ∉ region hb j) :
    ∃ m', swiglu F m hb hb2 n = some m' ∧ Frame (region hb n) m m' ∧
      ∀ j, j < n → load m' (hb.add j) =
        some (hv j * (1 / (1 + F.expf (-hv j))) * gv j) := by
  unfold swiglu
  simp only [Int.toNat_ofNat, Option.bind_eq_bind]
  refine forLoop_store n hb _ _ m (fun j hj => inb_of_load (hx j hj)) ?_
  intro j hj a hF _
  have h1 : load a (hb.add j) = some (hv j) := by
    rw [← hx j hj]
    exact hF.2 _ (fun hm => by have := hm.2.2; simp only [Ptr.add_off] at this; omega)
  have h2 : load a (hb2.add j) = some (gv j) := by
    rw [← hy j hj]; exact hF.2 _ (hsep j hj)
  simp only [h1, h2, Option.some_bind]

theorem Agree.union {A B : Set (Ptr ι)} {m1 m2 : Mem ι α} (hA : Agree A m1 m2)
    (hB : Agree B m1 m2) : Agree (A ∪ B) m1 m2 := by
  intro r hr
  rcases hr with hr | hr
  · exact hA r hr
  · exact hB r hr

theorem matmul_block (L : ι → Nat) (xout x w : Ptr ι) (n d : Int) (hn : 0 ≤ n) (hd : 0 ≤ d)
    (hx : InBounds L (region x n)) (hw : InBounds L (region w (d * n)))
    (ho : InBounds L (region xout d)) (hxo : x.buf ≠ xout.buf) (hwo : w.buf ≠ xout.buf) :
    Block L (fun m : Mem ι α => matmul m xout x w n d)
      (region x n ∪ region w (d * n)) (region xout d) := by
  obtain ⟨n, rfl⟩ := Int.eq_ofNat_of_zero_le hn
  obtain ⟨d, rfl⟩ := Int.eq_ofNat_of_zero_le hd
  intro m1 m2 h1 h2 hA
  have vx := loads_of_agree h1 hA x n hx Set.subset_union_left
  have vw := loads_of_agree h1 hA w _ hw Set.subset_union_right
  obtain ⟨a1, e1, f1, v1⟩ := matmul_spec m1 xout x w n d _ _
    (fun j hj => (vx j (by exact_mod_cast hj)).1) (fun k hk => (vw k (by exact_mod_cast hk)).1)
    (fun i hi => inb_region h1 ho i (by exact_mod_cast hi))
    (fun j _ => not_mem_region_of_buf hxo) (fun k _ => not_mem_region_of_buf hwo)
  obtain ⟨a2, e2, f2, v2⟩ := matmul_spec m2 xout x w n d _ _
    (fun j hj => (vx j (by exact_mod_cast hj)).2) (fun k hk => (vw k (by exact_mod_cast hk)).2)
    (fun i hi => inb_region h2 ho i (by exact_mod_cast hi))
    (fun j _ => not_mem_region_of_buf hxo) (fun k _ => not_mem_region_of_buf hwo)
  exact ⟨a1, a2, e1, e2, f1, f2, agree_region v1 v2⟩

theorem rmsnorm_block (F : Libm α) (L : ι → Nat) (out x weight : Ptr ι) (n : Int) (hn : 0 ≤ n)
    (hx : InBounds L (region x n)) (hw : InBounds L (region weight n))
    (ho : InBounds L (region out n))
    (hxo : ∀ j : Nat, x.add j ∉ region out j) (hwo : weight.buf ≠ out.buf) :
    Block L (fun m : Mem ι α => rmsnorm F m out x weight n)
      (region x n ∪ region weight n) (region out n) := by
  obtain ⟨n, rfl⟩ := Int.eq_ofNat_of_zero_le hn
  intro m1 m2 h1 h2 hA
  have vx := loads_of_agree h1 hA x n hx Set.subset_union_left
  have vw := loads_of_agree h1 hA weight n hw Set.subset_union_right
  obtain ⟨a1, e1, f1, v1⟩ := rmsnorm_spec F m1 out x weight n _ _
    (fun j hj => (vx j (by exact_mod_cast hj)).1) (fun k hk => (vw k (by exact_mod_cast hk)).1)
    (fun i hi => inb_region h1 ho i (by exact_mod_cast hi))
    (fun j _ => hxo j) (fun k _ => not_mem_region_of_buf hwo)
  obtain ⟨a2, e2, f2, v2⟩ := rmsnorm_spec F m2 out x weight n _ _
    (fun j hj => (vx j (by exact_mod_cast hj)).2) (fun k hk => (vw k (by exact_mod_cast hk)).2)
    (fun i hi => inb_region h2 ho i (by exact_mod_cast hi))
    (fun j _ => hxo j) (fun k _ => not_mem_region_of_buf hwo)
  exact ⟨a1, a2, e1, e2, f1, f2, agree_region v1 v2⟩

theorem memcpy_block (L : ι → Nat) (dst src : Ptr ι) (n : Int) (hn : 0 ≤ n)
    (hs : InBounds L (region src n)) (hd : InBounds L (region dst n))
    (hsd : src.buf ≠ dst.buf) :
    Block L (fun m : Mem ι α => memcpy m dst src n) (region src n) (region dst n) := by
  obtain ⟨n, rfl⟩ := Int.eq_ofNat_of_zero_le hn
  intro m1 m2 h1 h2 hA
  have vs := loads_of_agree h1 hA src n hs subset_rfl
  obtain ⟨a1, e1, f1, v1⟩ := memcpy_spec m1 dst src n _
    (fun j hj => (vs j (by exact_mod_cast hj)).1)
    (fun i hi => inb_region h1 hd i (by exact_mod_cast hi))
    (fun j _ => not_mem_region_of_buf hsd)
  obtain ⟨a2, e2, f2, v2⟩ := memcpy_spec m2 dst src n _
    (fun j hj => (vs j (by exact_mod_cast hj)).2)
    (fun i hi => inb_region h2 hd i (by exact_mod_cast hi))
    (fun j _ => not_mem_region_of_buf hsd)
  exact ⟨a1, a2, e1, e2, f1, f2, agree_region v1 v2⟩

theorem residual_block (L : Buf → Nat) (x y : Ptr Buf) (n : Int) (hn : 0 ≤ n)
    (hx : InBounds L (region x n)) (hy : InBounds L (region y n)) (hyx : y.buf ≠ x.buf) :
    Block L (fun m : Mem Buf α => residual m x y n) (region x n ∪ region y n) (region x n) := by
  obtain ⟨n, rfl⟩ := Int.eq_ofNat_of_zero_le hn
  intro m1 m2 h1 h2 hA
  have vx := loads_of_agree h1 hA x n hx Set.subset_union_left
  have vy := loads_of_agree h1 hA y n hy Set.subset_union_right
  obtain ⟨a1, e1, f1, v1⟩ := residual_spec m1 x y n _ _
    (fun j hj => (vx j (by exact_mod_cast hj)).1) (fun k hk => (vy k (by exact_mod_cast hk)).1)
    (fun j _ => not_mem_region_of_buf hyx)
  obtain ⟨a2, e2, f2, v2⟩ := residual_spec m2 x y n _ _
    (fun j hj => (vx j (by exact_mod_cast hj)).2) (fun k hk => (vy k (by exact_mod_cast hk)).2)
    (fun j _ => not_mem_region_of_buf hyx)
  exact ⟨a1, a2, e1, e2, f1, f2, agree_region v1 v2⟩

theorem swiglu_block (F : Libm α) (L : Buf → Nat) (hb hb2 : Ptr Buf) (n : Int) (hn : 0 ≤ n)
    (hx : InBounds L (region hb n)) (hy : InBounds L (region hb2 n))
    (hyx : hb2.buf ≠ hb.buf) :
    Block L (fun m : Mem Buf α => swiglu F m hb hb2 n) (region hb n ∪ region hb2 n)
      (region hb n) := by
  obtain ⟨n, rfl⟩ := Int.eq_ofNat_of_zero_le hn
  intro m1 m2 h1 h2 hA
  have vx := loads_of_agree h1 hA hb n hx Set.subset_union_left
  have vy := loads_of_agree h1 hA hb2 n hy Set.subset_union_right
  obtain ⟨a1, e1, f1, v1⟩ := swiglu_spec F m1 hb hb2 n _ _
    (fun j hj => (vx j (by exact_mod_cast hj)).1) (fun k hk => (vy k (by exact_mod_cast hk)).1)
    (fun j _ => not_mem_region_of_buf hyx)
  obtain ⟨a2, e2, f2, v2⟩ := swiglu_spec F m2 hb hb2 n _ _
    (fun j hj => (vx j (by exact_mod_cast hj)).2) (fun k hk => (vy k (by exact_mod_cast hk)).2)
    (fun j _ => not_mem_region_of_buf hyx)
  exact ⟨a1, a2, e1, e2, f1, f2, agree_region v1 v2⟩

/-- The rotary loop for even `dim` and `kv_dim ≤ dim`: it reads and writes the
`dim` elements at `q` and the `kv_dim` elements at `k`. -/
theorem rope_block (F : Libm α) (L : Buf → Nat) (q k : Ptr Buf) (pos dim kv_dim head_size : Int)
    (hdim : 2 ∣ dim) (hkv : 2 ∣ kv_dim) (hkv0 : 0 ≤ kv_dim) (hle : kv_dim ≤ dim)
    (hhs : head_size ≠ 0) (hbuf : q.buf ≠ k.buf)
    (hq : InBounds L (region q dim)) (hk : InBounds L (region k kv_dim)) :
    Block L (fun m : Mem Buf α => rope F m q k pos dim kv_dim head_size)
      (region q dim ∪ region k kv_dim) (region q dim ∪ region k kv_dim) := by
  obtain ⟨dq, rfl⟩ := hdim
  obtain ⟨dk, rfl⟩ := hkv
  have hE : (2 * dq + 1) / 2 = dq := by omega
  intro m1 m2 h1 h2 hA
  have vq : ∀ j : Nat, (j : Int) < 2 * ((2 * dq + 1) / 2) →
      load m1 (q.add j) = some ((load m1 (q.add j)).getD 0) ∧
      load m2 (q.add j) = some ((load m1 (q.add j)).getD 0) := by
    intro j hj
    exact loads_of_agree h1 hA q _ hq Set.subset_union_left j (by omega)
  have vk : ∀ j : Nat, (j : Int) < 2 * dk →
      load m1 (k.add j) = some ((load m1 (k.add j)).getD 0) ∧
      load m2 (k.add j) = some ((load m1 (k.add j)).getD 0) :=
    fun j hj => loads_of_agree h1 hA k _ hk Set.subset_union_right j hj
  have vk' : ∀ (m : Mem Buf α), (∀ j : Nat, (j : Int) < 2 * dk →
        load m (k.add j) = some ((load m1 (k.add j)).getD 0)) →
      ∀ c : Nat, (c : Int) < (2 * dq + 1) / 2 → 2 * (c : Int) < 2 * dk →
      load m (k.add (2 * (c : Int))) = some ((load m1 (k.add ((2 * c : Nat) : Int))).getD 0) ∧
      load m (k.add (2 * (c : Int) + 1)) =
        some ((load m1 (k.add ((2 * c + 1 : Nat) : Int))).getD 0) := by
    intro m hm c _ hc
    have a := hm (2 * c) (by push_cast; omega)
    have b := hm (2 * c + 1) (by push_cast; omega)
    push_cast at a b
    exact ⟨a, b⟩
  have hsub : ropeWrites q k (2 * dk) ((2 * dq + 1) / 2).toNat ⊆
      region q (2 * dq) ∪ region k (2 * dk) := by
    intro r hr
    obtain ⟨c, hc, hr⟩ := hr
    have hc' : (c : Int) < dq := by omega
    rcases hr with rfl | rfl | ⟨hck, rfl | rfl⟩
    · exact Or.inl (add_mem_region q (by omega) (by omega))
    · exact Or.inl (add_mem_region q (by omega) (by omega))
    · exact Or.inr (add_mem_region k (by omega) (by omega))
    · exact Or.inr (add_mem_region k (by omega) (by omega))
  obtain ⟨a1, e1, f1, q1, k1⟩ := rope_spec F m1 q k pos (2 * dq) (2 * dk) head_size
    (fun j => (load m1 (q.add (j : Int))).getD 0) (fun j => (load m1 (k.add (j : Int))).getD 0)
    hhs hbuf (fun j hj => (vq j hj).1) (vk' m1 (fun j hj => (vk j hj).1))
  obtain ⟨a2, e2, f2, q2, k2⟩ := rope_spec F m2 q k pos (2 * dq) (2 * dk) head_size
    (fun j => (load m1 (q.add (j : Int))).getD 0) (fun j => (load m1 (k.add (j : Int))).getD 0)
    hhs hbuf (fun j hj => (vq j hj).2) (vk' m2 (fun j hj => (vk j hj).2))
  refine ⟨a1, a2, e1, e2, f1.mono hsub, f2.mono hsub, ?_⟩
  have pair : ∀ (v : Ptr Buf) (n : Int) (c1 : ∀ c : Nat, (c : Int) < n →
      load a1 (v.add (2 * (c : Int))) = load a2 (v.add (2 * (c : Int))) ∧
      load a1 (v.add (2 * (c : Int) + 1)) = load a2 (v.add (2 * (c : Int) + 1))),
      Agree (region v (2 * n)) a1 a2 := by
    intro v n c1 r hr
    obtain ⟨j, hj, rfl⟩ := exists_of_mem_region hr
    rcases Nat.even_or_odd' j with ⟨c, rfl | rfl⟩
    · have := (c1 c (by push_cast at hj; omega)).1
      push_cast
      exact this
    · have := (c1 c (by push_cast at hj; omega)).2
      push_cast
      exact this
  refine Agree.union (pair q dq (fun c hc => ?_)) (pair k dk (fun c hc => ?_))
  · obtain ⟨x1, y1⟩ := q1 c (by omega)
    obtain ⟨x2, y2⟩ := q2 c (by omega)
    exact ⟨x1.trans x2.symm, y1.trans y2.symm⟩
  · obtain ⟨x1, y1⟩ := k1 c (by omega) (by omega)
    obtain ⟨x2, y2⟩ := k2 c (by omega) (by omega)
    exact ⟨x1.trans x2.symm, y1.trans y2.symm⟩

/-- Head `h` reads its slice of `q` and its slices of the key and value cache
entries of the timesteps `0..pos`, and writes `headWrites`. -/
theorem attention_head_block (F : Libm α) (p : TransformerConfig) (L : Buf → Nat)
    (h loff pos kv_dim kv_mul head_size : Int) (hp0 : 0 ≤ pos) (hhs0 : 0 ≤ head_size)
    (hmul : kv_mul ≠ 0)
    (hq : InBounds L (region ⟨Buf.q, h * head_size⟩ head_size))
    (hk : ∀ t : Int, 0 ≤ t → t ≤ pos → InBounds L (region
      ⟨Buf.key_cache, loff + t * kv_dim + Int.tdiv h kv_mul * head_size⟩ head_size))
    (hv : ∀ t : Int, 0 ≤ t → t ≤ pos → InBounds L (region
      ⟨Buf.value_cache, loff + t * kv_dim + Int.tdiv h kv_mul * head_size⟩ head_size))
    (hatt : InBounds L (region ⟨Buf.att, h * p.seq_len⟩ (pos + 1)))
    (hxb : InBounds L (region ⟨Buf.xb, h * head_size⟩ head_size)) :
    Block L (fun m : Mem Buf α => attention_head F p m h loff pos kv_dim kv_mul head_size)
      (region ⟨Buf.q, h * head_size⟩ head_size ∪ {r | ∃ t : Int, 0 ≤ t ∧ t ≤ pos ∧
        (r ∈ region ⟨Buf.key_cache, loff + t * kv_dim + Int.tdiv h kv_mul * head_size⟩
            head_size ∨
          r ∈ region ⟨Buf.value_cache, loff + t * kv_dim + Int.tdiv h kv_mul * head_size⟩
            head_size)})
      (region ⟨Buf.att, h * p.seq_len⟩ (pos + 1) ∪ region ⟨Buf.xb, h * head_size⟩ head_size) := by
  obtain ⟨P, rfl⟩ := Int.eq_ofNat_of_zero_le hp0
  obtain ⟨hs, rfl⟩ := Int.eq_ofNat_of_zero_le hhs0
  intro m1 m2 h1 h2 hA
  have vq := loads_of_agree h1 hA _ _ hq Set.subset_union_left
  have vk : ∀ t : Nat, t < P + 1 → ∀ i : Nat, i < hs → _ := fun t ht i hi =>
    loads_of_agree h1 hA _ _ (hk t (by omega) (by omega))
      (fun r hr => Or.inr ⟨t, by omega, by omega, Or.inl hr⟩) i (by exact_mod_cast hi)
  have vv : ∀ t : Nat, t < P + 1 → ∀ i : Nat, i < hs → _ := fun t ht i hi =>
    loads_of_agree h1 hA _ _ (hv t (by omega) (by omega))
      (fun r hr => Or.inr ⟨t, by omega, by omega, Or.inr hr⟩) i (by exact_mod_cast hi)
  have eP : ((P : Int) + 1) = ((P + 1 : Nat) : Int) := by push_cast; rfl
  rw [eP] at hatt ⊢
  obtain ⟨a1, e1, f1, t1, x1⟩ := attention_head_spec F p m1 h loff kv_dim kv_mul P hs
    (fun i => (load m1 ((⟨Buf.q, h * hs⟩ : Ptr Buf).add i)).getD 0)
    (fun t i => (load m1 ((⟨Buf.key_cache, loff + (t : Int) * kv_dim +
      Int.tdiv h kv_mul * hs⟩ : Ptr Buf).add i)).getD 0)
    (fun t i => (load m1 ((⟨Buf.value_cache, loff + (t : Int) * kv_dim +
      Int.tdiv h kv_mul * hs⟩ : Ptr Buf).add i)).getD 0) hmul
    (fun i hi => (vq i (by exact_mod_cast hi)).1)
    (fun t ht i hi => (vk t ht i hi).1) (fun t ht i hi => (vv t ht i hi).1)
    (fun t ht => inb_region h1 hatt t (by exact_mod_cast ht))
    (fun i hi => inb_region h1 hxb i (by exact_mod_cast hi))
  obtain ⟨a2, e2, f2, t2, x2⟩ := attention_head_spec F p m2 h loff kv_dim kv_mul P hs
    (fun i => (load m1 ((⟨Buf.q, h * hs⟩ : Ptr Buf).add i)).getD 0)
    (fun t i => (load m1 ((⟨Buf.key_cache, loff + (t : Int) * kv_dim +
      Int.tdiv h kv_mul * hs⟩ : Ptr Buf).add i)).getD 0)
    (fun t i => (load m1 ((⟨Buf.value_cache, loff + (t : Int) * kv_dim +
      Int.tdiv h kv_mul * hs⟩ : Ptr Buf).add i)).getD 0) hmul
    (fun i hi => (vq i (by exact_mod_cast hi)).2)
    (fun t ht i hi => (vk t ht i hi).2) (fun t ht i hi => (vv t ht i hi).2)
    (fun t ht => inb_region h2 hatt t (by exact_mod_cast ht))
    (fun i hi => inb_region h2 hxb i (by exact_mod_cast hi))
  exact ⟨a1, a2, e1, e2, f1, f2, Agree.union (agree_region t1 t2) (agree_region x1 x2)⟩

end StepLemmas

/-! ## The layer and the forward step -/

section ForwardStep

variable {α : Type} [LinearOrderedField α]

theorem slice_bound {a n len : Int} (ha : 0 ≤ a) (han : a < n) (hlen : 0 ≤ len) :
    0 ≤ a * len ∧ a * len + len ≤ n * len := by
  have h1 : 0 ≤ a * len := mul_nonneg ha hlen
  have h2 : (a + 1) * len ≤ n * len := mul_le_mul_of_nonneg_right (by omega) hlen
  have e : (a + 1) * len = a * len + len := by ring
  omega

theorem inBounds_region (m0 : Mem Buf α) (b : Buf) (off n len : Int)
    (hlen : ((m0 b).length : Int) = len) (h0 : 0 ≤ off) (h1 : off + n ≤ len) :
    InBounds (fun b => (m0 b).length) (region ⟨b, off⟩ n) := by
  intro r hr
  obtain ⟨hb, r0, r1⟩ := hr
  simp only at hb r0 r1
  refine ⟨by omega, ?_⟩
  show r.off < ((m0 r.buf).length : Int)
  rw [hb, hlen]
  omega

theorem region_subset {b : Buf} {off off' n n' : Int} (h0 : off' ≤ off)
    (h1 : off + n ≤ off' + n') : region (⟨b, off⟩ : Ptr Buf) n ⊆ region ⟨b, off'⟩ n' := by
  intro r hr
  obtain ⟨hb, r0, r1⟩ := hr
  simp only at hb r0 r1
  exact ⟨hb, by simp only; omega, by simp only; omega⟩

/-- One layer of `forward`, for an even `kv_dim`: from two states that agree on
the checkpoint, the cache entries of the earlier timesteps and `x`, both runs
return and the results agree on these again. -/
theorem layer_step (F : Libm α) (p : TransformerConfig) (w : TransformerWeights)
    (m0 : Mem Buf α) (l pos head_size kv_mul kv_dim : Int)
    (hdim : 0 < p.dim) (hhid : 0 ≤ p.hidden_dim) (hnh : 0 < p.n_heads)
    (hnkv : 0 < p.n_kv_heads) (hd : p.n_heads ∣ p.dim) (hg : p.n_kv_heads ∣ p.n_heads)
    (hhs : cdiv p.dim p.n_heads = some head_size)
    (hkm : cdiv p.n_heads p.n_kv_heads = some kv_mul)
    (hkv : cdiv (p.dim * p.n_kv_heads) p.n_heads = some kv_dim) (heven : 2 ∣ kv_dim)
    (hl0 : 0 ≤ l) (hl1 : l < p.n_layers) (hp0 : 0 ≤ pos) (hp1 : pos < p.seq_len)
    (hshape : RunStateShape p kv_dim m0)
    (hfit : WeightsFit p w kv_dim ((m0 Buf.data).length : Int)) :
    Step (fun b => (m0 b).length)
      (fun m => layer F p w m l pos p.dim kv_dim kv_mul p.hidden_dim head_size)
      (causalView p kv_dim pos ∪ region ⟨Buf.x, 0⟩ p.dim)
      (causalView p kv_dim pos ∪ region ⟨Buf.x, 0⟩ p.dim) := by
  obtain ⟨hs, k, hs0, hk0, hdimeq, hnheq, e1, e2, e3⟩ := config_shape p hdim hnh hnkv hd hg
  obtain rfl : hs = head_size := by rw [e1] at hhs; exact Option.some.inj hhs
  obtain rfl : k = kv_mul := by rw [e2] at hkm; exact Option.some.inj hkm
  obtain rfl : p.n_kv_heads * hs = kv_dim := by rw [e3] at hkv; exact Option.some.inj hkv
  have hkv0 : 0 ≤ p.n_kv_heads * hs := mul_nonneg hnkv.le hs0.le
  have hkvle : p.n_kv_heads * hs ≤ p.dim := by
    rw [hdimeq]
    exact mul_le_mul_of_nonneg_right (by nlinarith) hs0.le
  have hdim2 : 2 ∣ p.dim := by
    have e : p.dim = p.n_kv_heads * hs * k := by rw [hdimeq, hnheq]; ring
    rw [e]
    exact Dvd.dvd.mul_right heven k
  have hseq : 0 < p.seq_len := by omega
  have hent : 0 ≤ l * p.seq_len * (p.n_kv_heads * hs) + pos * (p.n_kv_heads * hs) ∧
      l * p.seq_len * (p.n_kv_heads * hs) + pos * (p.n_kv_heads * hs) + p.n_kv_heads * hs ≤
        p.n_layers * p.seq_len * (p.n_kv_heads * hs) := by
    have b1 := slice_bound hp0 hp1 hkv0
    have b2 := slice_bound hl0 hl1 (mul_nonneg hseq.le hkv0)
    have ea : l * p.seq_len * (p.n_kv_heads * hs) = l * (p.seq_len * (p.n_kv_heads * hs)) := by
      ring
    have eb : p.n_layers * p.seq_len * (p.n_kv_heads * hs) =
        p.n_layers * (p.seq_len * (p.n_kv_heads * hs)) := by ring
    rw [ea, eb]
    omega
  have ix := inBounds_region m0 Buf.x 0 p.dim p.dim hshape.x le_rfl (by omega)
  have ixb := inBounds_region m0 Buf.xb 0 p.dim p.dim hshape.xb le_rfl (by omega)
  have ixb2 := inBounds_region m0 Buf.xb2 0 p.dim p.dim hshape.xb2 le_rfl (by omega)
  have iq := inBounds_region m0 Buf.q 0 p.dim p.dim hshape.q le_rfl (by omega)
  have ihb := inBounds_region m0 Buf.hb 0 p.hidden_dim p.hidden_dim hshape.hb le_rfl (by omega)
  have ihb2 := inBounds_region m0 Buf.hb2 0 p.hidden_dim p.hidden_dim hshape.hb2 le_rfl
    (by omega)
  have ik := inBounds_region m0 Buf.key_cache
    (l * p.seq_len * (p.n_kv_heads * hs) + pos * (p.n_kv_heads * hs)) (p.n_kv_heads * hs) _
    hshape.key_cache hent.1 hent.2
  have iv := inBounds_region m0 Buf.value_cache
    (l * p.seq_len * (p.n_kv_heads * hs) + pos * (p.n_kv_heads * hs)) (p.n_kv_heads * hs) _
    hshape.value_cache hent.1 hent.2
  have idat : ∀ (base len off : Int),
      (0 ≤ base ∧ base + p.n_layers * len ≤ ((m0 Buf.data).length : Int)) → 0 ≤ len →
      off = base + l * len →
      InBounds (fun b => (m0 b).length) (region (⟨Buf.data, off⟩ : Ptr Buf) len) := by
    intro base len off hb hlen hoff
    have b := slice_bound hl0 hl1 hlen
    exact inBounds_region m0 Buf.data off len _ rfl (by omega) (by omega)
  have B1 := rmsnorm_block F (fun b => (m0 b).length) ⟨Buf.xb, 0⟩ ⟨Buf.x, 0⟩
    ⟨Buf.data, w.rms_att_weight + l * p.dim⟩ p.dim hdim.le ix
    (idat _ _ _ hfit.rms_att_weight hdim.le rfl) ixb
    (fun j => not_mem_region_of_buf (by simp [Ptr.add])) (by simp)
  have B2 := matmul_block (α := α) (fun b => (m0 b).length) ⟨Buf.q, 0⟩ ⟨Buf.xb, 0⟩
    ⟨Buf.data, w.wq + l * p.dim * p.dim⟩ p.dim p.dim hdim.le hdim.le ixb
    (idat _ _ _ hfit.wq (mul_nonneg hdim.le hdim.le) (by ring)) iq (by simp) (by simp)
  have B3 := matmul_block (α := α) (fun b => (m0 b).length)
    ⟨Buf.key_cache, l * p.seq_len * (p.n_kv_heads * hs) + pos * (p.n_kv_heads * hs)⟩
    ⟨Buf.xb, 0⟩ ⟨Buf.data, w.wk + l * p.dim * (p.n_kv_heads * hs)⟩ p.dim (p.n_kv_heads * hs)
    hdim.le hkv0 ixb (idat _ _ _ hfit.wk (mul_nonneg hkv0 hdim.le) (by ring)) ik
    (by simp) (by simp)
  have B4 := matmul_block (α := α) (fun b => (m0 b).length)
    ⟨Buf.value_cache, l * p.seq_len * (p.n_kv_heads * hs) + pos * (p.n_kv_heads * hs)⟩
    ⟨Buf.xb, 0⟩ ⟨Buf.data, w.wv + l * p.dim * (p.n_kv_heads * hs)⟩ p.dim (p.n_kv_heads * hs)
    hdim.le hkv0 ixb (idat _ _ _ hfit.wv (mul_nonneg hkv0 hdim.le) (by ring)) iv
    (by simp) (by simp)
  have B5 := rope_block F (fun b => (m0 b).length) ⟨Buf.q, 0⟩
    ⟨Buf.key_cache, l * p.seq_len * (p.n_kv_heads * hs) + pos * (p.n_kv_heads * hs)⟩
    pos p.dim (p.n_kv_heads * hs) hs hdim2 heven hkv0 hkvle hs0.ne' (by simp) iq ik
  have B7 := matmul_block (α := α) (fun b => (m0 b).length) ⟨Buf.xb2, 0⟩ ⟨Buf.xb, 0⟩
    ⟨Buf.data, w.wo + l * p.dim * p.dim⟩ p.dim p.dim hdim.le hdim.le ixb
    (idat _ _ _ hfit.wo (mul_nonneg hdim.le hdim.le) (by ring)) ixb2 (by simp) (by simp)
  have B8 := residual_block (α := α) (fun b => (m0 b).length) ⟨Buf.x, 0⟩ ⟨Buf.xb2, 0⟩ p.dim
    hdim.le ix ixb2 (by simp)
  have B9 := rmsnorm_block F (fun b => (m0 b).length) ⟨Buf.xb, 0⟩ ⟨Buf.x, 0⟩
    ⟨Buf.data, w.rms_ffn_weight + l * p.dim⟩ p.dim hdim.le ix
    (idat _ _ _ hfit.rms_ffn_weight hdim.le rfl) ixb
    (fun j => not_mem_region_of_buf (by simp [Ptr.add])) (by simp)
  have B10 := matmul_block (α := α) (fun b => (m0 b).length) ⟨Buf.hb, 0⟩ ⟨Buf.xb, 0⟩
    ⟨Buf.data, w.w1 + l * p.dim * p.hidden_dim⟩ p.dim p.hidden_dim hdim.le hhid ixb
    (idat _ _ _ hfit.w1 (mul_nonneg hhid hdim.le) (by ring)) ihb (by simp) (by simp)
  have B11 := matmul_block (α := α) (fun b => (m0 b).length) ⟨Buf.hb2, 0⟩ ⟨Buf.xb, 0⟩
    ⟨Buf.data, w.w3 + l * p.dim * p.hidden_dim⟩ p.dim p.hidden_dim hdim.le hhid ixb
    (idat _ _ _ hfit.w3 (mul_nonneg hhid hdim.le) (by ring)) ihb2 (by simp) (by simp)
  have B12 := swiglu_block F (fun b => (m0 b).length) ⟨Buf.hb, 0⟩ ⟨Buf.hb2, 0⟩ p.hidden_dim
    hhid ihb ihb2 (by simp)
  have B13 := matmul_block (α := α) (fun b => (m0 b).length) ⟨Buf.xb, 0⟩ ⟨Buf.hb, 0⟩
    ⟨Buf.data, w.w2 + l * p.dim * p.hidden_dim⟩ p.hidden_dim p.dim hhid hdim.le ihb
    (idat _ _ _ hfit.w2 (mul_nonneg hdim.le hhid) (by ring)) ixb (by simp) (by simp)
  have B14 := residual_block (α := α) (fun b => (m0 b).length) ⟨Buf.x, 0⟩ ⟨Buf.xb, 0⟩ p.dim
    hdim.le ix ixb (by simp)
  have hdata : ∀ (off n : Int) (r : Ptr Buf), r ∈ region (⟨Buf.data, off⟩ : Ptr Buf) n →
      r ∈ causalView p (p.n_kv_heads * hs) pos := fun off n r hr => Or.inl hr.1
  refine Step.weaken (Step.seq (B1.step ?s1) (Step.seq (B2.step ?s2) (Step.seq (B3.step ?s3)
    (Step.seq (B4.step ?s4) (Step.seq (B5.step ?s5) (Step.seq (Step.loop _ ?heads)
    (Step.seq (B7.step ?s7) (Step.seq (B8.step ?s8) (Step.seq (B9.step ?s9)
    (Step.seq (B10.step ?s10) (Step.seq (B11.step ?s11) (Step.seq (B12.step ?s12)
    (Step.seq (B13.step ?s13) (B14.step ?s14)))))))))))))) ?fin
  case heads =>
    intro h hh
    have hh' : (h : Int) < p.n_heads := by omega
    have hg0 : 0 ≤ Int.tdiv h k := Int.tdiv_nonneg (by omega) hk0.le
    have hg1 : Int.tdiv h k < p.n_kv_heads := by
      rw [Int.tdiv_eq_ediv (by omega) hk0.le]
      exact Int.ediv_lt_of_lt_mul hk0 (by rw [← hnheq]; exact hh')
    have bq := slice_bound (show (0 : Int) ≤ h by omega) hh' hs0.le
    have bg := slice_bound hg0 hg1 hs0.le
    have ba := slice_bound (show (0 : Int) ≤ h by omega) hh' hseq.le
    have bl := slice_bound hl0 hl1 (mul_nonneg hseq.le hkv0)
    have ea : l * p.seq_len * (p.n_kv_heads * hs) = l * (p.seq_len * (p.n_kv_heads * hs)) := by
      ring
    have eb : p.n_layers * p.seq_len * (p.n_kv_heads * hs) =
        p.n_layers * (p.seq_len * (p.n_kv_heads * hs)) := by ring
    have hslot : ∀ t : Int, 0 ≤ t → t ≤ pos →
        0 ≤ t * (p.n_kv_heads * hs) ∧
        l * p.seq_len * (p.n_kv_heads * hs) + t * (p.n_kv_heads * hs) + p.n_kv_heads * hs ≤
          p.n_layers * p.seq_len * (p.n_kv_heads * hs) := by
      intro t t0 t1
      have bt := slice_bound t0 (show t < p.seq_len by omega) hkv0
      rw [ea, eb]
      omega
    have hB := attention_head_block F p (fun b => (m0 b).length) h
      (l * p.seq_len * (p.n_kv_heads * hs)) pos (p.n_kv_heads * hs) k hs hp0 hs0.le hk0.ne'
      (inBounds_region m0 Buf.q _ _ _ hshape.q bq.1 (by rw [hdimeq]; exact bq.2))
      (fun t t0 t1 => inBounds_region m0 Buf.key_cache _ _ _ hshape.key_cache
        (by have := hslot t t0 t1; rw [ea] at this ⊢; omega)
        (by have := hslot t t0 t1; omega))
      (fun t t0 t1 => inBounds_region m0 Buf.value_cache _ _ _ hshape.value_cache
        (by have := hslot t t0 t1; rw [ea] at this ⊢; omega)
        (by have := hslot t t0 t1; omega))
      (inBounds_region m0 Buf.att _ _ _ hshape.att ba.1 (by omega))
      (inBounds_region m0 Buf.xb _ _ _ hshape.xb bq.1 (by rw [hdimeq]; exact bq.2))
    refine (hB.step ?_).weaken Set.subset_union_left
    intro r hr
    rcases hr with hr | ⟨t, t0, t1, hr⟩
    · have hq' : r ∈ region (⟨Buf.q, 0⟩ : Ptr Buf) p.dim :=
        region_subset (by omega) (by rw [hdimeq]; omega) hr
      simp only [Set.mem_union, hq', true_or, or_true]
    · rcases lt_or_eq_of_le t1 with tlt | rfl
      · have hv : r ∈ causalView p (p.n_kv_heads * hs) pos := by
          refine Or.inr ⟨l, t, hl0, hl1, t0, tlt, ?_⟩
          rcases hr with hr | hr
          · exact Or.inl (region_subset (by omega) (by omega) hr)
          · exact Or.inr (region_subset (by omega) (by omega) hr)
        simp only [Set.mem_union, hv, true_or, or_true]
      · rcases hr with hr | hr
        · have hk' : r ∈ region (⟨Buf.key_cache, l * p.seq_len * (p.n_kv_heads * hs) +
              t * (p.n_kv_heads * hs)⟩ : Ptr Buf) (p.n_kv_heads * hs) :=
            region_subset (by omega) (by omega) hr
          simp only [Set.mem_union, hk', true_or, or_true]
        · have hv' : r ∈ region (⟨Buf.value_cache, l * p.seq_len * (p.n_kv_heads * hs) +
              t * (p.n_kv_heads * hs)⟩ : Ptr Buf) (p.n_kv_heads * hs) :=
            region_subset (by omega) (by omega) hr
          simp only [Set.mem_union, hv', true_or, or_true]
  all_goals
    intro r hr
    simp only [Set.mem_union] at hr ⊢
    rcases hr with hr | hr
    · simp only [hr, true_or, or_true]
    · first
        | simp only [hr, true_or, or_true]
        | (have hd := hdata _ _ r hr; simp only [hd, true_or, or_true])

/-- `forward(token, pos)` for an even `kv_dim`, the row of `token` lying inside
the checkpoint: from two states that agree on the checkpoint and on the cache
entries of the timesteps before `pos`, both runs return and the logits agree. -/
theorem forward_step (F : Libm α) (p : TransformerConfig) (w : TransformerWeights)
    (m0 : Mem Buf α) (token pos head_size kv_mul kv_dim : Int)
    (hdim : 0 < p.dim) (hhid : 0 ≤ p.hidden_dim) (hnh : 0 < p.n_heads)
    (hnkv : 0 < p.n_kv_heads) (hvoc : 0 ≤ p.vocab_size) (hnl : 0 ≤ p.n_layers)
    (hd : p.n_heads ∣ p.dim) (hg : p.n_kv_heads ∣ p.n_heads)
    (hhs : cdiv p.dim p.n_heads = some head_size)
    (hkm : cdiv p.n_heads p.n_kv_heads = some kv_mul)
    (hkv : cdiv (p.dim * p.n_kv_heads) p.n_heads = some kv_dim) (heven : 2 ∣ kv_dim)
    (hp0 : 0 ≤ pos) (hp1 : pos < p.seq_len)
    (hshape : RunStateShape p kv_dim m0)
    (hfit : WeightsFit p w kv_dim ((m0 Buf.data).length : Int))
    (hrow : 0 ≤ w.token_embedding_table + token * p.dim ∧
      w.token_embedding_table + token * p.dim + p.dim ≤ ((m0 Buf.data).length : Int)) :
    Step (fun b => (m0 b).length) (fun m => forward F p w m token pos)
      (causalView p kv_dim pos) (region ⟨Buf.logits, 0⟩ p.vocab_size) := by
  have hfun : (fun m : Mem Buf α => forward F p w m token pos) = (fun m =>
      (memcpy m ⟨Buf.x, 0⟩ ⟨Buf.data, w.token_embedding_table + token * p.dim⟩ p.dim).bind
        fun m => (forLoop (wrapULL p.n_layers).toNat (fun l m =>
          layer F p w m l pos p.dim kv_dim kv_mul p.hidden_dim head_size) m).bind
        fun m => (rmsnorm F m ⟨Buf.x, 0⟩ ⟨Buf.x, 0⟩ ⟨Buf.data, w.rms_final_weight⟩ p.dim).bind
        fun m => matmul m ⟨Buf.logits, 0⟩ ⟨Buf.x, 0⟩ ⟨Buf.data, w.wcls⟩ p.dim p.vocab_size) := by
    funext m
    unfold forward
    simp only [Option.bind_eq_bind, hkv, hkm, hhs, Option.some_bind]
  rw [hfun]
  have ix := inBounds_region m0 Buf.x 0 p.dim p.dim hshape.x le_rfl (by omega)
  have Bm := memcpy_block (α := α) (fun b => (m0 b).length) ⟨Buf.x, 0⟩
    ⟨Buf.data, w.token_embedding_table + token * p.dim⟩ p.dim hdim.le
    (inBounds_region m0 Buf.data _ _ _ rfl hrow.1 hrow.2) ix (by simp)
  have Br := rmsnorm_block F (fun b => (m0 b).length) ⟨Buf.x, 0⟩ ⟨Buf.x, 0⟩
    ⟨Buf.data, w.rms_final_weight⟩ p.dim hdim.le ix
    (inBounds_region m0 Buf.data _ _ _ rfl hfit.rms_final_weight.1 hfit.rms_final_weight.2) ix
    (fun j hm => by have := hm.2.2; simp only [Ptr.add_off] at this; omega) (by simp)
  have Bl := matmul_block (α := α) (fun b => (m0 b).length) ⟨Buf.logits, 0⟩ ⟨Buf.x, 0⟩
    ⟨Buf.data, w.wcls⟩ p.dim p.vocab_size hdim.le hvoc ix
    (inBounds_region m0 Buf.data _ _ _ rfl hfit.wcls.1 hfit.wcls.2)
    (inBounds_region m0 Buf.logits 0 p.vocab_size _ hshape.logits le_rfl (by omega))
    (by simp) (by simp)
  have hdata : ∀ (off n : Int) (r : Ptr Buf), r ∈ region (⟨Buf.data, off⟩ : Ptr Buf) n →
      r ∈ causalView p kv_dim pos := fun off n r hr => Or.inl hr.1
  refine Step.weaken (Step.seq (Bm.step ?s1) (Step.seq (Step.loop _ ?layers)
    (Step.seq (Br.step ?s3) (Bl.step ?s4)))) ?fin
  case layers =>
    intro l hl
    exact layer_step F p w m0 l pos head_size kv_mul kv_dim hdim hhid hnh hnkv hd hg hhs hkm
      hkv heven (by omega) (lt_of_lt_wrapULL hnl hl) hp0 hp1 hshape hfit
  case s1 => exact fun r hr => hdata _ _ r hr
  case fin => exact fun r hr => Or.inr hr
  all_goals
    intro r hr
    simp only [Set.mem_union] at hr ⊢
    rcases hr with hr | hr
    · simp only [hr, true_or, or_true]
    · have hd := hdata _ _ r hr
      simp only [hd, true_or, or_true]

/-- `forward(token, pos)` returns, for an even `kv_dim` and a row of `token`
inside the checkpoint; no buffer changes its length. -/
theorem forward_returns (F : Libm α) (p : TransformerConfig) (w : TransformerWeights)
    (m : Mem Buf α) (token pos head_size kv_mul kv_dim : Int)
    (hdim : 0 < p.dim) (hhid : 0 ≤ p.hidden_dim) (hnh : 0 < p.n_heads)
    (hnkv : 0 < p.n_kv_heads) (hvoc : 0 ≤ p.vocab_size) (hnl : 0 ≤ p.n_layers)
    (hd : p.n_heads ∣ p.dim) (hg : p.n_kv_heads ∣ p.n_heads)
    (hhs : cdiv p.dim p.n_heads = some head_size)
    (hkm : cdiv p.n_heads p.n_kv_heads = some kv_mul)
    (hkv : cdiv (p.dim * p.n_kv_heads) p.n_heads = some kv_dim) (heven : 2 ∣ kv_dim)
    (hp0 : 0 ≤ pos) (hp1 : pos < p.seq_len)
    (hshape : RunStateShape p kv_dim m)
    (hfit : WeightsFit p w kv_dim ((m Buf.data).length : Int))
    (hrow : 0 ≤ w.token_embedding_table + token * p.dim ∧
      w.token_embedding_table + token * p.dim + p.dim ≤ ((m Buf.data).length : Int)) :
    ∃ m', forward F p w m token pos = some m' ∧ SameLen m m' := by
  obtain ⟨m', -, e, -, hl, -, -⟩ := forward_step F p w m token pos head_size kv_mul kv_dim hdim
    hhid hnh hnkv hvoc hnl hd hg hhs hkm hkv heven hp0 hp1 hshape hfit hrow m m (fun _ => rfl)
    (fun _ => rfl) (fun _ _ => rfl)
  exact ⟨m', e, hl⟩

end ForwardStep

/-! ## The value-cache entry of layer 0 -/

section ValueEntry

variable {α : Type} [LinearOrderedField α]

end ValueEntry

/-! ## Causal reads and the absent precondition check -/

section ForwardClaims

variable {α : Type} [LinearOrderedField α]

theorem tinyMem_shape : RunStateShape tinyConfig 4 (tinyMem : Mem Buf α) :=
  ⟨by simp [tinyMem, runState, tinyConfig], by simp [tinyMem, runState, tinyConfig],
    by simp [tinyMem, runState, tinyConfig], by simp [tinyMem, runState, tinyConfig],
    by simp [tinyMem, runState, tinyConfig], by simp [tinyMem, runState, tinyConfig],
    by simp [tinyMem, runState, tinyConfig], by simp [tinyMem, runState, tinyConfig],
    by simp [tinyMem, runState, tinyConfig], by simp [tinyMem, runState, tinyConfig]⟩

theorem tinyMem_data_length : (((tinyMem : Mem Buf α) Buf.data).length : Int) = 207 := by
  simp only [tinyMem, runState, List.length_replicate]
  rfl

theorem tinyWeights_fit : WeightsFit tinyConfig tinyWeights 4 207 :=
  ⟨by decide, by decide, by decide, by decide, by decide, by decide, by decide, by decide,
    by decide, by decide, by decide⟩

theorem tinyWeights_layout : memory_map_weights Arith.exact tinyConfig 7 1 = some tinyWeights := by
  decide

end ForwardClaims

theorem forward_cache_untouched_witness :
    ∃ m', forward ratLibm tinyConfig tinyWeights (tinyMem : Mem Buf ℚ) 0 1 = some m' ∧
      (∀ l pos i : Int, 0 ≤ pos → pos < 1 → 0 ≤ i → i < 4 →
        load m' ⟨Buf.key_cache, l * tinyConfig.seq_len * 4 + pos * 4 + i⟩ =
          load (tinyMem : Mem Buf ℚ) ⟨Buf.key_cache, l * tinyConfig.seq_len * 4 + pos * 4 + i⟩ ∧
        load m' ⟨Buf.value_cache, l * tinyConfig.seq_len * 4 + pos * 4 + i⟩ =
          load (tinyMem : Mem Buf ℚ)
            ⟨Buf.value_cache, l * tinyConfig.seq_len * 4 + pos * 4 + i⟩) ∧
      (∀ q : Ptr Buf, q.buf = Buf.key_cache ∨ q.buf = Buf.value_cache →
        (¬ ∃ l' : Int, 0 ≤ l' ∧ l' < tinyConfig.n_layers ∧
          q ∈ cacheEntry q.buf tinyConfig.seq_len 4 l' 1) →
        load m' q = load (tinyMem : Mem Buf ℚ) q) := by
  obtain ⟨m', e, -⟩ := forward_returns ratLibm tinyConfig tinyWeights (tinyMem : Mem Buf ℚ)
    0 1 2 1 4 (by decide) (by decide) (by decide) (by decide) (by decide) (by decide)
    (by decide) (by decide) (by decide) (by decide) (by decide) (by decide) (by decide) (by decide)
    tinyMem_shape (by rw [tinyMem_data_length]; exact tinyWeights_fit)
    (by rw [tinyMem_data_length]; decide)
  exact ⟨m', e, forward_cache_untouched ratLibm tinyConfig tinyWeights tinyMem m' 0 1 4
    (by decide) (by decide) (by decide) (by decide) (by decide) e⟩

section OddKvToken

variable (F : Libm ℝ)
  (x0 x1 b0 b1 c0 c1 h0 g0 q0 q1 a0 a1 a2 a3 a4 a5 l0 k0 k1 k2 v0 v1 v2 : ℝ)

end OddKvToken

end Llama2
